import Mathlib

/-!
Verification development for the nyaya-ams repository.

This file shallowly embeds the core of the repository in Lean 4:

* `backend/app/utils/pii_redactor.py` — the reversible PII redaction codec
  (`PIIRedactor.redact` / `PIIRedactor.restore`).  Text is modelled as
  `List Char`; Python's `re` character classes `\d`, `\w`, `\s` are modelled
  as their ASCII subsets (all inputs of interest in the repository and all
  concrete inputs used below are ASCII).  `str.replace` is modelled by
  `replAll`, Python's `re.finditer` by `finditer` (left-to-right scan,
  non-overlapping, leftmost match with the same backtracking order as the
  six concrete patterns of `PIIRedactor.PATTERNS`).

* `backend/app/services/workflow_state.py`, `orchestrator.py` and
  `backend/app/api/v1/endpoints.py` — the session store and the workflow
  operations, embedded further below as explicit state-passing functions.
-/

set_option maxHeartbeats 1000000

namespace Nyaya

/-- Text is a list of characters (Python `str`). -/
abbrev Str := List Char

/-- Convert a Lean string literal to the `Str` model. -/
def toL (s : String) : Str := s.toList

/-! ### Character classes (ASCII models of Python's `re` classes) -/

/-- Python `\w` (ASCII subset): letters, digits and underscore. -/
def isWordChar (c : Char) : Bool := c.isAlphanum || c == '_'

/-- Word-character test on an optional character; `none` (start/end of text)
is not a word character, as in Python's `\b` semantics. -/
def isWordO : Option Char → Bool
  | none => false
  | some c => isWordChar c

/-- Python `\s` (ASCII subset). -/
def isSpaceRe (c : Char) : Bool :=
  c == ' ' || c == '\t' || c == '\n' || c == '\x0b' || c == '\x0c' || c == '\r'

/-- Python `\d` (ASCII subset). -/
def isDigitRe (c : Char) : Bool := c.isDigit

/-- The class `[A-Z]`. -/
def isUpperRe (c : Char) : Bool := c.isUpper

/-- The class `[a-z]`. -/
def isLowerRe (c : Char) : Bool := c.isLower

/-- The class `[A-Za-z0-9._%+-]` (local part of the email pattern). -/
def isEmailLocal (c : Char) : Bool :=
  c.isAlphanum || c == '.' || c == '_' || c == '%' || c == '+' || c == '-'

/-- The class `[A-Za-z0-9.-]` (domain part of the email pattern). -/
def isEmailDomain (c : Char) : Bool := c.isAlphanum || c == '.' || c == '-'

/-- The class `[A-Z|a-z]` (top-level-domain part of the email pattern; the
source pattern literally includes `|` inside the class). -/
def isEmailTld (c : Char) : Bool := c.isAlpha || c == '|'

/-- The class `[,\s]` (separator run of the address pattern). -/
def isSepClass (c : Char) : Bool := c == ',' || isSpaceRe c

/-- The class `[A-Za-z\s]` (body of the address pattern). -/
def isAddrBody (c : Char) : Bool := c.isAlpha || isSpaceRe c

/-- Take exactly `k` characters satisfying `p`; return them and the rest. -/
def takeExact (p : Char → Bool) : Nat → Str → Option (Str × Str)
  | 0, t => some ([], t)
  | _ + 1, [] => none
  | k + 1, c :: t =>
    if p c then (takeExact p k t).map (fun a => (c :: a.1, a.2)) else none

/-! ### The six pattern matchers

Each matcher receives the character immediately before the current position
(`prev`, for `\b`) and the text suffix starting at the current position, and
returns the matched span (`some`) or `none`, reproducing the leftmost match
that Python's backtracking engine produces at that position. -/

/-- Alternatives for `\s?` in greedy order: with the space first, then
without. -/
def optSpaceAlts (t : Str) : List (Str × Str) :=
  match t with
  | c :: r => if isSpaceRe c then [([c], r), ([], t)] else [([], t)]
  | [] => [([], t)]

/-- Matcher for the `aadhaar` pattern `\b\d{4}\s?\d{4}\s?\d{4}\b`. -/
def matchAadhaar (prev : Option Char) (t : Str) : Option Str :=
  if isWordO prev then none else
  match takeExact isDigitRe 4 t with
  | none => none
  | some (a, r1) =>
    (optSpaceAlts r1).findSome? fun s1 =>
      match takeExact isDigitRe 4 s1.2 with
      | none => none
      | some (b, r2) =>
        (optSpaceAlts r2).findSome? fun s2 =>
          match takeExact isDigitRe 4 s2.2 with
          | none => none
          | some (c, r3) =>
            if isWordO r3.head? then none
            else some (a ++ s1.1 ++ b ++ s2.1 ++ c)

/-- Matcher for the `pan` pattern `\b[A-Z]{5}\d{4}[A-Z]\b`. -/
def matchPan (prev : Option Char) (t : Str) : Option Str :=
  if isWordO prev then none else
  match takeExact isUpperRe 5 t with
  | none => none
  | some (a, r1) =>
    match takeExact isDigitRe 4 r1 with
    | none => none
    | some (b, r2) =>
      match r2 with
      | c :: r3 =>
        if isUpperRe c && !(isWordO r3.head?) then some (a ++ b ++ [c]) else none
      | [] => none

/-- Matcher for the `mobile` pattern `\b[6-9]\d{9}\b`. -/
def matchMobile (prev : Option Char) (t : Str) : Option Str :=
  if isWordO prev then none else
  match t with
  | c :: r =>
    if '6' ≤ c && c ≤ '9' then
      match takeExact isDigitRe 9 r with
      | some (b, r2) => if isWordO r2.head? then none else some (c :: b)
      | none => none
    else none
  | [] => none

/-- Greedy-with-backtracking search for `[A-Z|a-z]{2,}\b` given the maximal
TLD-class run `run` and the character following it: lengths are tried from
the longest down to 2, each checked against the trailing `\b`. -/
def tldSearch (run : Str) (after : Option Char) : Option Str :=
  ((List.range (run.length - 1)).map (fun k => run.length - k)).findSome? fun len =>
    let cand := run.take len
    let next : Option Char :=
      match run.drop len with
      | c :: _ => some c
      | [] => after
    if isWordO cand.getLast? != isWordO next then some cand else none

/-- Matcher for the `email` pattern
`\b[A-Za-z0-9._%+-]+@[A-Za-z0-9.-]+\.[A-Z|a-z]{2,}\b`.  The domain run is
split at a literal `.` with split points tried right-to-left (Python's
greedy backtracking order). -/
def matchEmail (prev : Option Char) (t : Str) : Option Str :=
  match t with
  | [] => none
  | c0 :: _ =>
    if isWordO prev == isWordChar c0 then none else
    let lcl := t.takeWhile isEmailLocal
    let r1 := t.dropWhile isEmailLocal
    if lcl.isEmpty then none else
    match r1 with
    | '@' :: r2 =>
      let dom := r2.takeWhile isEmailDomain
      ((List.range (dom.length - 1)).map (fun k => dom.length - 1 - k)).findSome? fun i =>
        if 1 ≤ i && dom.getD i ' ' == '.' then
          let tsrc := r2.drop (i + 1)
          let trun := tsrc.takeWhile isEmailTld
          let after := (tsrc.dropWhile isEmailTld).head?
          (tldSearch trun after).map fun tld => lcl ++ '@' :: (r2.take i ++ '.' :: tld)
        else none
    | _ => none

/-- The honorific alternation `(?:Mr\.|Mrs\.|Ms\.|Dr\.)` in source order. -/
def honorifics : List Str := [toL "Mr.", toL "Mrs.", toL "Ms.", toL "Dr."]

/-- One `\s+[A-Z][a-z]+` unit of the name pattern. -/
def unitOnce (t : Str) : Option (Str × Str) :=
  let sp := t.takeWhile isSpaceRe
  let r1 := t.dropWhile isSpaceRe
  if sp.isEmpty then none else
  match r1 with
  | c :: r2 =>
    if isUpperRe c then
      let low := r2.takeWhile isLowerRe
      let r3 := r2.dropWhile isLowerRe
      if low.isEmpty then none else some (sp ++ c :: low, r3)
    else none
  | [] => none

/-- Cumulative parses of `(\s+[A-Z][a-z]+)*`: entry `k` is the text consumed
by the first `k+1` units together with the remaining suffix. -/
def unitsF : Nat → Str → List (Str × Str)
  | 0, _ => []
  | fuel + 1, t =>
    match unitOnce t with
    | none => []
    | some (u, r) => (u, r) :: (unitsF fuel r).map (fun a => (u ++ a.1, a.2))

/-- Matcher for the `name` pattern
`\b(?:Mr\.|Mrs\.|Ms\.|Dr\.)\s+[A-Z][a-z]+(?:\s+[A-Z][a-z]+)*\b`.  The
repetition is greedy: the largest number of units whose trailing position is
a word boundary wins. -/
def matchName (prev : Option Char) (t : Str) : Option Str :=
  if isWordO prev then none else
  honorifics.findSome? fun hon =>
    if hon.isPrefixOf t then
      let r0 := t.drop hon.length
      match unitOnce r0 with
      | none => none
      | some (u0, r1) =>
        let stages := (u0, r1) :: (unitsF r1.length r1).map (fun a => (u0 ++ a.1, a.2))
        stages.reverse.findSome? fun st =>
          if isWordO st.2.head? then none else some (hon ++ st.1)
    else none

/-- The suffix-keyword alternation of the address pattern, in source order. -/
def addrKeywords : List Str :=
  [toL "Street", toL "Road", toL "Lane", toL "Avenue", toL "Nagar", toL "Colony"]

/-- Matcher for the `address` pattern
`\b\d+[,\s]+[A-Za-z\s]+(?:Street|Road|Lane|Avenue|Nagar|Colony)\b`.
The separator run and the body run are greedy and backtrack right-to-left,
as in Python. -/
def matchAddress (prev : Option Char) (t : Str) : Option Str :=
  if isWordO prev then none else
  let ds := t.takeWhile isDigitRe
  let r1 := t.dropWhile isDigitRe
  if ds.isEmpty then none else
  let seps := r1.takeWhile isSepClass
  if seps.isEmpty then none else
  ((List.range seps.length).map (fun k => seps.length - k)).findSome? fun j =>
    let r2 := r1.drop j
    let body := r2.takeWhile isAddrBody
    ((List.range body.length).map (fun k2 => body.length - k2)).findSome? fun k =>
      let r3 := r2.drop k
      addrKeywords.findSome? fun kw =>
        if kw.isPrefixOf r3 && !(isWordO (r3.drop kw.length).head?) then
          some (ds ++ r1.take j ++ r2.take k ++ kw)
        else none

/-! ### `re.finditer` -/

/-- Fuel-driven left-to-right scan; at each position the matcher is tried,
a successful (non-empty) match is emitted and the scan resumes after it,
exactly as `re.finditer` iterates non-overlapping matches. -/
def finditerF (m : Option Char → Str → Option Str) :
    Nat → Option Char → Str → List Str
  | 0, _, _ => []
  | fuel + 1, prev, t =>
    match t with
    | [] => []
    | c :: t' =>
      match m prev t with
      | some mt =>
        if mt.isEmpty then finditerF m fuel (some c) t'
        else mt :: finditerF m fuel mt.getLast? (t.drop mt.length)
      | none => finditerF m fuel (some c) t'

/-- All matches of `m` in `t`, leftmost first, non-overlapping. -/
def finditer (m : Option Char → Str → Option Str) (t : Str) : List Str :=
  finditerF m t.length none t

/-! ### `str.replace` -/

/-- Python's `str.replace` with an empty pattern inserts the replacement
at every position. -/
def emptyPat (p t : Str) : Str := p ++ t.foldr (fun c acc => c :: (p ++ acc)) []

/-- Fuel-driven replace-all: leftmost non-overlapping occurrences of `v`
are replaced by `p`. -/
def replAllF : Nat → Str → Str → Str → Str
  | 0, _, _, t => t
  | fuel + 1, v, p, t =>
    match t with
    | [] => []
    | c :: t' =>
      if v.isPrefixOf (c :: t') then p ++ replAllF fuel v p ((c :: t').drop v.length)
      else c :: replAllF fuel v p t'

/-- Python `t.replace(v, p)`. -/
def replAll (v p t : Str) : Str :=
  if v.isEmpty then emptyPat p t else replAllF t.length v p t

/-! ### `PIIRedactor` -/

/-- Decimal digits of a natural number (Python `str(n)` for `n : Nat`),
fuel-driven so that it reduces definitionally. -/
def natDigitsF : Nat → Nat → Str
  | 0, _ => []
  | fuel + 1, n =>
    if n < 10 then [Char.ofNat (48 + n)]
    else natDigitsF fuel (n / 10) ++ [Char.ofNat (48 + n % 10)]

/-- Decimal representation of `n`. -/
def natDigits (n : Nat) : Str := natDigitsF (n + 1) n

/-- The placeholder string `f"[{NAME}_{n}]"`. -/
def mkPh (name : Str) (n : Nat) : Str := '[' :: (name ++ '_' :: natDigits n) ++ [']']

/-- One pattern category: its placeholder name and its matcher. -/
structure Category where
  name : Str
  matcher : Option Char → Str → Option Str

/-- `PIIRedactor.PATTERNS` in source order: aadhaar, pan, mobile, email,
name, address. -/
def CATEGORIES : List Category :=
  [⟨toL "AADHAAR", matchAadhaar⟩, ⟨toL "PAN", matchPan⟩, ⟨toL "MOBILE", matchMobile⟩,
   ⟨toL "EMAIL", matchEmail⟩, ⟨toL "NAME", matchName⟩, ⟨toL "ADDRESS", matchAddress⟩]

/-- One category pass of `PIIRedactor.redact`: for each match of the
category's pattern **in the original text**, assign the placeholder
`[NAME_{len(map)+1}]`, append it to the map and replace all occurrences of
the matched span in the evolving redacted text. -/
def redactCat (cat : Category) (text : Str) (st : Str × List (Str × Str)) :
    Str × List (Str × Str) :=
  (finditer cat.matcher text).foldl
    (fun st orig =>
      let placeholder := mkPh cat.name (st.2.length + 1)
      (replAll orig placeholder st.1, st.2 ++ [(placeholder, orig)]))
    st

/-- `PIIRedactor.redact`: returns `(redacted_text, redaction_map)`; the map
is the insertion-ordered association list placeholder → original. -/
def redact (text : Str) : Str × List (Str × Str) :=
  CATEGORIES.foldl (fun st cat => redactCat cat text st) (text, [])

/-- `PIIRedactor.restore`: replace every placeholder key by its original
value, iterating the map in insertion order. -/
def restore (text : Str) (m : List (Str × Str)) : Str :=
  m.foldl (fun acc e => replAll e.1 e.2 acc) text

/-!
### Orchestrator and session store

Embedding of `workflow_state.py`, `orchestrator.py` and the
human-in-the-loop endpoints of `endpoints.py`.

Modelling notes:
* Wall-clock data (`created_at`, `updated_at` and the per-entry ISO
  timestamps of `AgentTrace`) is omitted: no claim mentions it.
* The external collaborators — context gathering (`_gather_context`'s use
  of RAG/Tavily), `ResearcherAgent.analyze`, `DrafterAgent.draft`,
  `ExpertReviewerAgent.review` — are injected as a `Roles` record; a role
  invocation that raises is modelled by `none`.
* Python aliasing is modelled faithfully: in `continue_with_draft`,
  `refine_draft` and `finalize_workflow` the code sets
  `trace.traces = session.get("agent_traces", [])`, so every `trace.add`
  appends to the list object stored in the session; the embedding
  therefore writes trace entries through to the store as they happen.
* All orchestrator failures are Python `ValueError`s (there is no
  dedicated error class per condition); missing-key dictionary accesses
  are `KeyError`s.  The FastAPI endpoints map `ValueError` to HTTP 400
  and any other exception to HTTP 500 (`httpStatusOf`); the per-endpoint
  `detail` prefix strings are not modelled.
-/

/-- Researcher output (`researcher.analyze` result dictionary). -/
structure Findings where
  summary_of_facts : List String := []
  legal_provisions : List String := []
  merits_score : Nat := 0
  reasoning : String := ""
deriving DecidableEq

/-- Reviewer output (`expert_reviewer.review` result dictionary). -/
structure Review where
  is_approved : Bool
  feedback : String := ""
  reasoning : String := ""
  jurisdiction_check : String := ""
  statute_check : String := ""
deriving DecidableEq

/-- One `AgentTrace` entry (timestamp omitted, see the modelling notes). -/
structure TraceEntry where
  agent : String
  action : String
  details : String
deriving DecidableEq

/-- A session record of `WorkflowState._sessions`.  Keys that a freshly
created session does not yet have are `Option`s. -/
structure Session where
  session_id : String
  grievance : Str
  stage : String
  research_findings : Option Findings := none
  rag_context : Option Str := none
  agent_traces : List TraceEntry := []
  redaction_map : List (Str × Str) := []
  redacted_grievance : Option Str := none
  approved_research : Option Findings := none
  current_draft : Option Str := none
  iteration : Option Nat := none
deriving DecidableEq

/-- The in-memory session table, an insertion-ordered association list
(Python dict keyed by session id). -/
abbrev Store := List (String × Session)

/-- `WorkflowState.get_session`. -/
def lookupS (st : Store) (sid : String) : Option Session :=
  (st.find? (fun e => e.1 == sid)).map (fun e => e.2)

/-- Update the session stored under `sid` in place (no-op when absent),
as `WorkflowState.update_session` does. -/
def updateS (st : Store) (sid : String) (f : Session → Session) : Store :=
  st.map (fun e => if e.1 == sid then (e.1, f e.2) else e)

/-- `WorkflowState.delete_session`. -/
def deleteS (st : Store) (sid : String) : Store :=
  st.filter (fun e => !(e.1 == sid))

/-- `WorkflowState.create_session`: a new dict entry (the uuid4 session id
is injected by the caller as `sid`). -/
def createS (st : Store) (sid : String) (g : Str) : Store :=
  st ++ [(sid, { session_id := sid, grievance := g, stage := "started" })]

/-- Append trace entries to the stored session's `agent_traces` list
(write-through of the aliased `trace.traces` list). -/
def appendTr (st : Store) (sid : String) (es : List TraceEntry) : Store :=
  updateS st sid (fun s => { s with agent_traces := s.agent_traces ++ es })

/-- The injected external capabilities (context sources and the three
agents). -/
structure Roles where
  gatherCtx : Str → Str
  gatherTrace : Str → List TraceEntry
  analyze : Str → Str → Option Findings
  draft : Str → Findings → String → Option Str
  review : Str → Findings → Option Review

/-- Errors the workflow operations raise.  The orchestrator raises only
`ValueError`s; `keyError` models a missing-key dictionary access and
`roleFailure` an exception escaping an agent invocation. -/
inductive OpErr where
  | valueError (msg : String)
  | keyError (key : String)
  | roleFailure
deriving DecidableEq

/-- The Python exception class of an error: every orchestrator-raised
error is a `ValueError`; nothing in the message is part of the kind. -/
def OpErr.kind : OpErr → String
  | .valueError _ => "ValueError"
  | .keyError _ => "KeyError"
  | .roleFailure => "Exception"

/-- How the HITL endpoints map an escaping error to an HTTP status:
`except ValueError` → 400, any other exception → 500. -/
def httpStatusOf : OpErr → Nat
  | .valueError _ => 400
  | _ => 500

/-- `LegalAidOrchestrator.MAX_ITERATIONS`. -/
def MAX_ITERATIONS : Nat := 3

/-- Result dictionary of `start_research`. -/
structure StartOut where
  session_id : String
  stage : String
  research_findings : Findings
  agent_traces : List TraceEntry
  pii_redacted : Bool
  message : String
  is_approved : Option Bool := none
deriving DecidableEq

/-- The trace a successful `start_research` run builds for a redacted
grievance with `n` redacted items and findings `fnd` (a fresh
`AgentTrace`, not an extension of any previous trace). -/
def startTraceOf (R : Roles) (redacted : Str) (n : Nat) (fnd : Findings) :
    List TraceEntry :=
  let gpre := String.mk (redacted.take 100)
  let k := fnd.legal_provisions.length
  [⟨"pii_redactor", "redaction_complete",
    s!"Redacted {n} PII items before sending to agents"⟩]
  ++ R.gatherTrace redacted
  ++ [⟨"researcher", "analyzing_grievance",
      s!"Scanning Indian legal statutes for provisions relevant to: '{gpre}...'"⟩,
      ⟨"researcher", "research_complete",
      s!"Identified {k} legal provisions. Awaiting human review and approval."⟩]

/-- `LegalAidOrchestrator.start_research`: redact, create a session, gather
context, run the researcher, persist the findings.  `freshId` is the uuid4
the session table allocates.  Note that the session is created **before**
the researcher is invoked. -/
def start_research (R : Roles) (st : Store) (grievance : Str) (freshId : String) :
    Store × Except OpErr StartOut :=
  let rm := redact grievance
  let redacted := rm.1
  let rmap := rm.2
  let st1 := createS st freshId grievance
  let ragContext := R.gatherCtx redacted
  match R.analyze redacted ragContext with
  | none => (st1, .error .roleFailure)
  | some fnd =>
    let tr3 := startTraceOf R redacted rmap.length fnd
    let st2 := updateS st1 freshId (fun s =>
      { s with stage := "awaiting_research_approval",
               research_findings := some fnd,
               rag_context := some ragContext,
               agent_traces := tr3,
               redaction_map := rmap,
               redacted_grievance := some redacted })
    (st2, .ok { session_id := freshId,
                stage := "awaiting_research_approval",
                research_findings := fnd,
                agent_traces := tr3,
                pii_redacted := decide (0 < rmap.length),
                message := "Please review and approve the research findings to continue." })

/-- Result dictionary of `continue_with_draft` / `refine_draft`. -/
structure DraftOut where
  session_id : String
  stage : String
  draft : Str
  research_findings : Findings
  agent_traces : List TraceEntry
  iteration : Nat
  max_iterations : Nat
  remaining_iterations : Nat
  message : String
deriving DecidableEq

/-- `LegalAidOrchestrator.continue_with_draft`. -/
def continue_with_draft (R : Roles) (st : Store) (sid : String) (approved : Findings) :
    Store × Except OpErr DraftOut :=
  match lookupS st sid with
  | none => (st, .error (.valueError s!"Session {sid} not found"))
  | some sess =>
    if sess.stage != "awaiting_research_approval" then
      (st, .error (.valueError ("Invalid stage: " ++ sess.stage)))
    else
      let redacted := sess.redacted_grievance.getD sess.grievance
      let st1 := appendTr st sid
        [⟨"human", "research_approved",
          "Human reviewed and approved research findings. Proceeding to drafting."⟩,
         ⟨"drafter", "creating_initial_draft",
          "Incorporating legal provisions into formal petition structure."⟩]
      match R.draft redacted approved "" with
      | none => (st1, .error .roleFailure)
      | some d =>
        let dn := d.length
        let st2 := appendTr st1 sid
          [⟨"drafter", "draft_complete",
            s!"Generated {dn} character petition. Awaiting human review."⟩]
        let st3 := updateS st2 sid (fun s =>
          { s with stage := "awaiting_draft_review",
                   approved_research := some approved,
                   current_draft := some d,
                   iteration := some 1 })
        let trs := ((lookupS st3 sid).map (fun s => s.agent_traces)).getD []
        let rem := MAX_ITERATIONS - 1
        (st3, .ok { session_id := sid,
                    stage := "awaiting_draft_review",
                    draft := d,
                    research_findings := approved,
                    agent_traces := trs,
                    iteration := 1,
                    max_iterations := MAX_ITERATIONS,
                    remaining_iterations := rem,
                    message := s!"Please review the draft (Iteration 1/{MAX_ITERATIONS}). Approve or provide feedback for refinement ({rem} refinements remaining)." })

/-- `LegalAidOrchestrator.refine_draft`.  The iteration bound is checked
against the tentative `iteration + 1`; on violation a trace entry is still
appended (the trace list is aliased into the store) and a plain
`ValueError` is raised. -/
def refine_draft (R : Roles) (st : Store) (sid : String) (feedback : String) :
    Store × Except OpErr DraftOut :=
  match lookupS st sid with
  | none => (st, .error (.valueError s!"Session {sid} not found"))
  | some sess =>
    if sess.stage != "awaiting_draft_review" then
      (st, .error (.valueError ("Invalid stage: " ++ sess.stage)))
    else
      let redacted := sess.redacted_grievance.getD sess.grievance
      match sess.approved_research with
      | none => (st, .error (.keyError "approved_research"))
      | some approved =>
        let iteration := sess.iteration.getD 1 + 1
        if iteration > MAX_ITERATIONS then
          let st1 := appendTr st sid
            [⟨"orchestrator", "max_iterations_reached",
              s!"Maximum refinement iterations ({MAX_ITERATIONS}) reached. Please finalize the current draft or start a new workflow."⟩]
          (st1, .error (.valueError
            s!"Maximum iterations ({MAX_ITERATIONS}) reached. Current draft is the best available. Please approve or start new workflow."))
        else
          let fpre := feedback.take 150
          let st1 := appendTr st sid
            [⟨"human", "feedback_provided",
              s!"Human provided feedback for refinement (Iteration {iteration}): {fpre}..."⟩,
             ⟨"drafter", s!"refining_draft_iteration_{iteration}",
              "Addressing human feedback."⟩]
          match R.draft redacted approved feedback with
          | none => (st1, .error .roleFailure)
          | some d =>
            let dn := d.length
            let st2 := appendTr st1 sid
              [⟨"drafter", "draft_refined",
                s!"Refined draft complete ({dn} characters). Awaiting human review."⟩]
            let st3 := updateS st2 sid (fun s =>
              { s with current_draft := some d, iteration := some iteration })
            let trs := ((lookupS st3 sid).map (fun s => s.agent_traces)).getD []
            let rem := MAX_ITERATIONS - iteration
            (st3, .ok { session_id := sid,
                        stage := "awaiting_draft_review",
                        draft := d,
                        research_findings := approved,
                        agent_traces := trs,
                        iteration := iteration,
                        max_iterations := MAX_ITERATIONS,
                        remaining_iterations := rem,
                        message := s!"Please review the refined draft (Iteration {iteration}/{MAX_ITERATIONS}). Approve or provide additional feedback ({rem} refinements remaining)." })

/-- Result dictionary of `finalize_workflow` / `generate_legal_aid`. -/
structure FinalOut where
  final_document : Str
  research_findings : Findings
  review_result : Review
  agent_traces : List TraceEntry
  iterations : Nat
  status : String
  is_approved : Bool
deriving DecidableEq

/-- `LegalAidOrchestrator.finalize_workflow`: mark the session complete,
restore the PII in the stored draft through the session's redaction map,
build the result, then **delete** the session. -/
def finalize_workflow (st : Store) (sid : String) :
    Store × Except OpErr FinalOut :=
  match lookupS st sid with
  | none => (st, .error (.valueError s!"Session {sid} not found"))
  | some sess =>
    if sess.stage != "awaiting_draft_review" then
      (st, .error (.valueError ("Invalid stage: " ++ sess.stage)))
    else
      let itn := sess.iteration.getD 1
      let st1 := appendTr st sid
        [⟨"human", "draft_approved", "Human approved the final draft. Workflow complete."⟩,
         ⟨"orchestrator", "workflow_complete",
          s!"Legal aid generation complete with human approval. Total iterations: {itn}. Document ready for submission."⟩]
      let st2 := updateS st1 sid (fun s => { s with stage := "complete" })
      match sess.current_draft with
      | none => (st2, .error (.keyError "current_draft"))
      | some d0 =>
        let rmap := sess.redaction_map
        let finalDoc := if rmap.isEmpty then d0 else restore d0 rmap
        let mn := rmap.length
        let st3 :=
          if rmap.isEmpty then st2
          else appendTr st2 sid
            [⟨"pii_redactor", "restoration_complete",
              s!"Restored {mn} PII items in final document"⟩]
        match sess.approved_research with
        | none => (st3, .error (.keyError "approved_research"))
        | some ar =>
          let trs := ((lookupS st3 sid).map (fun s => s.agent_traces)).getD []
          let st4 := deleteS st3 sid
          (st4, .ok { final_document := finalDoc,
                      research_findings := ar,
                      review_result := { is_approved := true, feedback := "",
                                         reasoning := "Human approved the final draft" },
                      agent_traces := trs,
                      iterations := itn,
                      status := "approved_by_human",
                      is_approved := true })

/-- Response of the `GET /workflow-status/{session_id}` endpoint: either an
HTTP error status with a detail message, or the session's stage. -/
def get_workflow_status (st : Store) (sid : String) : Except (Nat × String) String :=
  match lookupS st sid with
  | none => .error (404, s!"Session {sid} not found")
  | some sess => .ok sess.stage

/-- Result of the `approve-research` endpoint: either the draft produced on
approval or the re-run research on rejection. -/
inductive ApproveOut where
  | proceeded (o : DraftOut)
  | rerun (o : StartOut)
deriving DecidableEq

/-- The `approve-research` endpoint.  On rejection it resets the stage,
re-runs `start_research` on the stored raw grievance (allocating a fresh
session id `freshId`), copies every key except `session_id` from the new
session into the original one, deletes the new session and reports the
original id. -/
def approve_research (R : Roles) (st : Store) (sid : String) (isApproved : Bool)
    (approved : Findings) (freshId : String) : Store × Except OpErr ApproveOut :=
  if isApproved then
    match continue_with_draft R st sid approved with
    | (st1, .error e) => (st1, .error e)
    | (st1, .ok o) => (st1, .ok (.proceeded o))
  else
    match lookupS st sid with
    | none => (st, .error (.valueError s!"Session {sid} not found"))
    | some sess =>
      let st1 := updateS st sid (fun s => { s with stage := "awaiting_research_approval" })
      match start_research R st1 sess.grievance freshId with
      | (st2, .error e) => (st2, .error e)
      | (st2, .ok out) =>
        match lookupS st2 out.session_id with
        | some newSess =>
          let st3 := updateS st2 sid (fun s =>
            { s with grievance := newSess.grievance,
                     stage := newSess.stage,
                     research_findings := newSess.research_findings,
                     rag_context := newSess.rag_context,
                     agent_traces := newSess.agent_traces,
                     redaction_map := newSess.redaction_map,
                     redacted_grievance := newSess.redacted_grievance,
                     approved_research := newSess.approved_research,
                     current_draft := newSess.current_draft,
                     iteration := newSess.iteration })
          let st4 := deleteS st3 out.session_id
          (st4, .ok (.rerun { out with session_id := sid, is_approved := some false }))
        | none => (st2, .ok (.rerun { out with session_id := sid, is_approved := some false }))

/-- State of the automatic draft→review loop of `generate_legal_aid`. -/
structure GenLoopSt where
  draft : Option Str
  review : Option Review
  iteration : Nat
  feedback : String
  tr : List TraceEntry
deriving DecidableEq

/-- The bounded `while iteration < MAX_ITERATIONS` loop of
`generate_legal_aid`; `fuel` only needs to be at least
`MAX_ITERATIONS - iteration` for the recursion to mirror the loop. -/
def genLoopF (R : Roles) (g : Str) (fnd : Findings) :
    Nat → GenLoopSt → Except OpErr GenLoopSt
  | 0, s => .ok s
  | fuel + 1, s =>
    if s.iteration < MAX_ITERATIONS then
      let it := s.iteration + 1
      let np := fnd.legal_provisions.length
      let fpre := s.feedback.take 150
      let trD := s.tr ++
        (if it == 1 then
          [⟨"drafter", "creating_initial_draft",
            s!"Incorporating legal provisions into formal petition structure. Using {np} citations."⟩]
         else
          [⟨"drafter", s!"refining_draft_iteration_{it}",
            s!"Addressing expert feedback: {fpre}..."⟩])
      match R.draft g fnd s.feedback with
      | none => .error .roleFailure
      | some d =>
        let dn := d.length
        let trD2 := trD ++ [⟨"drafter", "draft_complete",
          s!"Generated {dn} character petition with formal structure (To, From, Subject, Body, Prayer)."⟩]
        let trR := trD2 ++ [⟨"expert_reviewer", "auditing_draft",
          s!"Performing compliance audit: jurisdiction check, statute verification, tone assessment (Iteration {it}/{MAX_ITERATIONS})"⟩]
        match R.review d fnd with
        | none => .error .roleFailure
        | some rv =>
          if rv.is_approved then
            let jc := rv.jurisdiction_check
            let sc := rv.statute_check
            .ok { draft := some d, review := some rv, iteration := it, feedback := s.feedback,
                  tr := trR ++ [⟨"expert_reviewer", "draft_approved",
                    s!"All checks passed. Jurisdiction: {jc}. Statutes: {sc}. Document approved for submission."⟩] }
          else
            let fb := rv.feedback
            let fbpre := fb.take 200
            let trX := trR ++ [⟨"expert_reviewer", "draft_rejected",
              s!"Issues found: {fbpre}. Sending back to drafter for refinement."⟩]
            let trY := trX ++
              (if it ≥ MAX_ITERATIONS then
                [⟨"orchestrator", "max_iterations_reached",
                  s!"Reached maximum refinement attempts ({MAX_ITERATIONS}). Returning best available draft with reviewer notes."⟩]
               else [])
            genLoopF R g fnd fuel
              { draft := some d, review := some rv, iteration := it, feedback := fb, tr := trY }
    else .ok s

/-- The trace accumulated by one rejected iteration of the automatic loop
(drafting, draft-complete, audit, rejection, and — on the last iteration —
the max-iterations notice), exactly as `genLoopF` appends it. -/
def rejectIterTrace (fnd : Findings) (s : GenLoopSt) (d : Str) (r : Review) :
    List TraceEntry :=
  let it := s.iteration + 1
  let np := fnd.legal_provisions.length
  let fpre := s.feedback.take 150
  let trD := s.tr ++
    (if it == 1 then
      [⟨"drafter", "creating_initial_draft",
        s!"Incorporating legal provisions into formal petition structure. Using {np} citations."⟩]
     else
      [⟨"drafter", s!"refining_draft_iteration_{it}",
        s!"Addressing expert feedback: {fpre}..."⟩])
  let dn := d.length
  let trD2 := trD ++ [⟨"drafter", "draft_complete",
    s!"Generated {dn} character petition with formal structure (To, From, Subject, Body, Prayer)."⟩]
  let trR := trD2 ++ [⟨"expert_reviewer", "auditing_draft",
    s!"Performing compliance audit: jurisdiction check, statute verification, tone assessment (Iteration {it}/{MAX_ITERATIONS})"⟩]
  let fb := r.feedback
  let fbpre := fb.take 200
  let trX := trR ++ [⟨"expert_reviewer", "draft_rejected",
    s!"Issues found: {fbpre}. Sending back to drafter for refinement."⟩]
  trX ++
    (if it ≥ MAX_ITERATIONS then
      [⟨"orchestrator", "max_iterations_reached",
        s!"Reached maximum refinement attempts ({MAX_ITERATIONS}). Returning best available draft with reviewer notes."⟩]
     else [])

/-- The trace of the research phase of `generate_legal_aid`. -/
def genStartTrace (R : Roles) (g : Str) (fnd : Findings) : List TraceEntry :=
  let gpre := String.mk (g.take 100)
  let tr1 := R.gatherTrace g ++ [⟨"researcher", "analyzing_grievance",
    s!"Scanning Indian legal statutes for provisions relevant to: '{gpre}...'"⟩]
  let np := fnd.legal_provisions.length
  let ms := fnd.merits_score
  let acts := String.intercalate ", " (fnd.legal_provisions.take 2)
  tr1 ++ [⟨"researcher", "research_complete",
    s!"Identified {np} legal provisions. Case merit score: {ms}/10. Key acts: {acts}"⟩]

/-- Result dictionary of `generate_legal_aid` (fully automatic mode). -/
structure GenOut where
  final_document : Option Str
  research_findings : Findings
  review_result : Option Review
  agent_traces : List TraceEntry
  iterations : Nat
  status : String
deriving DecidableEq

/-- `LegalAidOrchestrator.generate_legal_aid`: research once, then the
bounded draft→review self-correction loop; no session is ever created. -/
def generate_legal_aid (R : Roles) (g : Str) : Except OpErr GenOut :=
  let ctx := R.gatherCtx g
  match R.analyze g ctx with
  | none => .error .roleFailure
  | some fnd =>
    match genLoopF R g fnd MAX_ITERATIONS
        { draft := none, review := none, iteration := 0, feedback := "",
          tr := genStartTrace R g fnd } with
    | .error e => .error e
    | .ok s =>
      let status :=
        if (s.review.map (fun r => r.is_approved)).getD false then "approved"
        else "max_iterations_reached"
      let itn := s.iteration
      let tr3 := s.tr ++ [⟨"orchestrator", "workflow_complete",
        s!"Legal aid generation complete. Status: {status}. Total iterations: {itn}. Document ready for user review."⟩]
      .ok { final_document := s.draft,
            research_findings := fnd,
            review_result := s.review,
            agent_traces := tr3,
            iterations := s.iteration,
            status := status }

/-!
### Decomposition machinery for the redaction round trip

The redacted text is tracked as an alternation of literal fragments of the
original text and placeholder blocks: a head fragment followed by a list of
(pair, trailing-fragment) items, where a pair `(v, p)` records the value
`v` that was replaced by the placeholder `p`.
-/

/-- A value string is bracket-free (no pattern of `PIIRedactor.PATTERNS`
can match a bracket). -/
def Clean (v : Str) : Prop := '[' ∉ v ∧ ']' ∉ v

/-- Placeholder shape: `'['`, a non-empty bracket-free interior, `']'`. -/
def IsPh (p : Str) : Prop :=
  ∃ m, m ≠ [] ∧ Clean m ∧ p = '[' :: (m ++ [']'])

/-- Interior of a placeholder (the characters between the brackets). -/
def phMid (p : Str) : Str := (p.drop 1).dropLast

/-- Decomposed text: a leading literal fragment and a list of
((value, placeholder), following literal fragment) blocks. -/
structure RTx where
  head : Str
  rest : List ((Str × Str) × Str)

/-- Redacted rendering of the block list: each pair contributes its
placeholder. -/
def renderPairs : List ((Str × Str) × Str) → Str
  | [] => []
  | (pr, l) :: r => pr.2 ++ l ++ renderPairs r

/-- Redacted rendering of a decomposition. -/
def render (x : RTx) : Str := x.head ++ renderPairs x.rest

/-- Original rendering of the block list: each pair contributes its value. -/
def origPairs : List ((Str × Str) × Str) → Str
  | [] => []
  | (pr, l) :: r => pr.1 ++ l ++ origPairs r

/-- Original rendering of a decomposition. -/
def origRender (x : RTx) : Str := x.head ++ origPairs x.rest

/-- Fuel-driven analogue of `replAll` that records the replaced occurrences
as blocks instead of splicing in the placeholder text. -/
def splitSegF : Nat → Str → Str → Str → Str × List ((Str × Str) × Str)
  | 0, _, _, s => (s, [])
  | fuel + 1, v, p, s =>
    match s with
    | [] => ([], [])
    | c :: s' =>
      if v.isPrefixOf (c :: s') then
        let r := splitSegF fuel v p ((c :: s').drop v.length)
        ([], ((v, p), r.1) :: r.2)
      else
        let r := splitSegF fuel v p s'
        (c :: r.1, r.2)

/-- Decompose a literal fragment along the occurrences of `v`. -/
def splitSeg (v p s : Str) : Str × List ((Str × Str) × Str) :=
  splitSegF s.length v p s

/-- Apply one replacement to every literal fragment of a block list. -/
def apPairs (v p : Str) : List ((Str × Str) × Str) → List ((Str × Str) × Str)
  | [] => []
  | (pr, l) :: r =>
    let sp := splitSeg v p l
    (pr, sp.1) :: (sp.2 ++ apPairs v p r)

/-- Apply one replacement to a decomposition. -/
def applyOp (v p : Str) (x : RTx) : RTx :=
  let sp := splitSeg v p x.head
  ⟨sp.1, sp.2 ++ apPairs v p x.rest⟩

/-- The replacement chain of `redact`: apply `replAll` for each
(value, placeholder) entry in map order. -/
def redactChain (ops : List (Str × Str)) (s : Str) : Str :=
  ops.foldl (fun acc op => replAll op.1 op.2 acc) s

/-- The decomposition-level replacement chain. -/
def applyChain (ops : List (Str × Str)) (x : RTx) : RTx :=
  ops.foldl (fun y op => applyOp op.1 op.2 y) x

/-- Restore one placeholder inside a block list: blocks carrying the
placeholder `p` are merged back into the surrounding literal fragments as
the value `v`; `pending` accumulates the literal fragment being grown. -/
def restoreList (v p : Str) (pending : Str) :
    List ((Str × Str) × Str) → Str × List ((Str × Str) × Str)
  | [] => (pending, [])
  | (pr, l) :: r =>
    if pr.2 = p then restoreList v p (pending ++ v ++ l) r
    else
      let t := restoreList v p l r
      (pending, (pr, t.1) :: t.2)

/-- Restore one placeholder in a decomposition. -/
def restoreStep (v p : Str) (x : RTx) : RTx :=
  let t := restoreList v p x.head x.rest
  ⟨t.1, t.2⟩

/-- All matched spans of all categories, used to state the round-trip
proviso of the specification. -/
def matchedSpans (s : Str) : List Str :=
  CATEGORIES.flatMap (fun cat => finditer cat.matcher s)

/-- The (placeholder, original) entries appended by one category pass of
`redact`, given the matched spans and the number of entries already in the
map (`mkP n` is the placeholder assigned when the map has `n` entries). -/
def buildOps (mkP : Nat → Str) : List Str → Nat → List (Str × Str)
  | [], _ => []
  | orig :: rest, n => (mkP n, orig) :: buildOps mkP rest (n + 1)

/-- The full redaction map produced by a run of `redact` over the given
category list, starting from a map with `n` entries. -/
def catOps : List Category → Str → Nat → List (Str × Str)
  | [], _, _ => []
  | cat :: cats, text, n =>
    buildOps (fun k => mkPh cat.name (k + 1)) (finditer cat.matcher text) n ++
      catOps cats text (n + (finditer cat.matcher text).length)

/-- Value of a decimal digit string (left fold), inverse of `natDigits`. -/
def digitsVal (d : Str) : Nat :=
  d.foldl (fun acc c => acc * 10 + (c.toNat - 48)) 0

/-- Executable substring test: `containsSub v t` iff `v` occurs in `t`. -/
def containsSub (v : Str) : Str → Bool
  | [] => v.isEmpty
  | c :: t => v.isPrefixOf (c :: t) || containsSub v t

/-!
### Concrete fixtures used by witnesses and counterexamples
-/

/-- Deterministic, always-succeeding roles whose reviewer always rejects. -/
def rejectingRoles : Roles where
  gatherCtx := fun _ => toL "ctx"
  gatherTrace := fun _ => [⟨"orchestrator", "context_ready", "Context gathering complete."⟩]
  analyze := fun _ _ => some { legal_provisions := ["Consumer Protection Act 2019"], merits_score := 8 }
  draft := fun _ _ fb => some (toL ("draft:" ++ fb))
  review := fun _ _ => some { is_approved := false, feedback := "fix tone" }

/-- Roles whose researcher raises (`RoleInvocationError` analogue). -/
def failingResearcher : Roles :=
  { rejectingRoles with analyze := fun _ _ => none }

/-- Roles whose drafter raises. -/
def failingDrafter : Roles :=
  { rejectingRoles with draft := fun _ _ _ => none }

/-- A session waiting for draft review at iteration `it`. -/
def sessDraft (it : Nat) : Session :=
  { session_id := "s1", grievance := toL "a phone issue",
    stage := "awaiting_draft_review",
    research_findings := some { legal_provisions := ["CPA 2019"] },
    approved_research := some { legal_provisions := ["CPA 2019"] },
    current_draft := some (toL "D3"),
    iteration := some it,
    redacted_grievance := some (toL "a phone issue"),
    agent_traces := [] }

/-- A session still waiting for research approval. -/
def sessResearch : Session :=
  { session_id := "s2", grievance := toL "a phone issue",
    stage := "awaiting_research_approval",
    research_findings := some { legal_provisions := ["CPA 2019"] },
    redacted_grievance := some (toL "a phone issue"),
    agent_traces := [] }

/-- Store after the first feedback call on a fresh draft-stage session
(iteration 1 → 2). -/
def stI1 : Store := (refine_draft rejectingRoles [("s1", sessDraft 1)] "s1" "f1").1

/-- Store after the second feedback call (iteration 2 → 3). -/
def stI2 : Store := (refine_draft rejectingRoles stI1 "s1" "f2").1

/-!
## Theorems

### Session-store lemmas
-/

theorem lookupS_updateS (st : Store) (sid : String) (f : Session → Session) :
    lookupS (updateS st sid f) sid = (lookupS st sid).map f := by
  simp only [lookupS, updateS]
  rw [List.find?_map]
  have hpred : ((fun e : String × Session => e.1 == sid) ∘
      fun e : String × Session => if e.1 == sid then (e.1, f e.2) else e)
      = fun e : String × Session => e.1 == sid := by
    funext e
    by_cases h : (e.1 == sid) = true
    · have he : e.1 = sid := by simpa using h
      simp [he]
    · have he : ¬ e.1 = sid := by simpa using h
      simp [he]
  rw [hpred]
  cases hf : List.find? (fun e : String × Session => e.1 == sid) st with
  | none => simp
  | some e =>
    have he : e.1 = sid := by simpa using List.find?_some hf
    simp [he]

theorem lookupS_deleteS_self (st : Store) (sid : String) :
    lookupS (deleteS st sid) sid = none := by
  simp only [lookupS, deleteS, Option.map_eq_none', List.find?_eq_none]
  intro e he
  have := (List.mem_filter.mp he).2
  simpa using this

theorem updateS_append (a b : Store) (sid : String) (f : Session → Session) :
    updateS (a ++ b) sid f = updateS a sid f ++ updateS b sid f := by
  simp [updateS]

theorem lookupS_eq_none_iff (st : Store) (sid : String) :
    lookupS st sid = none ↔ ∀ e ∈ st, e.1 ≠ sid := by
  simp only [lookupS, Option.map_eq_none', List.find?_eq_none, beq_iff_eq]

theorem updateS_of_lookup_none (st : Store) (sid : String) (f : Session → Session)
    (h : lookupS st sid = none) : updateS st sid f = st := by
  rw [lookupS_eq_none_iff] at h
  simp only [updateS]
  have : List.map (fun e : String × Session => if e.1 == sid then (e.1, f e.2) else e) st
      = List.map id st := by
    apply List.map_congr_left
    intro e he
    rw [if_neg (by simpa using h e he)]
    rfl
  simpa using this

theorem deleteS_append (a b : Store) (sid : String) :
    deleteS (a ++ b) sid = deleteS a sid ++ deleteS b sid := by
  simp [deleteS]

theorem deleteS_of_lookup_none (st : Store) (sid : String)
    (h : lookupS st sid = none) : deleteS st sid = st := by
  rw [lookupS_eq_none_iff] at h
  simp only [deleteS]
  rw [List.filter_eq_self.mpr]
  intro e he
  simpa using h e he

theorem keys_updateS (st : Store) (sid : String) (f : Session → Session) :
    (updateS st sid f).map Prod.fst = st.map Prod.fst := by
  simp only [updateS, List.map_map]
  congr 1
  funext e
  by_cases h : e.1 = sid <;> simp [h]

theorem lookupS_updateS_none (st : Store) (a b : String) (f : Session → Session)
    (h : lookupS st b = none) : lookupS (updateS st a f) b = none := by
  rw [lookupS_eq_none_iff] at h ⊢
  intro e he
  obtain ⟨e', he', rfl⟩ := List.mem_map.mp he
  by_cases hk : (e'.1 == a) = true
  · simpa [hk] using h e' he'
  · simpa [hk] using h e' he'

theorem lookupS_append (a b : Store) (k : String) :
    lookupS (a ++ b) k = (lookupS a k).or (lookupS b k) := by
  simp only [lookupS, List.find?_append]
  cases List.find? (fun e => e.1 == k) a <;> simp

/-- Creating a fresh session and then updating it in place appends one
entry to the store. -/
theorem updateS_createS_self (st : Store) (k : String) (g : Str) (f : Session → Session)
    (h : lookupS st k = none) :
    updateS (createS st k g) k f
      = st ++ [(k, f { session_id := k, grievance := g, stage := "started" })] := by
  rw [createS, updateS_append, updateS_of_lookup_none st k f h]
  congr 1
  simp [updateS]

theorem lookupS_append_singleton_self (st : Store) (k : String) (s0 : Session)
    (h : lookupS st k = none) :
    lookupS (st ++ [(k, s0)]) k = some s0 := by
  rw [lookupS_append, h]
  simp [lookupS]

theorem updateS_append_singleton_other (st : Store) (k b : String) (s0 : Session)
    (f : Session → Session) (hk : k ≠ b) :
    updateS (st ++ [(k, s0)]) b f = updateS st b f ++ [(k, s0)] := by
  rw [updateS_append]
  congr 1
  simp [updateS, hk]

theorem deleteS_append_singleton_self (st : Store) (k : String) (s0 : Session)
    (h : lookupS st k = none) :
    deleteS (st ++ [(k, s0)]) k = st := by
  rw [deleteS_append, deleteS_of_lookup_none st k h]
  simp [deleteS]

/-!
### Not-found behaviour of the operations (shared helper lemmas)
-/

theorem refine_draft_notFound (R : Roles) (st : Store) (sid fb : String)
    (h : lookupS st sid = none) :
    refine_draft R st sid fb = (st, .error (.valueError s!"Session {sid} not found")) := by
  simp only [refine_draft, h]

theorem continue_with_draft_notFound (R : Roles) (st : Store) (sid : String) (ap : Findings)
    (h : lookupS st sid = none) :
    continue_with_draft R st sid ap = (st, .error (.valueError s!"Session {sid} not found")) := by
  simp only [continue_with_draft, h]

theorem finalize_notFound (st : Store) (sid : String)
    (h : lookupS st sid = none) :
    finalize_workflow st sid = (st, .error (.valueError s!"Session {sid} not found")) := by
  simp only [finalize_workflow, h]

theorem approve_research_notFound (R : Roles) (st : Store) (sid : String) (b : Bool)
    (ap : Findings) (fresh : String) (h : lookupS st sid = none) :
    approve_research R st sid b ap fresh
      = (st, .error (.valueError s!"Session {sid} not found")) := by
  cases b with
  | true => simp only [approve_research, if_true, continue_with_draft_notFound R st sid ap h]
  | false => simp only [approve_research, if_false, h, Bool.false_eq_true]

/-- Characterisation of a successful `finalize_workflow` run: the returned
store no longer contains the session (it is deleted last). -/
theorem finalize_ok_store (st : Store) (sid : String) (st' : Store) (out : FinalOut)
    (h : finalize_workflow st sid = (st', .ok out)) :
    lookupS st' sid = none := by
  simp only [finalize_workflow] at h
  cases hls : lookupS st sid with
  | none =>
    simp only [hls] at h
    exact absurd (congrArg Prod.snd h) (by simp)
  | some sess =>
    simp only [hls] at h
    by_cases hst : (sess.stage != "awaiting_draft_review") = true
    · rw [if_pos hst] at h
      exact absurd (congrArg Prod.snd h) (by simp)
    · rw [if_neg hst] at h
      cases hd : sess.current_draft with
      | none =>
        simp only [hd] at h
        exact absurd (congrArg Prod.snd h) (by simp)
      | some d0 =>
        simp only [hd] at h
        cases ha : sess.approved_research with
        | none =>
          simp only [ha] at h
          exact absurd (congrArg Prod.snd h) (by simp)
        | some ar =>
          simp only [ha] at h
          by_cases hre : sess.redaction_map.isEmpty = true
          · rw [if_pos hre] at h
            have hst' : deleteS _ sid = st' := congrArg Prod.fst h
            rw [← hst']
            exact lookupS_deleteS_self _ sid
          · rw [if_neg hre] at h
            have hst' : deleteS _ sid = st' := congrArg Prod.fst h
            rw [← hst']
            exact lookupS_deleteS_self _ sid

/-- Claim C5 (confirmed): once `finalize_workflow` succeeds, the session
record is removed from the store: `get_workflow_status` reports a distinct
404 `NotFound`, and every further operation on the id (submit feedback,
approve research, finalize again, in either approval branch) fails with
the not-found error. -/
theorem claim5_finalize_destroys_session (R : Roles) (st : Store) (sid : String)
    (fb : String) (ap : Findings) (b : Bool) (fresh : String)
    (st' : Store) (out : FinalOut)
    (h : finalize_workflow st sid = (st', .ok out)) :
    lookupS st' sid = none ∧
    get_workflow_status st' sid = .error (404, s!"Session {sid} not found") ∧
    (refine_draft R st' sid fb).2 = .error (.valueError s!"Session {sid} not found") ∧
    (continue_with_draft R st' sid ap).2 = .error (.valueError s!"Session {sid} not found") ∧
    (finalize_workflow st' sid).2 = .error (.valueError s!"Session {sid} not found") ∧
    (approve_research R st' sid b ap fresh).2
        = .error (.valueError s!"Session {sid} not found") := by
  have hnone := finalize_ok_store st sid st' out h
  refine ⟨hnone, ?_, ?_, ?_, ?_, ?_⟩
  · simp only [get_workflow_status, hnone]
  · rw [refine_draft_notFound R st' sid fb hnone]
  · rw [continue_with_draft_notFound R st' sid ap hnone]
  · rw [finalize_notFound st' sid hnone]
  · rw [approve_research_notFound R st' sid b ap fresh hnone]

/-- Witness for C5: a concrete finalize run on a draft-stage session, with
all hypotheses discharged by computation. -/
theorem claim5_witness :
    lookupS (finalize_workflow [("s1", sessDraft 1)] "s1").1 "s1" = none ∧
    get_workflow_status (finalize_workflow [("s1", sessDraft 1)] "s1").1 "s1"
      = .error (404, "Session s1 not found") := by
  obtain ⟨st', out, h⟩ :
      ∃ st' out, finalize_workflow [("s1", sessDraft 1)] "s1" = (st', Except.ok out) :=
    ⟨_, _, rfl⟩
  have hc := claim5_finalize_destroys_session rejectingRoles [("s1", sessDraft 1)] "s1"
    "fb" {} true "f1" st' out h
  rw [h]
  exact ⟨hc.1, hc.2.1⟩

/-!
### Claim C8 — error kinds of NotFound vs invalid transition
-/

/-- Counterexample for C8: submitting feedback with a missing session id
and submitting feedback from a wrong stage both raise the **same** error
kind (`ValueError`, mapped to the same HTTP 400); the code has no distinct
NotFound kind for these operations. -/
theorem claim8_counterexample :
    (refine_draft rejectingRoles [("s2", sessResearch)] "missing" "fb").2
        = .error (.valueError "Session missing not found") ∧
    (refine_draft rejectingRoles [("s2", sessResearch)] "s2" "fb").2
        = .error (.valueError "Invalid stage: awaiting_research_approval") ∧
    OpErr.kind (.valueError "Session missing not found")
        = OpErr.kind (.valueError "Invalid stage: awaiting_research_approval") ∧
    httpStatusOf (.valueError "Session missing not found") = 400 ∧
    httpStatusOf (.valueError "Invalid stage: awaiting_research_approval") = 400 :=
  ⟨rfl, rfl, rfl, rfl, rfl⟩

/-- Claim C8 (amended): among the operations taking a session id, only
`get_status` maps a missing session to a distinct status (HTTP 404); every
mutating operation — submitting feedback (`refine_draft`), approving or
rejecting research (`approve_research`, either branch), and
`finalize_workflow` — surfaces NotFound as the same `ValueError` kind
(HTTP 400) used for invalid-transition errors, distinguishable only by
message text. -/
theorem claim8_amended (R : Roles) (st st2 : Store) (sid sid2 fb fb2 : String)
    (ap : Findings) (fresh : String) (sess : Session)
    (h : lookupS st sid = none)
    (h2 : lookupS st2 sid2 = some sess)
    (hst : sess.stage ≠ "awaiting_draft_review")
    (hst2 : sess.stage ≠ "awaiting_research_approval") :
    (refine_draft R st sid fb).2 = .error (.valueError s!"Session {sid} not found") ∧
    (approve_research R st sid true ap fresh).2
        = .error (.valueError s!"Session {sid} not found") ∧
    (approve_research R st sid false ap fresh).2
        = .error (.valueError s!"Session {sid} not found") ∧
    (finalize_workflow st sid).2 = .error (.valueError s!"Session {sid} not found") ∧
    (refine_draft R st2 sid2 fb2).2
        = .error (.valueError ("Invalid stage: " ++ sess.stage)) ∧
    (approve_research R st2 sid2 true ap fresh).2
        = .error (.valueError ("Invalid stage: " ++ sess.stage)) ∧
    (finalize_workflow st2 sid2).2
        = .error (.valueError ("Invalid stage: " ++ sess.stage)) ∧
    OpErr.kind (.valueError s!"Session {sid} not found") = "ValueError" ∧
    OpErr.kind (.valueError ("Invalid stage: " ++ sess.stage)) = "ValueError" ∧
    httpStatusOf (.valueError s!"Session {sid} not found") = 400 ∧
    httpStatusOf (.valueError ("Invalid stage: " ++ sess.stage)) = 400 ∧
    get_workflow_status st sid = .error (404, s!"Session {sid} not found") := by
  have hc : continue_with_draft R st2 sid2 ap
      = (st2, .error (.valueError ("Invalid stage: " ++ sess.stage))) := by
    simp only [continue_with_draft, h2, if_pos (bne_iff_ne.mpr hst2)]
  refine ⟨?_, ?_, ?_, ?_, ?_, ?_, ?_, rfl, rfl, rfl, rfl, ?_⟩
  · rw [refine_draft_notFound R st sid fb h]
  · rw [approve_research_notFound R st sid true ap fresh h]
  · rw [approve_research_notFound R st sid false ap fresh h]
  · rw [finalize_notFound st sid h]
  · simp only [refine_draft, h2, if_pos (bne_iff_ne.mpr hst)]
  · simp only [approve_research, if_true, hc]
  · simp only [finalize_workflow, h2, if_pos (bne_iff_ne.mpr hst)]
  · simp only [get_workflow_status, h]

/-- Witness for the amended C8 at concrete inputs: a missing id against an
empty store for every mutating operation, and a session stuck in stage
"complete" for the invalid-transition side of each. -/
theorem claim8_witness :
    (refine_draft rejectingRoles [] "x" "fb").2
        = .error (.valueError "Session x not found") ∧
    (approve_research rejectingRoles [] "x" true {} "f").2
        = .error (.valueError "Session x not found") ∧
    (approve_research rejectingRoles [] "x" false {} "f").2
        = .error (.valueError "Session x not found") ∧
    (finalize_workflow [] "x").2 = .error (.valueError "Session x not found") ∧
    (refine_draft rejectingRoles
        [("s2", { sessResearch with stage := "complete" })] "s2" "fb").2
        = .error (.valueError ("Invalid stage: " ++ "complete")) ∧
    (approve_research rejectingRoles
        [("s2", { sessResearch with stage := "complete" })] "s2" true {} "f").2
        = .error (.valueError ("Invalid stage: " ++ "complete")) ∧
    (finalize_workflow
        [("s2", { sessResearch with stage := "complete" })] "s2").2
        = .error (.valueError ("Invalid stage: " ++ "complete")) ∧
    get_workflow_status ([] : Store) "x" = .error (404, "Session x not found") := by
  have hc := claim8_amended rejectingRoles []
    [("s2", { sessResearch with stage := "complete" })] "x" "s2" "fb" "fb" {} "f"
    { sessResearch with stage := "complete" } rfl rfl (by decide) (by decide)
  exact ⟨hc.1, hc.2.1, hc.2.2.1, hc.2.2.2.1, hc.2.2.2.2.1, hc.2.2.2.2.2.1,
    hc.2.2.2.2.2.2.1, hc.2.2.2.2.2.2.2.2.2.2.2⟩

/-!
### Claim C7 — store state after a role-invocation failure
-/

/-- Counterexample for C7: `start_research` creates the session **before**
invoking the researcher; when the researcher raises, the store is left with
a brand-new session in stage "started" instead of its pre-call state. -/
theorem claim7_counterexample :
    start_research failingResearcher [] (toL "g") "A"
        = ([("A", { session_id := "A", grievance := toL "g", stage := "started" })],
           .error .roleFailure) ∧
    ([("A", { session_id := "A", grievance := toL "g", stage := "started" })] : Store)
        ≠ ([] : Store) :=
  ⟨rfl, by simp⟩

/-- Claim C7 (amended): when the drafter raises inside `refine_draft`, the
session's stage, draft, iteration, findings and redaction map are unchanged
and no session is created or deleted — but the two trace entries appended
before the role call persist in the store (the trace list is aliased), so
the store is not byte-for-byte its pre-call state; `start_research`
additionally leaves its newly created session behind on researcher failure. -/
theorem claim7_amended (R : Roles) (st : Store) (sid fb : String) (sess : Session)
    (ar : Findings)
    (h : lookupS st sid = some sess)
    (hstage : sess.stage = "awaiting_draft_review")
    (ha : sess.approved_research = some ar)
    (hit : sess.iteration.getD 1 + 1 ≤ MAX_ITERATIONS)
    (hfail : R.draft (sess.redacted_grievance.getD sess.grievance) ar fb = none) :
    ∃ s', (refine_draft R st sid fb).2 = .error .roleFailure ∧
      lookupS (refine_draft R st sid fb).1 sid = some s' ∧
      s'.stage = sess.stage ∧
      s'.current_draft = sess.current_draft ∧
      s'.iteration = sess.iteration ∧
      s'.approved_research = sess.approved_research ∧
      s'.research_findings = sess.research_findings ∧
      s'.redaction_map = sess.redaction_map ∧
      s'.agent_traces = sess.agent_traces ++
        [⟨"human", "feedback_provided",
          s!"Human provided feedback for refinement (Iteration {sess.iteration.getD 1 + 1}): {fb.take 150}..."⟩,
         ⟨"drafter", s!"refining_draft_iteration_{sess.iteration.getD 1 + 1}",
          "Addressing human feedback."⟩] ∧
      ((refine_draft R st sid fb).1).map Prod.fst = st.map Prod.fst := by
  have hne : ¬ (sess.stage != "awaiting_draft_review") = true := by
    simp [hstage]
  have hgt : ¬ sess.iteration.getD 1 + 1 > MAX_ITERATIONS := by omega
  have hres : refine_draft R st sid fb
      = (appendTr st sid
          [⟨"human", "feedback_provided",
            s!"Human provided feedback for refinement (Iteration {sess.iteration.getD 1 + 1}): {fb.take 150}..."⟩,
           ⟨"drafter", s!"refining_draft_iteration_{sess.iteration.getD 1 + 1}",
            "Addressing human feedback."⟩],
         .error .roleFailure) := by
    simp only [refine_draft, h, if_neg hne, ha, if_neg hgt, hfail]
  rw [hres]
  exact ⟨{ sess with agent_traces := sess.agent_traces ++
      [⟨"human", "feedback_provided",
        s!"Human provided feedback for refinement (Iteration {sess.iteration.getD 1 + 1}): {fb.take 150}..."⟩,
       ⟨"drafter", s!"refining_draft_iteration_{sess.iteration.getD 1 + 1}",
        "Addressing human feedback."⟩] },
    rfl,
    by simp only [appendTr, lookupS_updateS, h, Option.map_some'],
    rfl, rfl, rfl, rfl, rfl, rfl, rfl,
    by simp only [appendTr, keys_updateS]⟩

set_option maxRecDepth 4096 in
/-- Witness for the amended C7 at concrete inputs. -/
theorem claim7_witness :
    ∃ s', (refine_draft failingDrafter [("s1", sessDraft 1)] "s1" "fb").2
        = .error .roleFailure ∧
      lookupS (refine_draft failingDrafter [("s1", sessDraft 1)] "s1" "fb").1 "s1" = some s' ∧
      s'.stage = (sessDraft 1).stage ∧
      s'.current_draft = (sessDraft 1).current_draft ∧
      s'.iteration = (sessDraft 1).iteration ∧
      s'.approved_research = (sessDraft 1).approved_research ∧
      s'.research_findings = (sessDraft 1).research_findings ∧
      s'.redaction_map = (sessDraft 1).redaction_map ∧
      s'.agent_traces = (sessDraft 1).agent_traces ++
        [⟨"human", "feedback_provided",
          s!"Human provided feedback for refinement (Iteration {(sessDraft 1).iteration.getD 1 + 1}): fb..."⟩,
         ⟨"drafter", s!"refining_draft_iteration_{(sessDraft 1).iteration.getD 1 + 1}",
          "Addressing human feedback."⟩] ∧
      ((refine_draft failingDrafter [("s1", sessDraft 1)] "s1" "fb").1).map Prod.fst
        = [("s1", sessDraft 1)].map Prod.fst :=
  claim7_amended failingDrafter [("s1", sessDraft 1)] "s1" "fb" (sessDraft 1)
    { legal_provisions := ["CPA 2019"] } rfl rfl rfl (by decide) rfl

/-!
### Claim C2 — the iteration bound
-/

/-- Counterexample for C2: starting from a fresh draft-review session at
iteration 1, the first two feedback calls succeed (iterations 2 and 3) and
already the **third** call — not the fourth — is rejected; moreover the
rejection is a plain `ValueError`, the same kind as an invalid-transition
error, not a distinct `MaxIterationsExceeded` kind. -/
theorem claim2_counterexample :
    (refine_draft rejectingRoles [("s1", sessDraft 1)] "s1" "f1").2.isOk = true ∧
    (refine_draft rejectingRoles stI1 "s1" "f2").2.isOk = true ∧
    (refine_draft rejectingRoles stI2 "s1" "f3").2
        = .error (.valueError
            "Maximum iterations (3) reached. Current draft is the best available. Please approve or start new workflow.") ∧
    OpErr.kind (.valueError
        "Maximum iterations (3) reached. Current draft is the best available. Please approve or start new workflow.")
      = OpErr.kind (.valueError "Invalid stage: awaiting_research_approval") :=
  ⟨rfl, rfl, rfl, rfl⟩

/-- Helper: a draft-stage session with a draft and approved research always
finalizes successfully, returning the decoded draft. -/
theorem finalize_ok_of (st : Store) (sid : String) (sess : Session) (ar : Findings) (d : Str)
    (h : lookupS st sid = some sess)
    (hstage : sess.stage = "awaiting_draft_review")
    (hd : sess.current_draft = some d)
    (ha : sess.approved_research = some ar) :
    ∃ out, (finalize_workflow st sid).2 = .ok out ∧
      out.final_document
        = (if sess.redaction_map.isEmpty then d else restore d sess.redaction_map) ∧
      out.iterations = sess.iteration.getD 1 ∧
      out.status = "approved_by_human" ∧
      out.research_findings = ar := by
  have hne : ¬ (sess.stage != "awaiting_draft_review") = true := by
    simp [hstage]
  simp only [finalize_workflow, h, if_neg hne, hd, ha]
  exact ⟨_, rfl, rfl, rfl, rfl, rfl⟩

/-- Claim C2 (amended): a draft-review session whose iteration counter has
reached the maximum (3) rejects the next (third) `submit_draft_feedback`
call with a `ValueError` reporting the bound (the code has no distinct
`MaxIterationsExceeded` kind); the session is not deleted, its
`current_draft` is unchanged, and a subsequent finalize still succeeds and
returns that draft (decoded through the session's redaction map). -/
theorem claim2_amended (R : Roles) (st : Store) (sid fb : String) (sess : Session)
    (ar : Findings) (d : Str)
    (h : lookupS st sid = some sess)
    (hstage : sess.stage = "awaiting_draft_review")
    (ha : sess.approved_research = some ar)
    (hd : sess.current_draft = some d)
    (hit : sess.iteration = some MAX_ITERATIONS) :
    (refine_draft R st sid fb).2 = .error (.valueError
      "Maximum iterations (3) reached. Current draft is the best available. Please approve or start new workflow.") ∧
    (∃ s', lookupS (refine_draft R st sid fb).1 sid = some s' ∧
      s'.stage = "awaiting_draft_review" ∧
      s'.current_draft = some d ∧
      s'.iteration = some MAX_ITERATIONS) ∧
    (∃ out, (finalize_workflow (refine_draft R st sid fb).1 sid).2 = .ok out ∧
      out.final_document
        = (if sess.redaction_map.isEmpty then d else restore d sess.redaction_map) ∧
      out.iterations = MAX_ITERATIONS ∧
      out.status = "approved_by_human") := by
  have hne : ¬ (sess.stage != "awaiting_draft_review") = true := by
    simp [hstage]
  have hgt : sess.iteration.getD 1 + 1 > MAX_ITERATIONS := by
    rw [hit]
    simp [MAX_ITERATIONS]
  have hres : refine_draft R st sid fb
      = (appendTr st sid
          [⟨"orchestrator", "max_iterations_reached",
            s!"Maximum refinement iterations ({MAX_ITERATIONS}) reached. Please finalize the current draft or start a new workflow."⟩],
         .error (.valueError
          s!"Maximum iterations ({MAX_ITERATIONS}) reached. Current draft is the best available. Please approve or start new workflow.")) := by
    simp only [refine_draft, h, if_neg hne, ha, if_pos hgt]
  have hlook : lookupS (refine_draft R st sid fb).1 sid
      = some { sess with agent_traces := sess.agent_traces ++
          [⟨"orchestrator", "max_iterations_reached",
            s!"Maximum refinement iterations ({MAX_ITERATIONS}) reached. Please finalize the current draft or start a new workflow."⟩] } := by
    rw [hres]
    simp only [appendTr, lookupS_updateS, h, Option.map_some']
  refine ⟨by rw [hres]; rfl, ⟨_, hlook, hstage, hd, hit⟩, ?_⟩
  obtain ⟨out, ho, hdoc, hitout, hstat, _⟩ :=
    finalize_ok_of (refine_draft R st sid fb).1 sid _ ar d hlook hstage hd ha
  refine ⟨out, ho, hdoc, ?_, hstat⟩
  rw [hitout]
  rw [hit]
  rfl

/-- Witness for the amended C2 at concrete inputs. -/
theorem claim2_witness :
    (refine_draft rejectingRoles [("s1", sessDraft 3)] "s1" "fb").2
        = .error (.valueError
          "Maximum iterations (3) reached. Current draft is the best available. Please approve or start new workflow.") ∧
    (∃ s', lookupS (refine_draft rejectingRoles [("s1", sessDraft 3)] "s1" "fb").1 "s1"
          = some s' ∧
      s'.stage = "awaiting_draft_review" ∧
      s'.current_draft = some (toL "D3") ∧
      s'.iteration = some MAX_ITERATIONS) ∧
    (∃ out, (finalize_workflow
          (refine_draft rejectingRoles [("s1", sessDraft 3)] "s1" "fb").1 "s1").2
        = .ok out ∧
      out.final_document
        = (if (sessDraft 3).redaction_map.isEmpty then toL "D3"
           else restore (toL "D3") (sessDraft 3).redaction_map) ∧
      out.iterations = MAX_ITERATIONS ∧
      out.status = "approved_by_human") :=
  claim2_amended rejectingRoles [("s1", sessDraft 3)] "s1" "fb" (sessDraft 3)
    { legal_provisions := ["CPA 2019"] } (toL "D3") rfl rfl rfl rfl rfl

/-!
### Claim C4 — automatic-mode termination
-/

/-- One rejected iteration of the automatic loop: the iteration counter
increments, the reviewer feedback becomes the next drafting feedback, and
the iteration's trace entries are appended. -/
theorem genLoopF_reject_step (R : Roles) (g : Str) (fnd : Findings) (fuel : Nat)
    (s : GenLoopSt) (d : Str) (r : Review)
    (hlt : s.iteration < MAX_ITERATIONS)
    (hd : R.draft g fnd s.feedback = some d)
    (hr : R.review d fnd = some r)
    (hrej : r.is_approved = false) :
    genLoopF R g fnd (fuel + 1) s
      = genLoopF R g fnd fuel
          { draft := some d, review := some r, iteration := s.iteration + 1,
            feedback := r.feedback, tr := rejectIterTrace fnd s d r } := by
  simp only [genLoopF, rejectIterTrace, if_pos hlt, hd, hr, hrej, Bool.false_eq_true,
    if_false]

/-- A full run of the automatic loop against an always-rejecting reviewer,
from a state at iteration 0 with empty feedback: the loop stops after
exactly `MAX_ITERATIONS` iterations, holding the third draft and review. -/
theorem genLoopF_reject_run (R : Roles) (g : Str) (fnd : Findings)
    (df : Str → Findings → String → Str) (rv : Str → Findings → Review)
    (hdf : ∀ a b c, R.draft a b c = some (df a b c))
    (hrv : ∀ a b, R.review a b = some (rv a b))
    (hrej : ∀ a b, (rv a b).is_approved = false)
    (s : GenLoopSt) (hs : s.iteration = 0) (hfb : s.feedback = "") :
    ∃ s', genLoopF R g fnd MAX_ITERATIONS s = Except.ok s' ∧
      s'.iteration = MAX_ITERATIONS ∧
      s'.draft = some (df g fnd (rv (df g fnd (rv (df g fnd "") fnd).feedback) fnd).feedback) ∧
      s'.review
        = some (rv (df g fnd (rv (df g fnd (rv (df g fnd "") fnd).feedback) fnd).feedback) fnd) := by
  obtain ⟨dr0, rw0, it0, fb0, tr0⟩ := s
  simp only at hs hfb
  subst hs
  subst hfb
  have h1 := genLoopF_reject_step R g fnd 2 ⟨dr0, rw0, 0, "", tr0⟩
    (df g fnd "") (rv (df g fnd "") fnd)
    (show (0:Nat) < MAX_ITERATIONS by decide)
    (hdf g fnd "") (hrv (df g fnd "") fnd) (hrej (df g fnd "") fnd)
  have h2 := genLoopF_reject_step R g fnd 1
    ⟨some (df g fnd ""), some (rv (df g fnd "") fnd),
     (⟨dr0, rw0, 0, "", tr0⟩ : GenLoopSt).iteration + 1, (rv (df g fnd "") fnd).feedback,
     rejectIterTrace fnd ⟨dr0, rw0, 0, "", tr0⟩ (df g fnd "") (rv (df g fnd "") fnd)⟩
    (df g fnd (rv (df g fnd "") fnd).feedback)
    (rv (df g fnd (rv (df g fnd "") fnd).feedback) fnd)
    (show (0:Nat) + 1 < MAX_ITERATIONS by decide)
    (hdf g fnd ((rv (df g fnd "") fnd).feedback))
    (hrv (df g fnd (rv (df g fnd "") fnd).feedback) fnd)
    (hrej (df g fnd (rv (df g fnd "") fnd).feedback) fnd)
  set S1 : GenLoopSt :=
    ⟨some (df g fnd ""), some (rv (df g fnd "") fnd),
     (⟨dr0, rw0, 0, "", tr0⟩ : GenLoopSt).iteration + 1, (rv (df g fnd "") fnd).feedback,
     rejectIterTrace fnd ⟨dr0, rw0, 0, "", tr0⟩ (df g fnd "") (rv (df g fnd "") fnd)⟩
    with hS1
  have h3 := genLoopF_reject_step R g fnd 0
    ⟨some (df g fnd (rv (df g fnd "") fnd).feedback),
     some (rv (df g fnd (rv (df g fnd "") fnd).feedback) fnd),
     S1.iteration + 1,
     (rv (df g fnd (rv (df g fnd "") fnd).feedback) fnd).feedback,
     rejectIterTrace fnd S1 (df g fnd (rv (df g fnd "") fnd).feedback)
       (rv (df g fnd (rv (df g fnd "") fnd).feedback) fnd)⟩
    (df g fnd (rv (df g fnd (rv (df g fnd "") fnd).feedback) fnd).feedback)
    (rv (df g fnd (rv (df g fnd (rv (df g fnd "") fnd).feedback) fnd).feedback) fnd)
    (show (0:Nat) + 1 + 1 < MAX_ITERATIONS by decide)
    (hdf g fnd ((rv (df g fnd (rv (df g fnd "") fnd).feedback) fnd).feedback))
    (hrv (df g fnd (rv (df g fnd (rv (df g fnd "") fnd).feedback) fnd).feedback) fnd)
    (hrej (df g fnd (rv (df g fnd (rv (df g fnd "") fnd).feedback) fnd).feedback) fnd)
  exact ⟨_, (h1.trans h2).trans h3, rfl, rfl, rfl⟩

/-- Claim C4 (confirmed): in fully automatic mode, with a reviewer that
rejects every draft, `generate_legal_aid` terminates after exactly
`MAX_ITERATIONS` (3) drafts — the last draft (the third in the chain of
drafter calls) is returned as best effort — and the status is
"max_iterations_reached", distinct from "approved". -/
theorem claim4_auto_mode_terminates (R : Roles) (g : Str) (fnd : Findings)
    (df : Str → Findings → String → Str) (rv : Str → Findings → Review)
    (hana : R.analyze g (R.gatherCtx g) = some fnd)
    (hdf : ∀ a b c, R.draft a b c = some (df a b c))
    (hrv : ∀ a b, R.review a b = some (rv a b))
    (hrej : ∀ a b, (rv a b).is_approved = false) :
    ∃ out, generate_legal_aid R g = .ok out ∧
      out.status = "max_iterations_reached" ∧
      out.status ≠ "approved" ∧
      out.iterations = MAX_ITERATIONS ∧
      out.final_document
        = some (df g fnd (rv (df g fnd (rv (df g fnd "") fnd).feedback) fnd).feedback) ∧
      out.review_result
        = some (rv (df g fnd (rv (df g fnd (rv (df g fnd "") fnd).feedback) fnd).feedback) fnd) := by
  obtain ⟨s', hrun, hit, hdr, hrw⟩ := genLoopF_reject_run R g fnd df rv hdf hrv hrej
    { draft := none, review := none, iteration := 0, feedback := "",
      tr := genStartTrace R g fnd } rfl rfl
  simp only [generate_legal_aid, hana, hrun]
  refine ⟨_, rfl, ?_, ?_, hit, hdr, hrw⟩
  · simp only [hrw, Option.map_some', Option.getD_some,
      hrej (df g fnd (rv (df g fnd (rv (df g fnd "") fnd).feedback) fnd).feedback) fnd,
      Bool.false_eq_true, if_false]
  · simp only [hrw, Option.map_some', Option.getD_some,
      hrej (df g fnd (rv (df g fnd (rv (df g fnd "") fnd).feedback) fnd).feedback) fnd,
      Bool.false_eq_true, if_false]
    decide

/-- Witness for C4: concrete always-rejecting roles. -/
theorem claim4_witness :
    ∃ out, generate_legal_aid rejectingRoles (toL "a phone issue") = .ok out ∧
      out.status = "max_iterations_reached" ∧
      out.status ≠ "approved" ∧
      out.iterations = MAX_ITERATIONS ∧
      out.final_document = some (toL "draft:fix tone") ∧
      out.review_result = some { is_approved := false, feedback := "fix tone" } :=
  claim4_auto_mode_terminates rejectingRoles (toL "a phone issue")
    { legal_provisions := ["Consumer Protection Act 2019"], merits_score := 8 }
    (fun _ _ fb => toL ("draft:" ++ fb))
    (fun _ _ => { is_approved := false, feedback := "fix tone" })
    rfl (fun _ _ _ => rfl) (fun _ _ => rfl) (fun _ _ => rfl)

/-!
### Claim C6 — research rejection rewind
-/

/-- Claim C6 (amended): rejecting research re-runs the researcher; the
original `session_id` is kept in the returned payload and store, the stage
remains `awaiting_research_approval`, `research_findings` is replaced with
the re-run result, and the final store has exactly the original keys — but
the operation transiently allocates a fresh session id (deleted before
returning) and the session's trace is **replaced** by the fresh re-run
trace `startTraceOf …` rather than extended, so its length does not
strictly increase.  The re-run redacts the stored raw grievance again,
which reproduces the same redacted input deterministically. -/
theorem claim6_amended (R : Roles) (st : Store) (sid fresh : String) (sess : Session)
    (fnd : Findings) (ap : Findings)
    (h : lookupS st sid = some sess)
    (hfr : lookupS st fresh = none)
    (hne : fresh ≠ sid)
    (hana : R.analyze (redact sess.grievance).1 (R.gatherCtx (redact sess.grievance).1)
      = some fnd) :
    (∃ out, (approve_research R st sid false ap fresh).2 = .ok (.rerun out) ∧
      out.session_id = sid ∧ out.research_findings = fnd) ∧
    (∃ s', lookupS (approve_research R st sid false ap fresh).1 sid = some s' ∧
      s'.session_id = sess.session_id ∧
      s'.stage = "awaiting_research_approval" ∧
      s'.research_findings = some fnd ∧
      s'.agent_traces
        = startTraceOf R (redact sess.grievance).1 (redact sess.grievance).2.length fnd) ∧
    lookupS (approve_research R st sid false ap fresh).1 fresh = none ∧
    ((approve_research R st sid false ap fresh).1).map Prod.fst = st.map Prod.fst := by
  have h1f : lookupS (updateS st sid
      (fun s => { s with stage := "awaiting_research_approval" })) fresh = none :=
    lookupS_updateS_none st sid fresh _ hfr
  have hkey1 : updateS (createS (updateS st sid
        (fun s => { s with stage := "awaiting_research_approval" })) fresh sess.grievance) fresh
        (fun s => { s with
                    stage := "awaiting_research_approval",
                    research_findings := some fnd,
                    rag_context := some (R.gatherCtx (redact sess.grievance).1),
                    agent_traces := startTraceOf R (redact sess.grievance).1
                      (redact sess.grievance).2.length fnd,
                    redaction_map := (redact sess.grievance).2,
                    redacted_grievance := some (redact sess.grievance).1 })
      = (updateS st sid (fun s => { s with stage := "awaiting_research_approval" })) ++
        [(fresh,
          { session_id := fresh, grievance := sess.grievance,
            stage := "awaiting_research_approval",
            research_findings := some fnd,
            rag_context := some (R.gatherCtx (redact sess.grievance).1),
            agent_traces := startTraceOf R (redact sess.grievance).1
              (redact sess.grievance).2.length fnd,
            redaction_map := (redact sess.grievance).2,
            redacted_grievance := some (redact sess.grievance).1 })] := by
    rw [updateS_createS_self _ fresh sess.grievance _ h1f]
  have hlook2 : lookupS ((updateS st sid
        (fun s => { s with stage := "awaiting_research_approval" })) ++
        [(fresh,
          { session_id := fresh, grievance := sess.grievance,
            stage := "awaiting_research_approval",
            research_findings := some fnd,
            rag_context := some (R.gatherCtx (redact sess.grievance).1),
            agent_traces := startTraceOf R (redact sess.grievance).1
              (redact sess.grievance).2.length fnd,
            redaction_map := (redact sess.grievance).2,
            redacted_grievance := some (redact sess.grievance).1 })]) fresh
      = some { session_id := fresh, grievance := sess.grievance,
               stage := "awaiting_research_approval",
               research_findings := some fnd,
               rag_context := some (R.gatherCtx (redact sess.grievance).1),
               agent_traces := startTraceOf R (redact sess.grievance).1
                 (redact sess.grievance).2.length fnd,
               redaction_map := (redact sess.grievance).2,
               redacted_grievance := some (redact sess.grievance).1 } :=
    lookupS_append_singleton_self _ fresh _ h1f
  simp only [approve_research, Bool.false_eq_true, if_false, h, start_research, hana,
    hkey1, hlook2]
  rw [updateS_append_singleton_other _ fresh sid _ _ hne,
    deleteS_append_singleton_self _ fresh _ (lookupS_updateS_none _ sid fresh _ h1f)]
  refine ⟨⟨_, rfl, rfl, rfl⟩, ?_, lookupS_updateS_none _ sid fresh _ h1f, ?_⟩
  · rw [lookupS_updateS, lookupS_updateS, h]
    exact ⟨_, rfl, rfl, rfl, rfl, rfl⟩
  · rw [keys_updateS, keys_updateS]

/-- Counterexample for C6: with deterministic roles, a session created by
`start_research` has a 4-entry trace; rejecting the research leaves the
trace at length 4 — the trace is replaced by the fresh re-run trace, so
its length does **not** strictly increase — and the internal re-run
transiently allocates the fresh session id "B" in the store (deleted again
before the operation returns). -/
theorem claim6_counterexample :
    ((lookupS (start_research rejectingRoles [] (toL "a phone issue") "A").1 "A").map
        (fun s => (s.stage, s.agent_traces.length)))
      = some ("awaiting_research_approval", 4) ∧
    ((lookupS (approve_research rejectingRoles
        (start_research rejectingRoles [] (toL "a phone issue") "A").1 "A"
        false {} "B").1 "A").map (fun s => s.agent_traces.length)) = some 4 ∧
    (lookupS (start_research rejectingRoles
        (updateS (start_research rejectingRoles [] (toL "a phone issue") "A").1 "A"
          (fun s => { s with stage := "awaiting_research_approval" }))
        (toL "a phone issue") "B").1 "B").isSome = true ∧
    ¬ (4 > 4) :=
  ⟨rfl, rfl, rfl, by decide⟩

/-- Witness for the amended C6 at concrete inputs. -/
theorem claim6_witness :
    (∃ out, (approve_research rejectingRoles [("s2", sessResearch)] "s2" false {} "B").2
        = .ok (.rerun out) ∧ out.session_id = "s2" ∧
        out.research_findings
          = { legal_provisions := ["Consumer Protection Act 2019"], merits_score := 8 }) ∧
    lookupS (approve_research rejectingRoles [("s2", sessResearch)] "s2" false {} "B").1 "B"
      = none := by
  have hc := claim6_amended rejectingRoles [("s2", sessResearch)] "s2" "B" sessResearch
    { legal_provisions := ["Consumer Protection Act 2019"], merits_score := 8 } {}
    rfl rfl (by decide) rfl
  exact ⟨hc.1, hc.2.2.1⟩

/-!
### Replace-all equations

Equation lemmas for `replAll` and `splitSeg`, obtained from fuel invariance
of the fuel-driven recursions.
-/

theorem isEmpty_false_of_ne_nil (v : Str) (hv : v ≠ []) : v.isEmpty = false := by
  cases v with
  | nil => exact absurd rfl hv
  | cons a b => rfl

theorem replAllF_fuel : ∀ (f g : Nat) (v p t : Str), v ≠ [] →
    t.length ≤ f → t.length ≤ g → replAllF f v p t = replAllF g v p t := by
  intro f
  induction f with
  | zero =>
    intro g v p t _ hf _
    have ht : t = [] := List.eq_nil_of_length_eq_zero (Nat.le_zero.mp hf)
    subst ht
    cases g <;> rfl
  | succ f ih =>
    intro g v p t hv hf hg
    cases t with
    | nil => cases g <;> rfl
    | cons c t' =>
      cases g with
      | zero => simp at hg
      | succ g' =>
        have hvlen : 0 < v.length := List.length_pos.mpr hv
        have hf' : t'.length ≤ f := by simpa using hf
        have hg' : t'.length ≤ g' := by simpa using hg
        have hd : ((c :: t').drop v.length).length ≤ f := by
          simp only [List.length_drop, List.length_cons]; omega
        have hd' : ((c :: t').drop v.length).length ≤ g' := by
          simp only [List.length_drop, List.length_cons]; omega
        simp only [replAllF]
        by_cases hp : v.isPrefixOf (c :: t') = true
        · rw [if_pos hp, if_pos hp, replAllF_fuel_aux]
          exact ih g' v p _ hv hd hd'
        · rw [if_neg hp, if_neg hp, ih g' v p t' hv hf' hg']
where
  replAllF_fuel_aux {p a b : Str} (h : a = b) : p ++ a = p ++ b := by rw [h]

theorem replAll_nil (v p : Str) (hv : v ≠ []) : replAll v p [] = [] := by
  simp only [replAll, isEmpty_false_of_ne_nil v hv, Bool.false_eq_true, if_false]
  rfl

theorem replAll_pos (v p t : Str) (hv : v ≠ []) (h : v <+: t) :
    replAll v p t = p ++ replAll v p (t.drop v.length) := by
  have hvlen : 0 < v.length := List.length_pos.mpr hv
  cases t with
  | nil => exact absurd (List.prefix_nil.mp h) hv
  | cons c t' =>
    have hb : v.isPrefixOf (c :: t') = true := List.isPrefixOf_iff_prefix.mpr h
    simp only [replAll, isEmpty_false_of_ne_nil v hv, Bool.false_eq_true, if_false]
    show replAllF (t'.length + 1) v p (c :: t') = _
    simp only [replAllF, hb, if_true]
    congr 1
    exact replAllF_fuel t'.length _ v p _ hv
      (by simp only [List.length_drop, List.length_cons]; omega) (le_refl _)

theorem replAll_neg (v p : Str) (c : Char) (t : Str) (h : ¬ v <+: (c :: t)) :
    replAll v p (c :: t) = c :: replAll v p t := by
  have hv : v ≠ [] := by rintro rfl; exact h List.nil_prefix
  have hb : v.isPrefixOf (c :: t) = false := by
    rw [Bool.eq_false_iff]
    intro hcontra
    exact h (List.isPrefixOf_iff_prefix.mp hcontra)
  simp only [replAll, isEmpty_false_of_ne_nil v hv, Bool.false_eq_true, if_false]
  show replAllF (t.length + 1) v p (c :: t) = _
  simp only [replAllF, hb, Bool.false_eq_true, if_false]

theorem replAll_of_not_infix (v p : Str) : ∀ t : Str, ¬ v <:+: t → replAll v p t = t := by
  intro t
  induction t with
  | nil =>
    intro h
    have hv : v ≠ [] := by rintro rfl; exact h (List.infix_refl [])
    exact replAll_nil v p hv
  | cons c t' ih =>
    intro h
    rw [replAll_neg v p c t' (fun hp => h hp.isInfix), ih (fun hi => h (List.infix_cons hi))]

theorem splitSegF_fuel : ∀ (f g : Nat) (v p s : Str), v ≠ [] →
    s.length ≤ f → s.length ≤ g → splitSegF f v p s = splitSegF g v p s := by
  intro f
  induction f with
  | zero =>
    intro g v p s _ hf _
    have hs : s = [] := List.eq_nil_of_length_eq_zero (Nat.le_zero.mp hf)
    subst hs
    cases g <;> rfl
  | succ f ih =>
    intro g v p s hv hf hg
    cases s with
    | nil => cases g <;> rfl
    | cons c s' =>
      cases g with
      | zero => simp at hg
      | succ g' =>
        have hvlen : 0 < v.length := List.length_pos.mpr hv
        have hf' : s'.length ≤ f := by simpa using hf
        have hg' : s'.length ≤ g' := by simpa using hg
        have hd : ((c :: s').drop v.length).length ≤ f := by
          simp only [List.length_drop, List.length_cons]; omega
        have hd' : ((c :: s').drop v.length).length ≤ g' := by
          simp only [List.length_drop, List.length_cons]; omega
        simp only [splitSegF]
        by_cases hp : v.isPrefixOf (c :: s') = true
        · rw [if_pos hp, if_pos hp, ih g' v p _ hv hd hd']
        · rw [if_neg hp, if_neg hp, ih g' v p s' hv hf' hg']

theorem splitSeg_nil (v p : Str) : splitSeg v p [] = ([], []) := rfl

theorem splitSeg_pos (v p s : Str) (hv : v ≠ []) (h : v <+: s) :
    splitSeg v p s =
      ([], ((v, p), (splitSeg v p (s.drop v.length)).1) ::
        (splitSeg v p (s.drop v.length)).2) := by
  have hvlen : 0 < v.length := List.length_pos.mpr hv
  cases s with
  | nil => exact absurd (List.prefix_nil.mp h) hv
  | cons c s' =>
    have hb : v.isPrefixOf (c :: s') = true := List.isPrefixOf_iff_prefix.mpr h
    show splitSegF (s'.length + 1) v p (c :: s') = _
    simp only [splitSegF, hb, if_true]
    rw [splitSegF_fuel s'.length ((c :: s').drop v.length).length v p _ hv
      (by simp only [List.length_drop, List.length_cons]; omega) (le_refl _)]
    rfl

theorem splitSeg_neg (v p : Str) (c : Char) (s : Str) (h : ¬ v <+: (c :: s)) :
    splitSeg v p (c :: s) = (c :: (splitSeg v p s).1, (splitSeg v p s).2) := by
  have hb : v.isPrefixOf (c :: s) = false := by
    rw [Bool.eq_false_iff]
    intro hcontra
    exact h (List.isPrefixOf_iff_prefix.mp hcontra)
  show splitSegF (s.length + 1) v p (c :: s) = _
  simp only [splitSegF, hb, Bool.false_eq_true, if_false]
  rfl

theorem containsSub_iff (v : Str) : ∀ t : Str, containsSub v t = true ↔ v <:+: t := by
  intro t
  induction t with
  | nil => simp only [containsSub, List.isEmpty_iff, List.infix_nil]
  | cons c t' ih =>
    simp only [containsSub, Bool.or_eq_true, List.isPrefixOf_iff_prefix, ih,
      List.infix_cons_iff]

/-!
### Append distribution of replace-all

`replAll` distributes over an append when no occurrence of the pattern can
straddle the seam: either the right part starts with a character outside the
pattern, or the left part ends with one.
-/

theorem prefix_of_prefix_append {v a b : Str} (h : v <+: a ++ b)
    (hle : v.length ≤ a.length) : v <+: a := by
  rw [List.prefix_iff_eq_take] at h
  rw [List.take_append_of_le_length hle] at h
  exact List.prefix_iff_eq_take.mpr h

theorem prefix_append_long {v a b : Str} (h : v <+: a ++ b)
    (hgt : a.length < v.length) : v = a ++ b.take (v.length - a.length) := by
  rw [List.prefix_iff_eq_take, List.take_append_eq_append_take,
    List.take_of_length_le (Nat.le_of_lt hgt)] at h
  exact h

theorem replAll_self_block (v p w : Str) (hv : v ≠ []) :
    replAll v p (v ++ w) = p ++ replAll v p w := by
  rw [replAll_pos v p _ hv (List.prefix_append v w), List.drop_left]

theorem replAll_append_headF (v p : Str) (hv : v ≠ []) :
    ∀ (n : Nat) (a b : Str), a.length ≤ n →
      (∀ c, b.head? = some c → c ∉ v) →
      replAll v p (a ++ b) = replAll v p a ++ replAll v p b := by
  intro n
  induction n with
  | zero =>
    intro a b ha _
    have : a = [] := List.eq_nil_of_length_eq_zero (Nat.le_zero.mp ha)
    subst this
    rw [List.nil_append, replAll_nil v p hv, List.nil_append]
  | succ n ih =>
    intro a b ha hb
    cases a with
    | nil => rw [List.nil_append, replAll_nil v p hv, List.nil_append]
    | cons c a' =>
      have hvlen : 0 < v.length := List.length_pos.mpr hv
      cases b with
      | nil => rw [List.append_nil, replAll_nil v p hv, List.append_nil]
      | cons d b' =>
        have hd : d ∉ v := hb d rfl
        by_cases hp : v <+: (c :: a') ++ d :: b'
        · have hpa : v <+: (c :: a') := by
            rcases le_or_lt v.length (c :: a').length with hle | hgt
            · exact prefix_of_prefix_append hp hle
            · exfalso
              apply hd
              have hveq := prefix_append_long hp hgt
              rw [hveq]
              cases hk : v.length - (c :: a').length with
              | zero => omega
              | succ k =>
                rw [List.take_succ_cons]
                exact List.mem_append_right _ (List.mem_cons_self d _)
          have hle : v.length ≤ (c :: a').length := hpa.length_le
          rw [replAll_pos v p _ hv hp, replAll_pos v p _ hv hpa,
            List.drop_append_of_le_length hle, List.append_assoc,
            ih ((c :: a').drop v.length) (d :: b')
              (by simp only [List.length_drop, List.length_cons]
                  simp only [List.length_cons] at ha
                  omega)
              hb]
        · have hpa : ¬ v <+: (c :: a') := fun hx => hp (hx.trans (List.prefix_append _ _))
          have lhs : replAll v p ((c :: a') ++ d :: b')
              = c :: replAll v p (a' ++ d :: b') := replAll_neg v p c _ hp
          rw [lhs, replAll_neg v p c a' hpa, List.cons_append,
            ih a' (d :: b') (by simp only [List.length_cons] at ha; omega) hb]

theorem replAll_append_head (v p a b : Str) (hv : v ≠ [])
    (hb : ∀ c, b.head? = some c → c ∉ v) :
    replAll v p (a ++ b) = replAll v p a ++ replAll v p b :=
  replAll_append_headF v p hv a.length a b (le_refl _) hb

theorem replAll_append_lastF (v p : Str) (hv : v ≠ []) :
    ∀ (n : Nat) (a b : Str), a.length ≤ n → a ≠ [] →
      (∀ c, a.getLast? = some c → c ∉ v) →
      replAll v p (a ++ b) = replAll v p a ++ replAll v p b := by
  intro n
  induction n with
  | zero =>
    intro a b ha hne _
    exact absurd (List.eq_nil_of_length_eq_zero (Nat.le_zero.mp ha)) hne
  | succ n ih =>
    intro a b ha hne hl
    cases a with
    | nil => exact absurd rfl hne
    | cons c a' =>
      have hvlen : 0 < v.length := List.length_pos.mpr hv
      by_cases hp : v <+: (c :: a') ++ b
      · have hlsome : (c :: a').getLast? = some ((c :: a').getLast (by simp)) :=
          List.getLast?_eq_getLast _ _
        have hnotin := hl _ hlsome
        have hle : v.length ≤ (c :: a').length := by
          by_contra hgt
          push_neg at hgt
          apply hnotin
          have hp' := List.prefix_iff_eq_take.mp hp
          have h1 : v.take (c :: a').length = (c :: a') := by
            conv_lhs => rw [hp']
            rw [List.take_take, Nat.min_eq_left (Nat.le_of_lt hgt), List.take_left]
          have hpre : (c :: a') <+: v := List.prefix_iff_eq_take.mpr h1.symm
          exact hpre.subset (List.getLast_mem _)
        have hpa : v <+: (c :: a') := prefix_of_prefix_append hp hle
        by_cases hdrop : (c :: a').drop v.length = []
        · have hlen : v.length = (c :: a').length := by
            have h0 : (c :: a').length - v.length = 0 := by
              rw [← List.length_drop, hdrop]; rfl
            omega
          have hva : v = c :: a' := hpa.eq_of_length hlen
          rw [← hva, replAll_pos v p (v ++ b) hv (List.prefix_append v b), List.drop_left,
            replAll_pos v p v hv List.prefix_rfl, List.drop_length, replAll_nil v p hv,
            List.append_nil]
        · have hglast : ((c :: a').drop v.length).getLast? = (c :: a').getLast? := by
            conv_rhs => rw [← List.take_append_drop v.length (c :: a')]
            rw [List.getLast?_append_of_ne_nil _ hdrop]
          rw [replAll_pos v p _ hv hp, replAll_pos v p _ hv hpa,
            List.drop_append_of_le_length hle, List.append_assoc,
            ih ((c :: a').drop v.length) b
              (by simp only [List.length_drop, List.length_cons]
                  simp only [List.length_cons] at ha
                  omega)
              hdrop
              (fun x hx => hl x (hglast ▸ hx))]
      · cases a' with
        | nil =>
          have hc : c ∉ v := hl c (by simp)
          have hpcb : ¬ v <+: c :: b := by
            intro hx
            cases v with
            | nil => exact hv rfl
            | cons x v' =>
              rw [List.cons_prefix_cons] at hx
              obtain ⟨rfl, -⟩ := hx
              exact hc (List.mem_cons_self _ _)
          have hp1 : ¬ v <+: [c] := by
            intro hx
            cases v with
            | nil => exact hv rfl
            | cons x v' =>
              rw [List.cons_prefix_cons] at hx
              obtain ⟨rfl, -⟩ := hx
              exact hc (List.mem_cons_self _ _)
          rw [show ([c] : Str) ++ b = c :: b from rfl, replAll_neg v p c b hpcb,
            replAll_neg v p c [] hp1, replAll_nil v p hv]
          rfl
        | cons c2 a'' =>
          have hpa : ¬ v <+: (c :: c2 :: a'') :=
            fun hx => hp (hx.trans (List.prefix_append _ _))
          have hl' : ∀ x, (c2 :: a'').getLast? = some x → x ∉ v := by
            intro x hx
            apply hl
            rw [List.getLast?_cons_cons]
            exact hx
          have lhs : replAll v p ((c :: c2 :: a'') ++ b)
              = c :: replAll v p ((c2 :: a'') ++ b) := replAll_neg v p c _ hp
          rw [lhs, ih (c2 :: a'') b (by simp only [List.length_cons] at ha ⊢; omega)
              (by simp) hl',
            replAll_neg v p c (c2 :: a'') hpa, List.cons_append]

theorem replAll_append_last (v p a b : Str) (hv : v ≠ []) (hne : a ≠ [])
    (hl : ∀ c, a.getLast? = some c → c ∉ v) :
    replAll v p (a ++ b) = replAll v p a ++ replAll v p b :=
  replAll_append_lastF v p hv a.length a b (le_refl _) hne hl

/-!
### Placeholder shape and no-straddle lemmas

A placeholder is `'['`, a bracket-free interior, `']'`.  No occurrence of a
placeholder can straddle the seam of an append whose inserted middle is a
bracket-free value (unless the value sits inside the placeholder interior) or
another placeholder.
-/

theorem ph_head {p : Str} (hp : IsPh p) : p.head? = some '[' := by
  obtain ⟨m, hm, hc, rfl⟩ := hp
  rfl

theorem ph_ne_nil {p : Str} (hp : IsPh p) : p ≠ [] := by
  obtain ⟨m, hm, hc, rfl⟩ := hp
  simp

theorem ph_getLast {p : Str} (hp : IsPh p) : p.getLast? = some ']' := by
  obtain ⟨m, hm, hc, rfl⟩ := hp
  rw [show ('[' :: (m ++ [']'])) = ('[' :: m) ++ [']'] by simp, List.getLast?_concat]

theorem mem_of_getLast_some {l : Str} {x : Char} (h : l.getLast? = some x) : x ∈ l := by
  cases l with
  | nil => simp at h
  | cons c l' =>
    have hne : (c :: l') ≠ [] := by simp
    rw [List.getLast?_eq_getLast _ hne] at h
    have hx := Option.some.inj h
    rw [← hx]
    exact List.getLast_mem hne

theorem ph_drop_no_lb {q : Str} (hq : IsPh q) {k : Nat} (hk : 1 ≤ k) :
    '[' ∉ q.drop k := by
  obtain ⟨m, hm, ⟨hml, hmr⟩, rfl⟩ := hq
  intro hmem
  have hsub : ('[' :: (m ++ [']'])).drop k ⊆ m ++ [']'] := by
    cases k with
    | zero => omega
    | succ k' =>
      rw [List.drop_succ_cons]
      exact List.drop_subset _ _
  rcases List.mem_append.mp (hsub hmem) with h1 | h1
  · exact hml h1
  · simp at h1

theorem rb_split : ∀ (a b w : Str), ']' ∉ a → ']' ∉ b →
    (a ++ [']']) <+: (b ++ ']' :: w) → a = b := by
  intro a
  induction a with
  | nil =>
    intro b w _ hb h
    cases b with
    | nil => rfl
    | cons y b' =>
      rw [List.nil_append, List.cons_append, List.cons_prefix_cons] at h
      exact absurd (by rw [h.1]; exact List.mem_cons_self _ _) hb
  | cons x a' ih =>
    intro b w ha hb h
    cases b with
    | nil =>
      rw [List.cons_append, List.nil_append, List.cons_prefix_cons] at h
      exact absurd (by rw [← h.1]; exact List.mem_cons_self _ _) ha
    | cons y b' =>
      rw [List.cons_append, List.cons_append, List.cons_prefix_cons] at h
      rw [h.1, ih b' w (fun hx => ha (List.mem_cons_of_mem _ hx))
        (fun hx => hb (List.mem_cons_of_mem _ hx)) h.2]

theorem ph_prefix_eq {p q : Str} (hp : IsPh p) (hq : IsPh q) {w : Str}
    (h : q <+: p ++ w) : q = p := by
  obtain ⟨mp, hmp, ⟨hmpl, hmpr⟩, rfl⟩ := hp
  obtain ⟨mq, hmq, ⟨hmql, hmqr⟩, rfl⟩ := hq
  rw [List.cons_append, List.cons_prefix_cons] at h
  have h2 : (mq ++ [']']) <+: (mp ++ ']' :: w) := by
    have hre : (mp ++ [']']) ++ w = mp ++ ']' :: w := by simp
    rw [← hre]
    exact h.2
  rw [rb_split mq mp w hmqr hmpr h2]

theorem infix_skip_nolb {q : Str} (hq : IsPh q) :
    ∀ (u b : Str), (∀ c ∈ u, c ≠ '[') → ¬ q <:+: b → ¬ q <:+: u ++ b := by
  intro u
  induction u with
  | nil => intro b _ hb; simpa using hb
  | cons c u' ih =>
    intro b hu hb h
    rw [List.cons_append, List.infix_cons_iff] at h
    rcases h with h | h
    · obtain ⟨m, hm, hc, rfl⟩ := hq
      rw [List.cons_prefix_cons] at h
      exact hu c (List.mem_cons_self c u') h.1.symm
    · exact ih b (fun x hx => hu x (List.mem_cons_of_mem c hx)) hb h

theorem ph_break {q : Str} (hq : IsPh q) :
    ∀ (a w : Str), ¬ q <:+: a → a ≠ [] → w.head? = some '[' → ¬ q <+: a ++ w := by
  intro a w hqa hane hw h
  rcases le_or_lt q.length a.length with hle | hgt
  · exact hqa (prefix_of_prefix_append h hle).isInfix
  · have hveq := prefix_append_long h hgt
    have halen : 0 < a.length := List.length_pos.mpr hane
    have hmem : '[' ∈ q.drop a.length := by
      rw [hveq, List.drop_left]
      cases w with
      | nil => simp at hw
      | cons d w' =>
        have hd : d = '[' := by simpa using hw
        cases hk : q.length - a.length with
        | zero => omega
        | succ k =>
          rw [List.take_succ_cons]
          rw [hd] at *
          exact List.mem_cons_self _ _
    exact ph_drop_no_lb hq halen hmem

theorem clean_infix_ph_mid {v q : Str} (hcv : Clean v) (hv : v ≠ []) (hq : IsPh q)
    (h : v <:+: q) : v <:+: phMid q := by
  obtain ⟨m, hm, hcm, rfl⟩ := hq
  obtain ⟨s, t, hst⟩ := h
  have hmid : phMid ('[' :: (m ++ [']'])) = m := by
    simp [phMid]
  rw [hmid]
  cases s with
  | nil =>
    exfalso
    rw [List.nil_append] at hst
    cases v with
    | nil => exact hv rfl
    | cons x v' =>
      rw [List.cons_append, List.cons.injEq] at hst
      exact hcv.1 (by rw [← hst.1]; exact List.mem_cons_self _ _)
  | cons x s' =>
    rw [List.cons_append, List.cons_append, List.cons.injEq] at hst
    obtain ⟨-, hst2⟩ := hst
    by_cases ht : t = []
    · exfalso
      subst ht
      rw [List.append_nil] at hst2
      have h1 : (s' ++ v).getLast? = some ']' := by rw [hst2, List.getLast?_concat]
      rw [List.getLast?_append_of_ne_nil _ hv] at h1
      exact hcv.2 (mem_of_getLast_some h1)
    · have hg := List.dropLast_concat_getLast ht
      have hst3 : ((s' ++ v) ++ t.dropLast) ++ [t.getLast ht] = m ++ [']'] := by
        rw [List.append_assoc (s' ++ v) t.dropLast, hg]
        exact hst2
      have hA : (s' ++ v) ++ t.dropLast = m := by
        have hdl := congrArg List.dropLast hst3
        simpa using hdl
      exact ⟨s', t.dropLast, by rw [← hA]⟩

theorem ns_pre {q v : Str} (hq : IsPh q) (hcv : Clean v) (hv : v ≠ [])
    (hmid : ¬ v <:+: phMid q) :
    ∀ (a b : Str), ¬ q <:+: a → ¬ q <+: a ++ (v ++ b) := by
  intro a b hqa h
  rcases le_or_lt q.length a.length with hle | hgt
  · exact hqa (prefix_of_prefix_append h hle).isInfix
  · rcases le_or_lt q.length (a.length + v.length) with hle2 | hgt2
    · have hveq := prefix_append_long h hgt
      have htake : (v ++ b).take (q.length - a.length) = v.take (q.length - a.length) :=
        List.take_append_of_le_length (by omega)
      rw [htake] at hveq
      have htne : v.take (q.length - a.length) ≠ [] := by
        intro hx
        have hxl := congrArg List.length hx
        simp only [List.length_take, List.length_nil] at hxl
        omega
      have hlast : (v.take (q.length - a.length)).getLast? = some ']' := by
        rw [← List.getLast?_append_of_ne_nil a htne, ← hveq]
        exact ph_getLast hq
      exact hcv.2 (List.take_subset _ _ (mem_of_getLast_some hlast))
    · have hveq := prefix_append_long h hgt
      have htk : (v ++ b).take (q.length - a.length)
          = v ++ b.take (q.length - a.length - v.length) := by
        rw [List.take_append_eq_append_take, List.take_of_length_le (by omega)]
      rw [htk] at hveq
      have hinf : a ++ v ++ b.take (q.length - a.length - v.length) = q := by
        conv_rhs => rw [hveq]
        rw [List.append_assoc]
      exact hmid (clean_infix_ph_mid hcv hv hq ⟨a, _, hinf⟩)

theorem ns_clean {q v : Str} (hq : IsPh q) (hcv : Clean v) (hv : v ≠ [])
    (hmid : ¬ v <:+: phMid q) :
    ∀ (a b : Str), ¬ q <:+: a → ¬ q <:+: b → ¬ q <:+: a ++ (v ++ b) := by
  intro a
  induction a with
  | nil =>
    intro b _ hqb
    rw [List.nil_append]
    exact infix_skip_nolb hq v b (fun c hc he => hcv.1 (he ▸ hc)) hqb
  | cons c a' ih =>
    intro b hqa hqb h
    rw [List.cons_append, List.infix_cons_iff] at h
    rcases h with h | h
    · exact ns_pre hq hcv hv hmid (c :: a') b hqa (by rw [List.cons_append]; exact h)
    · exact ih b (fun hx => hqa (List.infix_cons hx)) hqb h

theorem ns2_pre {q p : Str} (hq : IsPh q) (hp : IsPh p) (hne : q ≠ p) :
    ∀ (a b : Str), ¬ q <:+: a → ¬ q <+: a ++ (p ++ b) := by
  intro a b hqa h
  cases a with
  | nil =>
    rw [List.nil_append] at h
    exact hne (ph_prefix_eq hp hq h)
  | cons c a' =>
    have hhead : (p ++ b).head? = some '[' := by
      obtain ⟨m, hm, hc, rfl⟩ := hp
      rfl
    exact ph_break hq (c :: a') (p ++ b) hqa (by simp) hhead h

theorem infix_shift_ph {q p : Str} (hq : IsPh q) (hp : IsPh p) (hne : q ≠ p)
    {u : Str} (h : q <:+: p ++ u) : q <:+: u := by
  obtain ⟨m, hm, hc, rfl⟩ := hp
  rw [List.cons_append, List.infix_cons_iff] at h
  rcases h with h | h
  · exact absurd (ph_prefix_eq ⟨m, hm, hc, rfl⟩ hq h) hne
  · by_contra hqu
    exact infix_skip_nolb hq (m ++ [']']) u
      (fun c hcm he => by
        subst he
        rcases List.mem_append.mp hcm with h1 | h1
        · exact hc.1 h1
        · simp at h1)
      hqu h

theorem ns_ph {q p : Str} (hq : IsPh q) (hp : IsPh p) (hne : q ≠ p) :
    ∀ (a b : Str), ¬ q <:+: a → ¬ q <:+: b → ¬ q <:+: a ++ (p ++ b) := by
  intro a
  induction a with
  | nil =>
    intro b _ hqb h
    rw [List.nil_append] at h
    exact hqb (infix_shift_ph hq hp hne h)
  | cons c a' ih =>
    intro b hqa hqb h
    rw [List.cons_append, List.infix_cons_iff] at h
    rcases h with h | h
    · exact ns2_pre hq hp hne (c :: a') b hqa (by rw [List.cons_append]; exact h)
    · exact ih b (fun hx => hqa (List.infix_cons hx)) hqb h

theorem infix_split_clean {q v : Str} (hq : IsPh q) (hcv : Clean v) (hv : v ≠ [])
    (hmid : ¬ v <:+: phMid q) {a b : Str} (h : q <:+: a ++ (v ++ b)) :
    q <:+: a ∨ q <:+: b := by
  by_contra hc
  push_neg at hc
  exact ns_clean hq hcv hv hmid a b hc.1 hc.2 h

theorem infix_split_ph {q p : Str} (hq : IsPh q) (hp : IsPh p) (hne : q ≠ p)
    {a b : Str} (h : q <:+: a ++ (p ++ b)) : q <:+: a ∨ q <:+: b := by
  by_contra hc
  push_neg at hc
  exact ns_ph hq hp hne a b hc.1 hc.2 h

theorem replAll_walk {p : Str} (hp : IsPh p) (v : Str) :
    ∀ (h w : Str), ¬ p <:+: h → w.head? = some '[' →
      replAll p v (h ++ w) = h ++ replAll p v w := by
  intro h
  induction h with
  | nil => intro w _ _; rw [List.nil_append, List.nil_append]
  | cons c h' ih =>
    intro w hph hw
    have hnp : ¬ p <+: (c :: h') ++ w :=
      ph_break hp (c :: h') w hph (by simp) hw
    have lhs : replAll p v ((c :: h') ++ w) = c :: replAll p v (h' ++ w) :=
      replAll_neg p v c _ hnp
    rw [lhs, ih w (fun hx => hph (List.infix_cons hx)) hw, List.cons_append]

theorem replAll_skip_nolb (p v : Str) (hph : p.head? = some '[') :
    ∀ (u w : Str), (∀ c ∈ u, c ≠ '[') → replAll p v (u ++ w) = u ++ replAll p v w := by
  intro u
  induction u with
  | nil => intro w _; rw [List.nil_append, List.nil_append]
  | cons c u' ih =>
    intro w hu
    have hnp : ¬ p <+: (c :: u') ++ w := by
      intro hx
      cases p with
      | nil => simp at hph
      | cons x p' =>
        have hx2 : x = '[' := by simpa using hph
        rw [List.cons_append, List.cons_prefix_cons] at hx
        exact hu c (List.mem_cons_self _ _) (by rw [← hx.1, hx2])
    have lhs : replAll p v ((c :: u') ++ w) = c :: replAll p v (u' ++ w) :=
      replAll_neg p v c _ hnp
    rw [lhs, ih w (fun x hx => hu x (List.mem_cons_of_mem c hx)), List.cons_append]

theorem replAll_ph_block {p q : Str} (hp : IsPh p) (hq : IsPh q) (hne : p ≠ q)
    (v w : Str) : replAll p v (q ++ w) = q ++ replAll p v w := by
  obtain ⟨m, hm, hc, rfl⟩ := hq
  have hnp : ¬ p <+: ('[' :: (m ++ [']'])) ++ w := by
    intro hx
    exact hne (ph_prefix_eq ⟨m, hm, hc, rfl⟩ hp hx)
  have lhs : replAll p v (('[' :: (m ++ [']'])) ++ w)
      = '[' :: replAll p v ((m ++ [']']) ++ w) := replAll_neg p v '[' _ hnp
  rw [lhs, replAll_skip_nolb p v (ph_head hp) (m ++ [']']) w
      (fun c hcm he => by
        subst he
        rcases List.mem_append.mp hcm with h1 | h1
        · exact hc.1 h1
        · simp at h1),
    List.cons_append]

/-!
### Decomposition of a replace-all pass

`splitSeg` decomposes the text along the pattern occurrences; its blocks
render to `replAll` and re-render to the original text, and its literal
fragments are fragments of the text.
-/

theorem splitSeg_renderF (v p : Str) (hv : v ≠ []) :
    ∀ (n : Nat) (s : Str), s.length ≤ n →
      (splitSeg v p s).1 ++ renderPairs (splitSeg v p s).2 = replAll v p s := by
  intro n
  induction n with
  | zero =>
    intro s hs
    have : s = [] := List.eq_nil_of_length_eq_zero (Nat.le_zero.mp hs)
    subst this
    rw [splitSeg_nil, replAll_nil v p hv]
    rfl
  | succ n ih =>
    intro s hs
    have hvlen : 0 < v.length := List.length_pos.mpr hv
    cases s with
    | nil => rw [splitSeg_nil, replAll_nil v p hv]; rfl
    | cons c s' =>
      have hlen : ((c :: s').drop v.length).length ≤ n := by
        simp only [List.length_drop, List.length_cons]
        simp only [List.length_cons] at hs
        omega
      by_cases hp : v <+: (c :: s')
      · rw [splitSeg_pos v p _ hv hp, replAll_pos v p _ hv hp]
        simp only [renderPairs, List.nil_append]
        rw [List.append_assoc, ih ((c :: s').drop v.length) hlen]
      · rw [splitSeg_neg v p c s' hp, replAll_neg v p c s' hp]
        show (c :: (splitSeg v p s').1) ++ _ = _
        rw [List.cons_append, ih s' (by simp only [List.length_cons] at hs; omega)]

theorem splitSeg_render (v p s : Str) (hv : v ≠ []) :
    (splitSeg v p s).1 ++ renderPairs (splitSeg v p s).2 = replAll v p s :=
  splitSeg_renderF v p hv s.length s (le_refl _)

theorem splitSeg_origF (v p : Str) (hv : v ≠ []) :
    ∀ (n : Nat) (s : Str), s.length ≤ n →
      (splitSeg v p s).1 ++ origPairs (splitSeg v p s).2 = s := by
  intro n
  induction n with
  | zero =>
    intro s hs
    have : s = [] := List.eq_nil_of_length_eq_zero (Nat.le_zero.mp hs)
    subst this
    rw [splitSeg_nil]
    rfl
  | succ n ih =>
    intro s hs
    have hvlen : 0 < v.length := List.length_pos.mpr hv
    cases s with
    | nil => rw [splitSeg_nil]; rfl
    | cons c s' =>
      have hlen : ((c :: s').drop v.length).length ≤ n := by
        simp only [List.length_drop, List.length_cons]
        simp only [List.length_cons] at hs
        omega
      by_cases hp : v <+: (c :: s')
      · obtain ⟨t, ht⟩ := hp
        have hdrop : (c :: s').drop v.length = t := by rw [← ht, List.drop_left]
        rw [splitSeg_pos v p _ hv ⟨t, ht⟩]
        simp only [origPairs, List.nil_append]
        rw [List.append_assoc, ih ((c :: s').drop v.length) hlen, hdrop, ht]
      · rw [splitSeg_neg v p c s' hp]
        show (c :: (splitSeg v p s').1) ++ _ = _
        rw [List.cons_append, ih s' (by simp only [List.length_cons] at hs; omega)]

theorem splitSeg_orig (v p s : Str) (hv : v ≠ []) :
    (splitSeg v p s).1 ++ origPairs (splitSeg v p s).2 = s :=
  splitSeg_origF v p hv s.length s (le_refl _)

theorem splitSeg_fst_prefF (v p : Str) (hv : v ≠ []) :
    ∀ (n : Nat) (s : Str), s.length ≤ n → (splitSeg v p s).1 <+: s := by
  intro n
  induction n with
  | zero =>
    intro s hs
    have : s = [] := List.eq_nil_of_length_eq_zero (Nat.le_zero.mp hs)
    subst this
    exact List.nil_prefix
  | succ n ih =>
    intro s hs
    cases s with
    | nil => exact List.nil_prefix
    | cons c s' =>
      by_cases hp : v <+: (c :: s')
      · rw [splitSeg_pos v p _ hv hp]
        exact List.nil_prefix
      · rw [splitSeg_neg v p c s' hp]
        show (c :: (splitSeg v p s').1) <+: c :: s'
        rw [List.cons_prefix_cons]
        exact ⟨rfl, ih s' (by simp only [List.length_cons] at hs; omega)⟩

theorem splitSeg_fst_pref (v p s : Str) (hv : v ≠ []) : (splitSeg v p s).1 <+: s :=
  splitSeg_fst_prefF v p hv s.length s (le_refl _)

theorem splitSeg_lits_infF (v p : Str) (hv : v ≠ []) :
    ∀ (n : Nat) (s : Str), s.length ≤ n →
      ∀ pr l, (pr, l) ∈ (splitSeg v p s).2 → l <:+: s := by
  intro n
  induction n with
  | zero =>
    intro s hs pr l hm
    have : s = [] := List.eq_nil_of_length_eq_zero (Nat.le_zero.mp hs)
    subst this
    rw [splitSeg_nil] at hm
    simp at hm
  | succ n ih =>
    intro s hs pr l hm
    have hvlen : 0 < v.length := List.length_pos.mpr hv
    cases s with
    | nil =>
      rw [splitSeg_nil] at hm
      simp at hm
    | cons c s' =>
      have hlen : ((c :: s').drop v.length).length ≤ n := by
        simp only [List.length_drop, List.length_cons]
        simp only [List.length_cons] at hs
        omega
      have hsfx : (c :: s').drop v.length <:+ c :: s' :=
        ⟨(c :: s').take v.length, List.take_append_drop _ _⟩
      by_cases hp : v <+: (c :: s')
      · rw [splitSeg_pos v p _ hv hp] at hm
        rcases List.mem_cons.mp hm with he | hm'
        · have hl : l = (splitSeg v p ((c :: s').drop v.length)).1 :=
            congrArg Prod.snd he
          rw [hl]
          exact ((splitSeg_fst_prefF v p hv n _ hlen).isInfix).trans hsfx.isInfix
        · exact (ih _ hlen pr l hm').trans hsfx.isInfix
      · rw [splitSeg_neg v p c s' hp] at hm
        exact List.infix_cons (ih s' (by simp only [List.length_cons] at hs; omega) pr l hm)

theorem splitSeg_lits_inf (v p s : Str) (hv : v ≠ []) :
    ∀ pr l, (pr, l) ∈ (splitSeg v p s).2 → l <:+: s :=
  splitSeg_lits_infF v p hv s.length s (le_refl _)

theorem splitSeg_pairsF (v p : Str) (hv : v ≠ []) :
    ∀ (n : Nat) (s : Str), s.length ≤ n →
      ∀ pr l, (pr, l) ∈ (splitSeg v p s).2 → pr = (v, p) := by
  intro n
  induction n with
  | zero =>
    intro s hs pr l hm
    have : s = [] := List.eq_nil_of_length_eq_zero (Nat.le_zero.mp hs)
    subst this
    rw [splitSeg_nil] at hm
    simp at hm
  | succ n ih =>
    intro s hs pr l hm
    have hvlen : 0 < v.length := List.length_pos.mpr hv
    cases s with
    | nil =>
      rw [splitSeg_nil] at hm
      simp at hm
    | cons c s' =>
      have hlen : ((c :: s').drop v.length).length ≤ n := by
        simp only [List.length_drop, List.length_cons]
        simp only [List.length_cons] at hs
        omega
      by_cases hp : v <+: (c :: s')
      · rw [splitSeg_pos v p _ hv hp] at hm
        rcases List.mem_cons.mp hm with he | hm'
        · exact congrArg Prod.fst he
        · exact ih _ hlen pr l hm'
      · rw [splitSeg_neg v p c s' hp] at hm
        exact ih s' (by simp only [List.length_cons] at hs; omega) pr l hm

theorem splitSeg_pairs (v p s : Str) (hv : v ≠ []) :
    ∀ pr l, (pr, l) ∈ (splitSeg v p s).2 → pr = (v, p) :=
  splitSeg_pairsF v p hv s.length s (le_refl _)

theorem renderPairs_append : ∀ (A B : List ((Str × Str) × Str)),
    renderPairs (A ++ B) = renderPairs A ++ renderPairs B := by
  intro A B
  induction A with
  | nil => rfl
  | cons x A' ih =>
    obtain ⟨pr, l⟩ := x
    simp only [List.cons_append, renderPairs, List.append_eq, ih, List.append_assoc]

theorem origPairs_append : ∀ (A B : List ((Str × Str) × Str)),
    origPairs (A ++ B) = origPairs A ++ origPairs B := by
  intro A B
  induction A with
  | nil => rfl
  | cons x A' ih =>
    obtain ⟨pr, l⟩ := x
    simp only [List.cons_append, origPairs, List.append_eq, ih, List.append_assoc]

theorem rend_abs {q v : Str} (hq : IsPh q) (hcv : Clean v) (hv : v ≠ [])
    (hmid : ¬ v <:+: phMid q) :
    ∀ (pairs : List ((Str × Str) × Str)) (l0 : Str), ¬ q <:+: l0 →
      (∀ pr l, (pr, l) ∈ pairs → ¬ q <:+: l ∧ pr.2 = v) →
      ¬ q <:+: l0 ++ renderPairs pairs := by
  intro pairs
  induction pairs with
  | nil => intro l0 h0 _; simpa [renderPairs] using h0
  | cons x r ih =>
    obtain ⟨pr, l⟩ := x
    intro l0 h0 hps
    have hx := hps pr l (List.mem_cons_self _ _)
    simp only [renderPairs, hx.2]
    rw [List.append_assoc]
    exact ns_clean hq hcv hv hmid l0 (l ++ renderPairs r) h0
      (ih l hx.1 (fun pr' l' hm => hps pr' l' (List.mem_cons_of_mem _ hm)))

theorem orig_split {q p : Str} (hq : IsPh q) (hp : IsPh p) (hne : q ≠ p) :
    ∀ (pairs : List ((Str × Str) × Str)) (l0 : Str),
      (∀ pr l, (pr, l) ∈ pairs → pr.1 = p) →
      q <:+: l0 ++ origPairs pairs →
      q <:+: l0 ∨ ∃ pr l, (pr, l) ∈ pairs ∧ q <:+: l := by
  intro pairs
  induction pairs with
  | nil =>
    intro l0 _ h
    left
    simpa [origPairs] using h
  | cons x r ih =>
    obtain ⟨pr, l⟩ := x
    intro l0 hps h
    have hx := hps pr l (List.mem_cons_self _ _)
    simp only [origPairs, hx] at h
    rw [List.append_assoc] at h
    rcases infix_split_ph hq hp hne h with h1 | h1
    · exact Or.inl h1
    · rcases ih l (fun pr' l' hm => hps pr' l' (List.mem_cons_of_mem _ hm)) h1 with
        h2 | ⟨pr', l', hm, h3⟩
      · exact Or.inr ⟨pr, l, List.mem_cons_self _ _, h2⟩
      · exact Or.inr ⟨pr', l', List.mem_cons_of_mem _ hm, h3⟩

theorem rend_has {q : Str} :
    ∀ (pairs : List ((Str × Str) × Str)) (l0 : Str),
      (q <:+: l0 ∨ ∃ pr l, (pr, l) ∈ pairs ∧ q <:+: l) →
      q <:+: l0 ++ renderPairs pairs := by
  intro pairs
  induction pairs with
  | nil =>
    intro l0 h
    rcases h with h | ⟨pr, l, hm, _⟩
    · simpa [renderPairs] using h
    · simp at hm
  | cons x r ih =>
    obtain ⟨pr, l⟩ := x
    intro l0 h
    rcases h with h | ⟨pr', l', hm, h1⟩
    · exact h.trans (List.prefix_append l0 _).isInfix
    · have hsub : q <:+: l ++ renderPairs r := by
        rcases List.mem_cons.mp hm with he | hm'
        · have hl : l' = l := congrArg Prod.snd he
          rw [hl] at h1
          exact h1.trans (List.prefix_append l _).isInfix
        · exact ih l (Or.inr ⟨pr', l', hm', h1⟩)
      have hemb : q <:+: (l0 ++ pr.2) ++ (l ++ renderPairs r) :=
        hsub.trans (List.suffix_append _ _).isInfix
      simp only [renderPairs]
      rw [show l0 ++ (pr.2 ++ l ++ renderPairs r)
          = (l0 ++ pr.2) ++ (l ++ renderPairs r) by simp]
      exact hemb

theorem replAll_not_infix_of {q p v t : Str} (hq : IsPh q) (hp : IsPh p)
    (hcv : Clean v) (hv : v ≠ []) (hmid : ¬ v <:+: phMid q)
    (h : ¬ q <:+: t) : ¬ q <:+: replAll p v t := by
  have hpne : p ≠ [] := ph_ne_nil hp
  rw [← splitSeg_render p v t hpne]
  apply rend_abs hq hcv hv hmid
  · intro hx
    exact h (hx.trans (splitSeg_fst_pref p v t hpne).isInfix)
  · intro pr l hm
    refine ⟨fun hx => h (hx.trans (splitSeg_lits_inf p v t hpne pr l hm)), ?_⟩
    rw [splitSeg_pairs p v t hpne pr l hm]

theorem replAll_infix_of {q p v t : Str} (hq : IsPh q) (hp : IsPh p) (hne : q ≠ p)
    (h : q <:+: t) : q <:+: replAll p v t := by
  have hpne : p ≠ [] := ph_ne_nil hp
  rw [← splitSeg_render p v t hpne]
  apply rend_has
  rw [← splitSeg_orig p v t hpne] at h
  exact orig_split hq hp hne _ _ (fun pr l hm => by
    rw [splitSeg_pairs p v t hpne pr l hm]) h

/-!
### The replacement chain acting on decompositions

Applying one `(value, placeholder)` replacement to a decomposition renders
to `replAll` of the rendering (the value cannot straddle a placeholder
block), keeps the original rendering, and only shrinks the literals.
-/

theorem applyOp_render (v p : Str) (hv : v ≠ []) (hcv : Clean v) :
    ∀ (rest : List ((Str × Str) × Str)) (h : Str),
      (∀ pr l, (pr, l) ∈ rest → IsPh pr.2 ∧ ¬ v <:+: phMid pr.2) →
      render (applyOp v p ⟨h, rest⟩) = replAll v p (render ⟨h, rest⟩) := by
  intro rest
  induction rest with
  | nil =>
    intro h _
    have hrend : render (⟨h, []⟩ : RTx) = h := by simp [render, renderPairs]
    rw [hrend]
    show (splitSeg v p h).1 ++ renderPairs ((splitSeg v p h).2 ++ []) = _
    rw [List.append_nil, splitSeg_render v p h hv]
  | cons x r ih =>
    obtain ⟨pr, l⟩ := x
    intro h hps
    obtain ⟨hph, hmid⟩ := hps pr l (List.mem_cons_self _ _)
    have hrend : render (⟨h, (pr, l) :: r⟩ : RTx)
        = h ++ (pr.2 ++ (l ++ renderPairs r)) := by
      simp [render, renderPairs]
    have hbhead : ∀ c0, (pr.2 ++ (l ++ renderPairs r)).head? = some c0 → c0 ∉ v := by
      intro c0 hc0
      obtain ⟨m, hm, hc, hpr2⟩ := hph
      rw [hpr2, List.cons_append, List.head?_cons, Option.some.injEq] at hc0
      rw [← hc0]
      exact hcv.1
    have hlast : ∀ c0, pr.2.getLast? = some c0 → c0 ∉ v := by
      intro c0 hc0
      rw [ph_getLast hph, Option.some.injEq] at hc0
      rw [← hc0]
      exact hcv.2
    have h2 : replAll v p (pr.2 ++ (l ++ renderPairs r))
        = replAll v p pr.2 ++ replAll v p (l ++ renderPairs r) :=
      replAll_append_last v p pr.2 _ hv (ph_ne_nil hph) hlast
    have h3 : replAll v p pr.2 = pr.2 :=
      replAll_of_not_infix v p pr.2
        (fun hvi => hmid (clean_infix_ph_mid hcv hv hph hvi))
    have ihe : render (applyOp v p ⟨l, r⟩) = replAll v p (l ++ renderPairs r) :=
      ih l (fun pr' l' hm' => hps pr' l' (List.mem_cons_of_mem _ hm'))
    have hL2 : render (applyOp v p ⟨l, r⟩)
        = (splitSeg v p l).1 ++ renderPairs ((splitSeg v p l).2 ++ apPairs v p r) := rfl
    have hL : render (applyOp v p ⟨h, (pr, l) :: r⟩)
        = (splitSeg v p h).1 ++ (renderPairs (splitSeg v p h).2
            ++ (pr.2 ++ ((splitSeg v p l).1
                ++ renderPairs ((splitSeg v p l).2 ++ apPairs v p r)))) := by
      show (splitSeg v p h).1 ++ renderPairs ((splitSeg v p h).2
        ++ ((pr, (splitSeg v p l).1) :: ((splitSeg v p l).2 ++ apPairs v p r))) = _
      rw [renderPairs_append]
      simp only [renderPairs]
      simp only [List.append_assoc]
    rw [hL, hrend, replAll_append_head v p h _ hv hbhead, h2, h3, ← ihe, hL2,
      ← List.append_assoc (splitSeg v p h).1, splitSeg_render v p h hv]

theorem applyOp_orig (v p : Str) (hv : v ≠ []) :
    ∀ (rest : List ((Str × Str) × Str)) (h : Str),
      origRender (applyOp v p ⟨h, rest⟩) = origRender ⟨h, rest⟩ := by
  intro rest
  induction rest with
  | nil =>
    intro h
    have hrend : origRender (⟨h, []⟩ : RTx) = h := by simp [origRender, origPairs]
    rw [hrend]
    show (splitSeg v p h).1 ++ origPairs ((splitSeg v p h).2 ++ []) = h
    rw [List.append_nil, splitSeg_orig v p h hv]
  | cons x r ih =>
    obtain ⟨pr, l⟩ := x
    intro h
    have hR : origRender (⟨h, (pr, l) :: r⟩ : RTx)
        = h ++ (pr.1 ++ (l ++ origPairs r)) := by
      simp [origRender, origPairs]
    have hL2 : origRender (applyOp v p ⟨l, r⟩)
        = (splitSeg v p l).1 ++ origPairs ((splitSeg v p l).2 ++ apPairs v p r) := rfl
    have hlr : origRender (⟨l, r⟩ : RTx) = l ++ origPairs r := rfl
    have hL : origRender (applyOp v p ⟨h, (pr, l) :: r⟩)
        = (splitSeg v p h).1 ++ (origPairs (splitSeg v p h).2
            ++ (pr.1 ++ ((splitSeg v p l).1
                ++ origPairs ((splitSeg v p l).2 ++ apPairs v p r)))) := by
      show (splitSeg v p h).1 ++ origPairs ((splitSeg v p h).2
        ++ ((pr, (splitSeg v p l).1) :: ((splitSeg v p l).2 ++ apPairs v p r))) = _
      rw [origPairs_append]
      simp only [origPairs]
      simp only [List.append_assoc]
    rw [hL, hR, ← hL2, ih l, hlr, ← List.append_assoc (splitSeg v p h).1,
      splitSeg_orig v p h hv]

theorem apPairs_mem (v p : Str) (hv : v ≠ []) :
    ∀ (rest : List ((Str × Str) × Str)) (pr : Str × Str) (l : Str),
      (pr, l) ∈ apPairs v p rest →
      pr = (v, p) ∨ ∃ l0, (pr, l0) ∈ rest := by
  intro rest
  induction rest with
  | nil => intro pr l hm; simp [apPairs] at hm
  | cons x r ih =>
    obtain ⟨pr0, l0⟩ := x
    intro pr l hm
    simp only [apPairs] at hm
    rcases List.mem_cons.mp hm with he | hm'
    · have hfst : pr = pr0 := congrArg Prod.fst he
      exact Or.inr ⟨l0, by rw [hfst]; exact List.mem_cons_self _ _⟩
    · rcases List.mem_append.mp hm' with h1 | h1
      · exact Or.inl (splitSeg_pairs v p l0 hv pr l h1)
      · rcases ih pr l h1 with h2 | ⟨l1, h2⟩
        · exact Or.inl h2
        · exact Or.inr ⟨l1, List.mem_cons_of_mem _ h2⟩

theorem applyOp_pairs (v p : Str) (hv : v ≠ []) (x : RTx) (pr : Str × Str) (l : Str)
    (hm : (pr, l) ∈ (applyOp v p x).rest) :
    pr = (v, p) ∨ ∃ l0, (pr, l0) ∈ x.rest := by
  obtain ⟨h, rest⟩ := x
  simp only [applyOp] at hm
  rcases List.mem_append.mp hm with h1 | h1
  · exact Or.inl (splitSeg_pairs v p h hv pr l h1)
  · exact apPairs_mem v p hv rest pr l h1

theorem apPairs_lits (v p : Str) (hv : v ≠ []) :
    ∀ (rest : List ((Str × Str) × Str)) (pr : Str × Str) (l : Str),
      (pr, l) ∈ apPairs v p rest →
      ∃ qr l0, (qr, l0) ∈ rest ∧ l <:+: l0 := by
  intro rest
  induction rest with
  | nil => intro pr l hm; simp [apPairs] at hm
  | cons x r ih =>
    obtain ⟨pr0, l0⟩ := x
    intro pr l hm
    simp only [apPairs] at hm
    rcases List.mem_cons.mp hm with he | hm'
    · have hsnd : l = (splitSeg v p l0).1 := congrArg Prod.snd he
      exact ⟨pr0, l0, List.mem_cons_self _ _,
        by rw [hsnd]; exact (splitSeg_fst_pref v p l0 hv).isInfix⟩
    · rcases List.mem_append.mp hm' with h1 | h1
      · exact ⟨pr0, l0, List.mem_cons_self _ _, splitSeg_lits_inf v p l0 hv pr l h1⟩
      · rcases ih pr l h1 with ⟨qr, l1, hm1, hinf⟩
        exact ⟨qr, l1, List.mem_cons_of_mem _ hm1, hinf⟩

theorem applyOp_lits (v p : Str) (hv : v ≠ []) (x : RTx) :
    ((applyOp v p x).head <:+: x.head) ∧
    ∀ pr l, (pr, l) ∈ (applyOp v p x).rest →
      l <:+: x.head ∨ ∃ qr l0, (qr, l0) ∈ x.rest ∧ l <:+: l0 := by
  obtain ⟨h, rest⟩ := x
  refine ⟨(splitSeg_fst_pref v p h hv).isInfix, ?_⟩
  intro pr l hm
  simp only [applyOp] at hm
  rcases List.mem_append.mp hm with h1 | h1
  · exact Or.inl (splitSeg_lits_inf v p h hv pr l h1)
  · exact Or.inr (apPairs_lits v p hv rest pr l h1)

theorem applyChain_spec (allOps : List (Str × Str))
    (hall : ∀ op ∈ allOps, op.1 ≠ [] ∧ Clean op.1 ∧ IsPh op.2)
    (hcross : ∀ op ∈ allOps, ∀ op2 ∈ allOps, ¬ op.1 <:+: phMid op2.2) :
    ∀ (ops : List (Str × Str)) (x : RTx), (∀ op ∈ ops, op ∈ allOps) →
      (∀ pr l, (pr, l) ∈ x.rest → pr ∈ allOps) →
      render (applyChain ops x) = redactChain ops (render x) ∧
      origRender (applyChain ops x) = origRender x ∧
      (∀ pr l, (pr, l) ∈ (applyChain ops x).rest → pr ∈ allOps) ∧
      ((applyChain ops x).head <:+: x.head ∨
        ∃ qr l0, (qr, l0) ∈ x.rest ∧ (applyChain ops x).head <:+: l0) ∧
      (∀ pr l, (pr, l) ∈ (applyChain ops x).rest →
        l <:+: x.head ∨ ∃ qr l0, (qr, l0) ∈ x.rest ∧ l <:+: l0) := by
  intro ops
  induction ops with
  | nil =>
    intro x _ hpairs
    refine ⟨rfl, rfl, hpairs, Or.inl (List.infix_refl _), ?_⟩
    intro pr l hm
    exact Or.inr ⟨pr, l, hm, List.infix_refl _⟩
  | cons op ops' ih =>
    intro x hsub hpairs
    obtain ⟨hd, rest⟩ := x
    obtain ⟨hv, hcv, hph⟩ := hall op (hsub op (List.mem_cons_self _ _))
    have hstep : applyChain (op :: ops') ⟨hd, rest⟩
        = applyChain ops' (applyOp op.1 op.2 ⟨hd, rest⟩) := rfl
    have hPairsCond : ∀ pr l, (pr, l) ∈ rest → IsPh pr.2 ∧ ¬ op.1 <:+: phMid pr.2 := by
      intro pr l hm
      have hprin := hpairs pr l hm
      exact ⟨(hall pr hprin).2.2, hcross op (hsub op (List.mem_cons_self _ _)) pr hprin⟩
    have hrend1 : render (applyOp op.1 op.2 ⟨hd, rest⟩)
        = replAll op.1 op.2 (render ⟨hd, rest⟩) :=
      applyOp_render op.1 op.2 hv hcv rest hd hPairsCond
    have horig1 := applyOp_orig op.1 op.2 hv rest hd
    have hpairs1 : ∀ pr l, (pr, l) ∈ (applyOp op.1 op.2 ⟨hd, rest⟩).rest →
        pr ∈ allOps := by
      intro pr l hm
      rcases applyOp_pairs op.1 op.2 hv _ pr l hm with he | ⟨l0, hm0⟩
      · rw [he, Prod.mk.eta]
        exact hsub op (List.mem_cons_self _ _)
      · exact hpairs pr l0 hm0
    obtain ⟨ih1, ih2, ih3, ih4, ih5⟩ :=
      ih (applyOp op.1 op.2 ⟨hd, rest⟩)
        (fun o ho => hsub o (List.mem_cons_of_mem _ ho)) hpairs1
    refine ⟨?_, ?_, ih3, ?_, ?_⟩
    · rw [hstep, ih1, hrend1]
      rfl
    · rw [hstep, ih2, horig1]
    · rcases ih4 with h4 | ⟨qr, l0, hm0, hinf⟩
      · exact Or.inl (h4.trans (applyOp_lits op.1 op.2 hv ⟨hd, rest⟩).1)
      · rcases (applyOp_lits op.1 op.2 hv ⟨hd, rest⟩).2 qr l0 hm0 with
          h5 | ⟨qr2, l2, hm2, hinf2⟩
        · exact Or.inl (hinf.trans h5)
        · exact Or.inr ⟨qr2, l2, hm2, hinf.trans hinf2⟩
    · intro pr l hm
      rcases ih5 pr l hm with h5 | ⟨qr, l0, hm0, hinf⟩
      · exact Or.inl (h5.trans (applyOp_lits op.1 op.2 hv ⟨hd, rest⟩).1)
      · rcases (applyOp_lits op.1 op.2 hv ⟨hd, rest⟩).2 qr l0 hm0 with
          h6 | ⟨qr2, l2, hm2, hinf2⟩
        · exact Or.inl (hinf.trans h6)
        · exact Or.inr ⟨qr2, l2, hm2, hinf.trans hinf2⟩

/-!
### Restoring placeholders on decompositions

Restoring one placeholder merges its blocks back into the literals; on the
rendered text this is exactly `replAll` of the placeholder by its value, and
the original rendering is preserved when the merged value agrees with the
block's recorded value.
-/

theorem restoreList_prepend (v p : Str) :
    ∀ (r : List ((Str × Str) × Str)) (A B : Str),
      restoreList v p (A ++ B) r
        = (A ++ (restoreList v p B r).1, (restoreList v p B r).2) := by
  intro r
  induction r with
  | nil => intro A B; rfl
  | cons x r' ih =>
    obtain ⟨pr, l⟩ := x
    intro A B
    by_cases hp : pr.2 = p
    · simp only [restoreList, if_pos hp]
      rw [show (A ++ B) ++ v ++ l = A ++ ((B ++ v) ++ l) by simp, ih A ((B ++ v) ++ l)]
    · simp only [restoreList, if_neg hp]

theorem restoreStep_render {p v : Str} (hp : IsPh p) (hcv : Clean v) (hv : v ≠ []) :
    ∀ (rest : List ((Str × Str) × Str)) (h : Str),
      (∀ pr l, (pr, l) ∈ rest → IsPh pr.2) →
      (∀ pr l, (pr, l) ∈ rest → ¬ p <:+: l) →
      ¬ p <:+: h →
      render (restoreStep v p ⟨h, rest⟩) = replAll p v (render ⟨h, rest⟩) := by
  intro rest
  induction rest with
  | nil =>
    intro h _ _ hh
    have h1 : render (⟨h, []⟩ : RTx) = h := by simp [render, renderPairs]
    have h2 : render (restoreStep v p ⟨h, []⟩) = h := by
      simp [restoreStep, restoreList, render, renderPairs]
    rw [h1, h2, replAll_of_not_infix p v h hh]
  | cons x r ih =>
    obtain ⟨pr, l⟩ := x
    intro h hphs hlits hh
    have hprph := hphs pr l (List.mem_cons_self _ _)
    have hprl := hlits pr l (List.mem_cons_self _ _)
    have hrd : render (⟨h, (pr, l) :: r⟩ : RTx)
        = h ++ (pr.2 ++ (l ++ renderPairs r)) := by
      simp [render, renderPairs]
    have hhd : (pr.2 ++ (l ++ renderPairs r)).head? = some '[' := by
      obtain ⟨m, hm, hc, hpr2⟩ := hprph
      rw [hpr2, List.cons_append, List.head?_cons]
    have hwalk : replAll p v (h ++ (pr.2 ++ (l ++ renderPairs r)))
        = h ++ replAll p v (pr.2 ++ (l ++ renderPairs r)) :=
      replAll_walk hp v h _ hh hhd
    have ihe := ih l (fun a b hm => hphs a b (List.mem_cons_of_mem _ hm))
      (fun a b hm => hlits a b (List.mem_cons_of_mem _ hm)) hprl
    have hlr : render (⟨l, r⟩ : RTx) = l ++ renderPairs r := rfl
    have hsteprender : render (restoreStep v p ⟨l, r⟩)
        = (restoreList v p l r).1 ++ renderPairs (restoreList v p l r).2 := rfl
    by_cases hpp : pr.2 = p
    · have hres : restoreList v p h ((pr, l) :: r)
          = ((h ++ v) ++ (restoreList v p l r).1, (restoreList v p l r).2) := by
        simp only [restoreList, if_pos hpp]
        exact restoreList_prepend v p r (h ++ v) l
      have hrender : render (restoreStep v p ⟨h, (pr, l) :: r⟩)
          = (h ++ v) ++ render (restoreStep v p ⟨l, r⟩) := by
        show render ⟨(restoreList v p h ((pr, l) :: r)).1,
          (restoreList v p h ((pr, l) :: r)).2⟩ = _
        rw [hres]
        show ((h ++ v) ++ (restoreList v p l r).1)
          ++ renderPairs (restoreList v p l r).2 = _
        rw [List.append_assoc]
        rfl
      rw [hrd, hwalk, hpp, replAll_self_block p v _ (ph_ne_nil hp), hrender, ihe, hlr,
        List.append_assoc]
    · have hres : restoreList v p h ((pr, l) :: r)
          = (h, (pr, (restoreList v p l r).1) :: (restoreList v p l r).2) := by
        simp only [restoreList, if_neg hpp]
      have hrender : render (restoreStep v p ⟨h, (pr, l) :: r⟩)
          = h ++ (pr.2 ++ ((restoreList v p l r).1
              ++ renderPairs (restoreList v p l r).2)) := by
        show render ⟨(restoreList v p h ((pr, l) :: r)).1,
          (restoreList v p h ((pr, l) :: r)).2⟩ = _
        rw [hres]
        show h ++ renderPairs ((pr, (restoreList v p l r).1)
          :: (restoreList v p l r).2) = _
        simp only [renderPairs]
        simp only [List.append_assoc]
      have hblock : replAll p v (pr.2 ++ (l ++ renderPairs r))
          = pr.2 ++ replAll p v (l ++ renderPairs r) :=
        replAll_ph_block hp hprph (fun he => hpp he.symm) v _
      rw [hrd, hwalk, hblock, hrender, ← hsteprender, ihe, hlr]

theorem restoreStep_orig (v p : Str) :
    ∀ (rest : List ((Str × Str) × Str)) (h : Str),
      (∀ pr l, (pr, l) ∈ rest → pr.2 = p → pr.1 = v) →
      origRender (restoreStep v p ⟨h, rest⟩) = origRender ⟨h, rest⟩ := by
  intro rest
  induction rest with
  | nil => intro h _; rfl
  | cons x r ih =>
    obtain ⟨pr, l⟩ := x
    intro h hks
    have hR : origRender (⟨h, (pr, l) :: r⟩ : RTx)
        = h ++ (pr.1 ++ (l ++ origPairs r)) := by
      simp [origRender, origPairs]
    have ihe := ih l (fun a b hm => hks a b (List.mem_cons_of_mem _ hm))
    have holr : origRender (⟨l, r⟩ : RTx) = l ++ origPairs r := rfl
    by_cases hpp : pr.2 = p
    · have hval : pr.1 = v := hks pr l (List.mem_cons_self _ _) hpp
      have hres : restoreList v p h ((pr, l) :: r)
          = ((h ++ v) ++ (restoreList v p l r).1, (restoreList v p l r).2) := by
        simp only [restoreList, if_pos hpp]
        exact restoreList_prepend v p r (h ++ v) l
      have horig : origRender (restoreStep v p ⟨h, (pr, l) :: r⟩)
          = (h ++ v) ++ origRender (restoreStep v p ⟨l, r⟩) := by
        show origRender ⟨(restoreList v p h ((pr, l) :: r)).1,
          (restoreList v p h ((pr, l) :: r)).2⟩ = _
        rw [hres]
        show ((h ++ v) ++ (restoreList v p l r).1)
          ++ origPairs (restoreList v p l r).2 = _
        rw [List.append_assoc]
        rfl
      rw [horig, ihe, holr, hR, hval]
      simp only [List.append_assoc]
    · have hres : restoreList v p h ((pr, l) :: r)
          = (h, (pr, (restoreList v p l r).1) :: (restoreList v p l r).2) := by
        simp only [restoreList, if_neg hpp]
      have hstepor : origRender (restoreStep v p ⟨l, r⟩)
          = (restoreList v p l r).1 ++ origPairs (restoreList v p l r).2 := rfl
      have horig : origRender (restoreStep v p ⟨h, (pr, l) :: r⟩)
          = h ++ (pr.1 ++ ((restoreList v p l r).1
              ++ origPairs (restoreList v p l r).2)) := by
        show origRender ⟨(restoreList v p h ((pr, l) :: r)).1,
          (restoreList v p h ((pr, l) :: r)).2⟩ = _
        rw [hres]
        show h ++ origPairs ((pr, (restoreList v p l r).1)
          :: (restoreList v p l r).2) = _
        simp only [origPairs]
        simp only [List.append_assoc]
      rw [horig, ← hstepor, ihe, holr, hR]

theorem restoreStep_pairs (v p : Str) :
    ∀ (rest : List ((Str × Str) × Str)) (h : Str) (pr : Str × Str) (l : Str),
      (pr, l) ∈ (restoreStep v p ⟨h, rest⟩).rest →
      (∃ l0, (pr, l0) ∈ rest) ∧ pr.2 ≠ p := by
  intro rest
  induction rest with
  | nil => intro h pr l hm; simp [restoreStep, restoreList] at hm
  | cons x r ih =>
    obtain ⟨pr0, l0⟩ := x
    intro h pr l hm
    by_cases hpp : pr0.2 = p
    · have hres : (restoreStep v p ⟨h, (pr0, l0) :: r⟩).rest
          = (restoreStep v p ⟨l0, r⟩).rest := by
        show (restoreList v p h ((pr0, l0) :: r)).2 = (restoreList v p l0 r).2
        simp only [restoreList, if_pos hpp]
        rw [restoreList_prepend v p r (h ++ v) l0]
      rw [hres] at hm
      obtain ⟨⟨l1, hm1⟩, hne⟩ := ih l0 pr l hm
      exact ⟨⟨l1, List.mem_cons_of_mem _ hm1⟩, hne⟩
    · have hres : (restoreStep v p ⟨h, (pr0, l0) :: r⟩).rest
          = (pr0, (restoreList v p l0 r).1) :: (restoreList v p l0 r).2 := by
        show (restoreList v p h ((pr0, l0) :: r)).2 = _
        simp only [restoreList, if_neg hpp]
      rw [hres] at hm
      rcases List.mem_cons.mp hm with he | hm'
      · have h1 : pr = pr0 := congrArg Prod.fst he
        exact ⟨⟨l0, by rw [h1]; exact List.mem_cons_self _ _⟩, by rw [h1]; exact hpp⟩
      · obtain ⟨⟨l1, hm1⟩, hne⟩ := ih l0 pr l hm'
        exact ⟨⟨l1, List.mem_cons_of_mem _ hm1⟩, hne⟩

theorem restoreStep_lits_free {q v : Str} (hq : IsPh q) (hcv : Clean v) (hv : v ≠ [])
    (hmid : ¬ v <:+: phMid q) (p : Str) :
    ∀ (rest : List ((Str × Str) × Str)) (h : Str),
      ¬ q <:+: h → (∀ pr l, (pr, l) ∈ rest → ¬ q <:+: l) →
      ¬ q <:+: (restoreStep v p ⟨h, rest⟩).head ∧
      (∀ pr l, (pr, l) ∈ (restoreStep v p ⟨h, rest⟩).rest → ¬ q <:+: l) := by
  intro rest
  induction rest with
  | nil =>
    intro h hh _
    exact ⟨hh, by intro pr l hm; simp [restoreStep, restoreList] at hm⟩
  | cons x r ih =>
    obtain ⟨pr0, l0⟩ := x
    intro h hh hls
    have hl0 := hls pr0 l0 (List.mem_cons_self _ _)
    have ihr := ih l0 hl0 (fun a b hm => hls a b (List.mem_cons_of_mem _ hm))
    by_cases hpp : pr0.2 = p
    · have hhead : (restoreStep v p ⟨h, (pr0, l0) :: r⟩).head
          = (h ++ v) ++ (restoreStep v p ⟨l0, r⟩).head := by
        show (restoreList v p h ((pr0, l0) :: r)).1 = _
        simp only [restoreList, if_pos hpp]
        rw [restoreList_prepend v p r (h ++ v) l0]
        rfl
      have hrest : (restoreStep v p ⟨h, (pr0, l0) :: r⟩).rest
          = (restoreStep v p ⟨l0, r⟩).rest := by
        show (restoreList v p h ((pr0, l0) :: r)).2 = (restoreList v p l0 r).2
        simp only [restoreList, if_pos hpp]
        rw [restoreList_prepend v p r (h ++ v) l0]
      constructor
      · rw [hhead, List.append_assoc]
        exact ns_clean hq hcv hv hmid h _ hh ihr.1
      · rw [hrest]
        exact ihr.2
    · have hhead : (restoreStep v p ⟨h, (pr0, l0) :: r⟩).head = h := by
        show (restoreList v p h ((pr0, l0) :: r)).1 = _
        simp only [restoreList, if_neg hpp]
      have hrest : (restoreStep v p ⟨h, (pr0, l0) :: r⟩).rest
          = (pr0, (restoreStep v p ⟨l0, r⟩).head)
            :: (restoreStep v p ⟨l0, r⟩).rest := by
        show (restoreList v p h ((pr0, l0) :: r)).2 = _
        simp only [restoreList, if_neg hpp]
        rfl
      constructor
      · rw [hhead]; exact hh
      · rw [hrest]
        intro pr l hm
        rcases List.mem_cons.mp hm with he | hm'
        · have h1 : l = (restoreStep v p ⟨l0, r⟩).head := congrArg Prod.snd he
          rw [h1]
          exact ihr.1
        · exact ihr.2 pr l hm'

theorem restore_render :
    ∀ (ops : List (Str × Str)) (x : RTx),
      (∀ op ∈ ops, IsPh op.1 ∧ Clean op.2 ∧ op.2 ≠ []) →
      (∀ op ∈ ops, ∀ op2 ∈ ops, ¬ op.2 <:+: phMid op2.1) →
      (∀ op ∈ ops, ∀ op2 ∈ ops, op.1 = op2.1 → op.2 = op2.2) →
      (∀ pr l, (pr, l) ∈ x.rest → (pr.2, pr.1) ∈ ops) →
      (∀ op ∈ ops, ¬ op.1 <:+: x.head ∧
        ∀ pr l, (pr, l) ∈ x.rest → ¬ op.1 <:+: l) →
      restore (render x) ops = origRender x := by
  intro ops
  induction ops with
  | nil =>
    intro x _ _ _ hpr _
    obtain ⟨h, rest⟩ := x
    cases rest with
    | nil => rfl
    | cons y r =>
      exfalso
      have hy := hpr y.1 y.2 (by rw [Prod.mk.eta]; exact List.mem_cons_self _ _)
      simp at hy
  | cons op ops' ih =>
    intro x hops hcross hkfn hpr hlits
    obtain ⟨hd, rest⟩ := x
    obtain ⟨hph, hcv, hvne⟩ := hops op (List.mem_cons_self _ _)
    have hfold : restore (render ⟨hd, rest⟩) (op :: ops')
        = restore (replAll op.1 op.2 (render ⟨hd, rest⟩)) ops' := rfl
    have hl0 := hlits op (List.mem_cons_self _ _)
    have hb1 : render (restoreStep op.2 op.1 ⟨hd, rest⟩)
        = replAll op.1 op.2 (render ⟨hd, rest⟩) :=
      restoreStep_render hph hcv hvne rest hd
        (fun pr l hm => (hops (pr.2, pr.1) (hpr pr l hm)).1)
        hl0.2 hl0.1
    have hb2 : origRender (restoreStep op.2 op.1 ⟨hd, rest⟩)
        = origRender ⟨hd, rest⟩ :=
      restoreStep_orig op.2 op.1 rest hd
        (fun pr l hm hp2 => by
          have hin := hpr pr l hm
          have hk := hkfn op (List.mem_cons_self _ _) (pr.2, pr.1) hin (by rw [hp2])
          exact hk.symm)
    have hpairs1 : ∀ pr l, (pr, l) ∈ (restoreStep op.2 op.1 ⟨hd, rest⟩).rest →
        (pr.2, pr.1) ∈ ops' := by
      intro pr l hm
      obtain ⟨⟨l1, hm1⟩, hne⟩ := restoreStep_pairs op.2 op.1 rest hd pr l hm
      have hin := hpr pr l1 hm1
      rcases List.mem_cons.mp hin with he | h2
      · exact absurd (congrArg Prod.fst he) hne
      · exact h2
    have hlits1 : ∀ o ∈ ops', ¬ o.1 <:+: (restoreStep op.2 op.1 ⟨hd, rest⟩).head ∧
        ∀ pr l, (pr, l) ∈ (restoreStep op.2 op.1 ⟨hd, rest⟩).rest → ¬ o.1 <:+: l := by
      intro o ho
      have hqo := (hops o (List.mem_cons_of_mem _ ho)).1
      have hmido : ¬ op.2 <:+: phMid o.1 :=
        hcross op (List.mem_cons_self _ _) o (List.mem_cons_of_mem _ ho)
      have hlo := hlits o (List.mem_cons_of_mem _ ho)
      exact restoreStep_lits_free hqo hcv hvne hmido op.1 rest hd hlo.1 hlo.2
    have ihx := ih (restoreStep op.2 op.1 ⟨hd, rest⟩)
      (fun o ho => hops o (List.mem_cons_of_mem _ ho))
      (fun o ho o2 ho2 =>
        hcross o (List.mem_cons_of_mem _ ho) o2 (List.mem_cons_of_mem _ ho2))
      (fun o ho o2 ho2 =>
        hkfn o (List.mem_cons_of_mem _ ho) o2 (List.mem_cons_of_mem _ ho2))
      hpairs1 hlits1
    rw [hfold, ← hb1, ihx, hb2]

/-!
### The redaction map as a chain

`redact` is the fold of `replAll` over the `(placeholder, original)` entries
it appends; `catOps` names that entry list, and placeholders carry the
shared map-position counter.
-/

theorem redact_step_fold (name : Str) :
    ∀ (ms : List Str) (t : Str) (m : List (Str × Str)),
      ms.foldl (fun st orig =>
        (replAll orig (mkPh name (st.2.length + 1)) st.1,
          st.2 ++ [(mkPh name (st.2.length + 1), orig)])) (t, m)
      = (redactChain ((buildOps (fun k => mkPh name (k + 1)) ms m.length).map
            Prod.swap) t,
         m ++ buildOps (fun k => mkPh name (k + 1)) ms m.length) := by
  intro ms
  induction ms with
  | nil => intro t m; simp [buildOps, redactChain]
  | cons orig ms' ih =>
    intro t m
    simp only [List.foldl_cons]
    rw [ih]
    simp only [buildOps, List.length_append, List.length_cons, List.length_nil,
      List.map_cons, redactChain, List.foldl_cons, Prod.swap_prod_mk,
      List.append_assoc, List.cons_append, List.nil_append, Nat.zero_add]

theorem buildOps_length (mkP : Nat → Str) :
    ∀ (ms : List Str) (n : Nat), (buildOps mkP ms n).length = ms.length := by
  intro ms
  induction ms with
  | nil => intro n; rfl
  | cons a ms' ih => intro n; simp [buildOps, ih]

theorem redactCat_eq (cat : Category) (text : Str) (t : Str) (m : List (Str × Str)) :
    redactCat cat text (t, m)
      = (redactChain ((buildOps (fun k => mkPh cat.name (k + 1))
            (finditer cat.matcher text) m.length).map Prod.swap) t,
         m ++ buildOps (fun k => mkPh cat.name (k + 1))
            (finditer cat.matcher text) m.length) :=
  redact_step_fold cat.name (finditer cat.matcher text) t m

theorem redact_fold_eq :
    ∀ (cats : List Category) (text t : Str) (m : List (Str × Str)),
      cats.foldl (fun st cat => redactCat cat text st) (t, m)
      = (redactChain ((catOps cats text m.length).map Prod.swap) t,
         m ++ catOps cats text m.length) := by
  intro cats
  induction cats with
  | nil => intro text t m; simp [catOps, redactChain]
  | cons cat cats' ih =>
    intro text t m
    simp only [List.foldl_cons]
    rw [redactCat_eq cat text t m, ih]
    simp only [catOps, List.length_append, buildOps_length, List.map_append,
      List.append_assoc, redactChain, List.foldl_append]

theorem redact_eq_chain (text : Str) :
    redact text = (redactChain ((catOps CATEGORIES text 0).map Prod.swap) text,
      catOps CATEGORIES text 0) := by
  have h := redact_fold_eq CATEGORIES text text []
  simpa [redact] using h

theorem digit_char_ok (d : Nat) (hd : d < 10) :
    (Char.ofNat (48 + d)).isDigit = true := by
  interval_cases d <;> decide

theorem char_ofNat_toNat (d : Nat) (hd : d < 10) : (Char.ofNat (48 + d)).toNat = 48 + d := by
  interval_cases d <;> decide

theorem natDigitsF_digit : ∀ (f n : Nat), ∀ c ∈ natDigitsF f n, c.isDigit = true := by
  intro f
  induction f with
  | zero => intro n c hc; simp [natDigitsF] at hc
  | succ f ih =>
    intro n c hc
    by_cases hn : n < 10
    · simp only [natDigitsF, if_pos hn] at hc
      have hc2 : c = Char.ofNat (48 + n) := by simpa using hc
      rw [hc2]
      exact digit_char_ok n hn
    · simp only [natDigitsF, if_neg hn] at hc
      rcases List.mem_append.mp hc with h1 | h1
      · exact ih (n / 10) c h1
      · have hc2 : c = Char.ofNat (48 + n % 10) := by simpa using h1
        rw [hc2]
        exact digit_char_ok (n % 10) (Nat.mod_lt _ (by omega))

theorem natDigits_digit (n : Nat) : ∀ c ∈ natDigits n, c.isDigit = true :=
  natDigitsF_digit (n + 1) n

theorem natDigits_ne_nil (n : Nat) : natDigits n ≠ [] := by
  show natDigitsF (n + 1) n ≠ []
  by_cases hn : n < 10
  · simp [natDigitsF, if_pos hn]
  · simp [natDigitsF, if_neg hn]

theorem digit_not_special {c : Char} (h : c.isDigit = true) :
    c ≠ '[' ∧ c ≠ ']' ∧ c ≠ '_' := by
  refine ⟨fun he => ?_, fun he => ?_, fun he => ?_⟩ <;> rw [he] at h <;>
    exact absurd h (by decide)

theorem digitsVal_append (d : Str) (c : Char) :
    digitsVal (d ++ [c]) = digitsVal d * 10 + (c.toNat - 48) := by
  simp [digitsVal, List.foldl_append]

theorem digitsVal_natDigitsF : ∀ (f n : Nat), n < f → digitsVal (natDigitsF f n) = n := by
  intro f
  induction f with
  | zero => intro n h; omega
  | succ f ih =>
    intro n h
    by_cases hn : n < 10
    · simp only [natDigitsF, if_pos hn]
      have hto := char_ofNat_toNat n hn
      simp [digitsVal, hto]
    · simp only [natDigitsF, if_neg hn]
      rw [digitsVal_append, ih (n / 10) (by omega)]
      rw [char_ofNat_toNat (n % 10) (Nat.mod_lt _ (by omega))]
      omega

theorem digitsVal_natDigits (n : Nat) : digitsVal (natDigits n) = n :=
  digitsVal_natDigitsF (n + 1) n (by omega)

theorem phMid_mkPh (name : Str) (n : Nat) :
    phMid (mkPh name n) = name ++ '_' :: natDigits n := by
  show ((mkPh name n).drop 1).dropLast = _
  rw [show mkPh name n = '[' :: ((name ++ '_' :: natDigits n) ++ [']'])
      from List.cons_append _ _ _,
    List.drop_one, List.tail_cons, List.dropLast_concat]

theorem IsPh_mkPh (name : Str) (n : Nat) (hcn : Clean name) : IsPh (mkPh name n) := by
  refine ⟨name ++ '_' :: natDigits n, by simp, ⟨?_, ?_⟩, by simp [mkPh]⟩
  · intro hmem
    rcases List.mem_append.mp hmem with h1 | h1
    · exact hcn.1 h1
    · rcases List.mem_cons.mp h1 with h2 | h2
      · exact absurd h2 (by decide)
      · exact absurd (natDigits_digit n '[' h2) (by decide)
  · intro hmem
    rcases List.mem_append.mp hmem with h1 | h1
    · exact hcn.2 h1
    · rcases List.mem_cons.mp h1 with h2 | h2
      · exact absurd h2 (by decide)
      · exact absurd (natDigits_digit n ']' h2) (by decide)

theorem underscore_split : ∀ (a b d e : Str), '_' ∉ a → '_' ∉ b →
    a ++ '_' :: d = b ++ '_' :: e → d = e := by
  intro a
  induction a with
  | nil =>
    intro b d e _ hb h
    cases b with
    | nil => simpa using h
    | cons y b' =>
      rw [List.nil_append, List.cons_append, List.cons.injEq] at h
      exact absurd (by rw [h.1]; exact List.mem_cons_self _ _) hb
  | cons x a' ih =>
    intro b d e ha hb h
    cases b with
    | nil =>
      rw [List.cons_append, List.nil_append, List.cons.injEq] at h
      exact absurd (by rw [← h.1]; exact List.mem_cons_self _ _) ha
    | cons y b' =>
      rw [List.cons_append, List.cons_append, List.cons.injEq] at h
      exact ih b' d e (fun hx => ha (List.mem_cons_of_mem x hx))
        (fun hx => hb (List.mem_cons_of_mem y hx)) h.2

theorem mkPh_num_inj {a b : Str} {m n : Nat} (ha : '_' ∉ a) (hb : '_' ∉ b)
    (h : mkPh a m = mkPh b n) : m = n := by
  simp only [mkPh] at h
  have h1 : ('[' :: (a ++ '_' :: natDigits m)) = ('[' :: (b ++ '_' :: natDigits n)) := by
    have hdl := congrArg List.dropLast h
    rwa [List.dropLast_concat, List.dropLast_concat] at hdl
  rw [List.cons.injEq] at h1
  have h2 := underscore_split a b (natDigits m) (natDigits n) ha hb h1.2
  have h3 := congrArg digitsVal h2
  rw [digitsVal_natDigits, digitsVal_natDigits] at h3
  exact h3

theorem CATEGORIES_names : ∀ cat ∈ CATEGORIES,
    cat.name ≠ [] ∧ Clean cat.name ∧ '_' ∉ cat.name := by
  intro cat hcat
  simp only [CATEGORIES, List.mem_cons, List.not_mem_nil, or_false] at hcat
  rcases hcat with h | h | h | h | h | h <;> subst h <;>
    exact ⟨by decide, ⟨by decide, by decide⟩, by decide⟩

theorem buildOps_getElem (mkP : Nat → Str) :
    ∀ (ms : List Str) (n i : Nat),
      (buildOps mkP ms n)[i]? = ms[i]?.map (fun v => (mkP (n + i), v)) := by
  intro ms
  induction ms with
  | nil => intro n i; simp [buildOps]
  | cons a ms' ih =>
    intro n i
    cases i with
    | zero => simp [buildOps]
    | succ i' =>
      show (buildOps mkP (a :: ms') n)[i' + 1]? = _
      simp only [buildOps, List.getElem?_cons_succ]
      rw [ih (n + 1) i']
      have harith : n + 1 + i' = n + (i' + 1) := by omega
      rw [harith]

theorem catOps_getElem :
    ∀ (cats : List Category) (s : Str) (n i : Nat), i < (catOps cats s n).length →
      ∃ cat, cat ∈ cats ∧ ∃ v, v ∈ finditer cat.matcher s ∧
        (catOps cats s n)[i]? = some (mkPh cat.name (n + i + 1), v) := by
  intro cats
  induction cats with
  | nil => intro s n i hi; simp [catOps] at hi
  | cons cat cats' ih =>
    intro s n i hi
    by_cases hlt : i < (finditer cat.matcher s).length
    · refine ⟨cat, List.mem_cons_self _ _, (finditer cat.matcher s)[i],
        List.getElem_mem _, ?_⟩
      have hgl : (catOps (cat :: cats') s n)[i]?
          = (buildOps (fun k => mkPh cat.name (k + 1))
              (finditer cat.matcher s) n)[i]? := by
        show ((buildOps _ _ n) ++ catOps cats' s _)[i]? = _
        rw [List.getElem?_append_left (by rw [buildOps_length]; exact hlt)]
      rw [hgl, buildOps_getElem, List.getElem?_eq_getElem hlt]
      rfl
    · have hge : (finditer cat.matcher s).length ≤ i := Nat.le_of_not_lt hlt
      have hgr : (catOps (cat :: cats') s n)[i]?
          = (catOps cats' s (n + (finditer cat.matcher s).length))[i -
              (buildOps (fun k => mkPh cat.name (k + 1))
                (finditer cat.matcher s) n).length]? := by
        show ((buildOps _ _ n) ++ _)[i]? = _
        rw [List.getElem?_append_right (by rw [buildOps_length]; exact hge)]
      rw [buildOps_length] at hgr
      have hlensum : (catOps (cat :: cats') s n).length
          = (finditer cat.matcher s).length
            + (catOps cats' s (n + (finditer cat.matcher s).length)).length := by
        show ((buildOps _ _ n) ++ _).length = _
        rw [List.length_append, buildOps_length]
      have hi' : i - (finditer cat.matcher s).length
          < (catOps cats' s (n + (finditer cat.matcher s).length)).length := by
        omega
      obtain ⟨cat2, hc2, v, hv2, he2⟩ :=
        ih s (n + (finditer cat.matcher s).length) (i - (finditer cat.matcher s).length)
          hi'
      refine ⟨cat2, List.mem_cons_of_mem _ hc2, v, hv2, ?_⟩
      rw [hgr, he2]
      have harith : n + (finditer cat.matcher s).length
          + (i - (finditer cat.matcher s).length) + 1 = n + i + 1 := by omega
      rw [harith]

/-!
### Matched spans are non-empty and bracket-free

Every span a pattern matcher returns is drawn from character classes that
exclude `'['` and `']'`, so matched values are `Clean`; and every matcher
consumes at least one character.
-/

theorem clean_append {a b : Str} (ha : Clean a) (hb : Clean b) : Clean (a ++ b) := by
  refine ⟨fun hm => ?_, fun hm => ?_⟩
  · rcases List.mem_append.mp hm with h | h
    · exact ha.1 h
    · exact hb.1 h
  · rcases List.mem_append.mp hm with h | h
    · exact ha.2 h
    · exact hb.2 h

theorem clean_of_forall {v : Str} (h : ∀ c ∈ v, c ≠ '[' ∧ c ≠ ']') : Clean v :=
  ⟨fun hm => (h _ hm).1 rfl, fun hm => (h _ hm).2 rfl⟩

theorem char_ne_of_pred {c : Char} {P : Char → Bool} (h : P c = true)
    (h1 : P '[' = false) (h2 : P ']' = false) : c ≠ '[' ∧ c ≠ ']' := by
  refine ⟨fun he => ?_, fun he => ?_⟩
  · rw [he, h1] at h; exact Bool.false_ne_true h
  · rw [he, h2] at h; exact Bool.false_ne_true h

theorem takeExact_sound (p : Char → Bool) :
    ∀ (k : Nat) (t a r : Str), takeExact p k t = some (a, r) →
      (∀ c ∈ a, p c = true) ∧ a.length = k ∧ t = a ++ r := by
  intro k
  induction k with
  | zero =>
    intro t a r h
    simp only [takeExact] at h
    have hin := Option.some.inj h
    rw [Prod.mk.injEq] at hin
    obtain ⟨ha, hr⟩ := hin
    refine ⟨?_, ?_, ?_⟩ <;> simp [← ha, ← hr]
  | succ k ih =>
    intro t a r h
    cases t with
    | nil => simp [takeExact] at h
    | cons c t' =>
      simp only [takeExact] at h
      by_cases hp : p c = true
      · rw [if_pos hp] at h
        cases hta : takeExact p k t' with
        | none => rw [hta] at h; exact absurd h (by simp)
        | some pr =>
          obtain ⟨x, y⟩ := pr
          rw [hta] at h
          have h2 : some (c :: x, y) = some (a, r) := h
          have hin := Option.some.inj h2
          rw [Prod.mk.injEq] at hin
          obtain ⟨ha, hr⟩ := hin
          obtain ⟨hall, hlen, hsplit⟩ := ih t' x y hta
          refine ⟨?_, ?_, ?_⟩
          · intro d hd
            rw [← ha] at hd
            rcases List.mem_cons.mp hd with h1 | h1
            · rw [h1]; exact hp
            · exact hall d h1
          · rw [← ha]
            simp [hlen]
          · rw [← ha, ← hr, List.cons_append, ← hsplit]
      · rw [if_neg hp] at h
        exact absurd h (by simp)

theorem optSpaceAlts_sound (t : Str) :
    ∀ x r, (x, r) ∈ optSpaceAlts t →
      (∀ c ∈ x, isSpaceRe c = true) ∧ t = x ++ r := by
  intro x r hm
  cases t with
  | nil =>
    simp only [optSpaceAlts] at hm
    have hin := List.mem_singleton.mp hm
    rw [Prod.mk.injEq] at hin
    obtain ⟨hx, hr⟩ := hin
    subst hx
    subst hr
    exact ⟨by simp, rfl⟩
  | cons c t' =>
    simp only [optSpaceAlts] at hm
    by_cases hc : isSpaceRe c = true
    · rw [if_pos hc] at hm
      rcases List.mem_cons.mp hm with he | hm'
      · rw [Prod.mk.injEq] at he
        obtain ⟨hx, hr⟩ := he
        subst hx
        subst hr
        refine ⟨?_, rfl⟩
        intro d hd
        rw [List.mem_singleton.mp hd]
        exact hc
      · have hin := List.mem_singleton.mp hm'
        rw [Prod.mk.injEq] at hin
        obtain ⟨hx, hr⟩ := hin
        subst hx
        subst hr
        exact ⟨by simp, rfl⟩
    · rw [if_neg hc] at hm
      have hin := List.mem_singleton.mp hm
      rw [Prod.mk.injEq] at hin
      obtain ⟨hx, hr⟩ := hin
      subst hx
      subst hr
      exact ⟨by simp, rfl⟩

theorem take_pred_of_le_takeWhile (p : Char → Bool) (t : Str) (i : Nat)
    (h : i ≤ (t.takeWhile p).length) : ∀ c ∈ t.take i, p c = true := by
  intro c hc
  have h1 : t.take i = (t.takeWhile p).take i := by
    conv_lhs => rw [← List.takeWhile_append_dropWhile p t]
    rw [List.take_append_of_le_length h]
  rw [h1] at hc
  exact List.mem_takeWhile_imp (List.take_subset _ _ hc)

theorem finditerF_sound (m : Option Char → Str → Option Str) :
    ∀ (fuel : Nat) (prev : Option Char) (t v : Str),
      v ∈ finditerF m fuel prev t → ∃ prev2 t2, m prev2 t2 = some v := by
  intro fuel
  induction fuel with
  | zero => intro prev t v hv; simp [finditerF] at hv
  | succ fuel ih =>
    intro prev t v hv
    cases t with
    | nil => simp [finditerF] at hv
    | cons c t' =>
      cases hm : m prev (c :: t') with
      | none =>
        simp only [finditerF, hm] at hv
        exact ih _ _ _ hv
      | some mt =>
        simp only [finditerF, hm] at hv
        by_cases hemp : mt.isEmpty = true
        · rw [if_pos hemp] at hv
          exact ih _ _ _ hv
        · rw [if_neg hemp] at hv
          rcases List.mem_cons.mp hv with he | hv'
          · exact ⟨prev, c :: t', by rw [hm, he]⟩
          · exact ih _ _ _ hv'

theorem finditer_sound (m : Option Char → Str → Option Str) (t v : Str)
    (hv : v ∈ finditer m t) : ∃ prev2 t2, m prev2 t2 = some v :=
  finditerF_sound m t.length none t v hv

theorem matchMobile_sound (prev : Option Char) (t v : Str)
    (h : matchMobile prev t = some v) : v ≠ [] ∧ Clean v := by
  simp only [matchMobile] at h
  split at h
  · exact absurd h (by simp)
  · split at h
    · rename_i c r
      split at h
      · rename_i hc
        split at h
        · rename_i b r2 hteq
          split at h
          · exact absurd h (by simp)
          · have hv := Option.some.inj h
            subst hv
            obtain ⟨hdig, -, -⟩ := takeExact_sound isDigitRe 9 r b r2 hteq
            simp only [Bool.and_eq_true, decide_eq_true_eq] at hc
            refine ⟨by simp, clean_of_forall ?_⟩
            intro d hd
            rcases List.mem_cons.mp hd with h1 | h1
            · subst h1
              have h9 : ¬ ('9' < d) := by
                intro hx
                exact absurd (lt_of_lt_of_le hx hc.2) (lt_irrefl _)
              constructor
              · intro he
                subst he
                exact h9 (by decide)
              · intro he
                subst he
                exact h9 (by decide)
            · exact char_ne_of_pred (hdig d h1) (by decide) (by decide)
        · exact absurd h (by simp)
      · exact absurd h (by simp)
    · exact absurd h (by simp)

theorem matchPan_sound (prev : Option Char) (t v : Str)
    (h : matchPan prev t = some v) : v ≠ [] ∧ Clean v := by
  simp only [matchPan] at h
  split at h
  · exact absurd h (by simp)
  · split at h
    · exact absurd h (by simp)
    · rename_i a r1 h5
      split at h
      · exact absurd h (by simp)
      · rename_i b r2 h4
        split at h
        · rename_i c r3
          split at h
          · rename_i hcc
            have hv := Option.some.inj h
            subst hv
            obtain ⟨hup, hlen5, -⟩ := takeExact_sound isUpperRe 5 t a r1 h5
            obtain ⟨hdig, -, -⟩ := takeExact_sound isDigitRe 4 r1 b _ h4
            simp only [Bool.and_eq_true] at hcc
            refine ⟨?_, ?_⟩
            · intro hx
              rw [List.append_eq_nil, List.append_eq_nil] at hx
              have hxl := congrArg List.length hx.1.1
              rw [hlen5] at hxl
              simp at hxl
            · refine clean_append (clean_append ?_ ?_) ?_
              · exact clean_of_forall (fun d hd =>
                  char_ne_of_pred (hup d hd) (by decide) (by decide))
              · exact clean_of_forall (fun d hd =>
                  char_ne_of_pred (hdig d hd) (by decide) (by decide))
              · refine clean_of_forall (fun d hd => ?_)
                rw [List.mem_singleton.mp hd]
                exact char_ne_of_pred hcc.1 (by decide) (by decide)
          · exact absurd h (by simp)
        · exact absurd h (by simp)

theorem matchAadhaar_sound (prev : Option Char) (t v : Str)
    (h : matchAadhaar prev t = some v) : v ≠ [] ∧ Clean v := by
  simp only [matchAadhaar] at h
  split at h
  · exact absurd h (by simp)
  · split at h
    · exact absurd h (by simp)
    · rename_i a r1 h4
      obtain ⟨s1, hs1, hf1⟩ := List.exists_of_findSome?_eq_some h
      split at hf1
      · exact absurd hf1 (by simp)
      · rename_i b r2 h42
        obtain ⟨s2, hs2, hf2⟩ := List.exists_of_findSome?_eq_some hf1
        split at hf2
        · exact absurd hf2 (by simp)
        · rename_i cc r3 h43
          split at hf2
          · exact absurd hf2 (by simp)
          · have hv := Option.some.inj hf2
            subst hv
            obtain ⟨hda, hlen4, -⟩ := takeExact_sound isDigitRe 4 t a r1 h4
            obtain ⟨hdb, -, -⟩ := takeExact_sound isDigitRe 4 s1.2 b r2 h42
            obtain ⟨hdc, -, -⟩ := takeExact_sound isDigitRe 4 s2.2 cc r3 h43
            obtain ⟨hsp1, -⟩ := optSpaceAlts_sound r1 s1.1 s1.2
              (by rw [Prod.mk.eta]; exact hs1)
            obtain ⟨hsp2, -⟩ := optSpaceAlts_sound r2 s2.1 s2.2
              (by rw [Prod.mk.eta]; exact hs2)
            constructor
            · intro hx
              rw [List.append_eq_nil, List.append_eq_nil, List.append_eq_nil,
                List.append_eq_nil] at hx
              have hxl := congrArg List.length hx.1.1.1.1
              rw [hlen4] at hxl
              simp at hxl
            · refine clean_append (clean_append (clean_append
                (clean_append ?_ ?_) ?_) ?_) ?_
              · exact clean_of_forall (fun d hd =>
                  char_ne_of_pred (hda d hd) (by decide) (by decide))
              · exact clean_of_forall (fun d hd =>
                  char_ne_of_pred (hsp1 d hd) (by decide) (by decide))
              · exact clean_of_forall (fun d hd =>
                  char_ne_of_pred (hdb d hd) (by decide) (by decide))
              · exact clean_of_forall (fun d hd =>
                  char_ne_of_pred (hsp2 d hd) (by decide) (by decide))
              · exact clean_of_forall (fun d hd =>
                  char_ne_of_pred (hdc d hd) (by decide) (by decide))

theorem tldSearch_sound (run : Str) (after : Option Char) (tld : Str)
    (h : tldSearch run after = some tld) : ∃ len, tld = run.take len := by
  simp only [tldSearch] at h
  obtain ⟨len, hlen, hf⟩ := List.exists_of_findSome?_eq_some h
  refine ⟨len, ?_⟩
  split at hf
  · exact (Option.some.inj hf).symm
  · exact absurd hf (by simp)

theorem matchEmail_sound (prev : Option Char) (t v : Str)
    (h : matchEmail prev t = some v) : v ≠ [] ∧ Clean v := by
  simp only [matchEmail] at h
  split at h
  · exact absurd h (by simp)
  · rename_i c0 t0
    split at h
    · exact absurd h (by simp)
    · split at h
      · exact absurd h (by simp)
      · split at h
        · rename_i r2 hr1
          obtain ⟨i, hi, hf⟩ := List.exists_of_findSome?_eq_some h
          split at hf
          · rename_i hcond
            cases htld : tldSearch ((r2.drop (i + 1)).takeWhile isEmailTld)
                (((r2.drop (i + 1)).dropWhile isEmailTld).head?) with
            | none => rw [htld] at hf; exact absurd hf (by simp)
            | some tld =>
              rw [htld] at hf
              have hf2 : some (((c0 :: t0).takeWhile isEmailLocal)
                  ++ '@' :: (r2.take i ++ '.' :: tld)) = some v := hf
              have hv := Option.some.inj hf2
              subst hv
              have hile : i ≤ (r2.takeWhile isEmailDomain).length := by
                rcases List.mem_map.mp hi with ⟨k, hk, hki⟩
                have hkr := List.mem_range.mp hk
                omega
              obtain ⟨len, htldeq⟩ := tldSearch_sound _ _ _ htld
              constructor
              · intro hx
                rw [List.append_eq_nil] at hx
                exact absurd hx.2 (by simp)
              · refine clean_of_forall (fun d hd => ?_)
                rcases List.mem_append.mp hd with h1 | h1
                · exact char_ne_of_pred (List.mem_takeWhile_imp h1)
                    (by decide) (by decide)
                · rcases List.mem_cons.mp h1 with h2 | h2
                  · rw [h2]; exact ⟨by decide, by decide⟩
                  · rcases List.mem_append.mp h2 with h3 | h3
                    · exact char_ne_of_pred
                        (take_pred_of_le_takeWhile isEmailDomain r2 i hile d h3)
                        (by decide) (by decide)
                    · rcases List.mem_cons.mp h3 with h4 | h4
                      · rw [h4]; exact ⟨by decide, by decide⟩
                      · rw [htldeq] at h4
                        exact char_ne_of_pred
                          (List.mem_takeWhile_imp (List.take_subset _ _ h4))
                          (by decide) (by decide)
          · exact absurd hf (by simp)
        · exact absurd h (by simp)

theorem unitOnce_sound (t u r : Str) (h : unitOnce t = some (u, r)) :
    ∀ c ∈ u, (isSpaceRe c || isUpperRe c || isLowerRe c) = true := by
  simp only [unitOnce] at h
  split at h
  · exact absurd h (by simp)
  · split at h
    · rename_i c r2 hr1
      split at h
      · rename_i hup
        split at h
        · exact absurd h (by simp)
        · have h2 : some ((t.takeWhile isSpaceRe) ++ c :: (r2.takeWhile isLowerRe),
              r2.dropWhile isLowerRe) = some (u, r) := h
          have hin := Option.some.inj h2
          rw [Prod.mk.injEq] at hin
          obtain ⟨hu, -⟩ := hin
          intro d hd
          rw [← hu] at hd
          rcases List.mem_append.mp hd with h1 | h1
          · rw [List.mem_takeWhile_imp h1]
            rfl
          · rcases List.mem_cons.mp h1 with h2 | h2
            · rw [h2, hup]
              simp
            · rw [List.mem_takeWhile_imp h2]
              simp
      · exact absurd h (by simp)
    · exact absurd h (by simp)

theorem unitsF_sound : ∀ (fuel : Nat) (t u r : Str), (u, r) ∈ unitsF fuel t →
    ∀ c ∈ u, (isSpaceRe c || isUpperRe c || isLowerRe c) = true := by
  intro fuel
  induction fuel with
  | zero => intro t u r hm; simp [unitsF] at hm
  | succ fuel ih =>
    intro t u r hm
    cases ho : unitOnce t with
    | none => simp [unitsF, ho] at hm
    | some pr =>
      obtain ⟨u0, r0⟩ := pr
      simp only [unitsF, ho] at hm
      rcases List.mem_cons.mp hm with he | hm'
      · rw [Prod.mk.injEq] at he
        obtain ⟨hu, -⟩ := he
        rw [hu]
        exact unitOnce_sound t u0 r0 ho
      · rcases List.mem_map.mp hm' with ⟨a, ha, haeq⟩
        rw [Prod.mk.injEq] at haeq
        obtain ⟨hu, -⟩ := haeq
        intro c hc
        rw [← hu] at hc
        rcases List.mem_append.mp hc with h1 | h1
        · exact unitOnce_sound t u0 r0 ho c h1
        · exact ih r0 a.1 a.2 (by rw [Prod.mk.eta]; exact ha) c h1

theorem honorifics_facts : ∀ hon ∈ honorifics,
    hon ≠ [] ∧ ∀ c ∈ hon, c ≠ '[' ∧ c ≠ ']' := by decide

theorem matchName_sound (prev : Option Char) (t v : Str)
    (h : matchName prev t = some v) : v ≠ [] ∧ Clean v := by
  simp only [matchName] at h
  split at h
  · exact absurd h (by simp)
  · obtain ⟨hon, hhon, hf⟩ := List.exists_of_findSome?_eq_some h
    split at hf
    · split at hf
      · exact absurd hf (by simp)
      · rename_i u0 r1 hu0
        obtain ⟨st, hst, hf2⟩ := List.exists_of_findSome?_eq_some hf
        split at hf2
        · exact absurd hf2 (by simp)
        · have hv := Option.some.inj hf2
          subst hv
          obtain ⟨hhne, hhcl⟩ := honorifics_facts hon hhon
          have hstchars : ∀ c ∈ st.1,
              (isSpaceRe c || isUpperRe c || isLowerRe c) = true := by
            have hst2 := List.mem_reverse.mp hst
            rcases List.mem_cons.mp hst2 with he | hm'
            · rw [he]
              exact unitOnce_sound _ u0 r1 hu0
            · rcases List.mem_map.mp hm' with ⟨a, ha, haeq⟩
              rw [← haeq]
              intro c hc
              rcases List.mem_append.mp hc with h1 | h1
              · exact unitOnce_sound _ u0 r1 hu0 c h1
              · exact unitsF_sound r1.length r1 a.1 a.2
                  (by rw [Prod.mk.eta]; exact ha) c h1
          constructor
          · intro hx
            rw [List.append_eq_nil] at hx
            exact hhne hx.1
          · refine clean_of_forall (fun d hd => ?_)
            rcases List.mem_append.mp hd with h1 | h1
            · exact hhcl d h1
            · exact @char_ne_of_pred d
                (fun c => isSpaceRe c || isUpperRe c || isLowerRe c)
                (hstchars d h1) (by decide) (by decide)
    · exact absurd hf (by simp)

theorem addrKeywords_facts : ∀ kw ∈ addrKeywords,
    kw ≠ [] ∧ ∀ c ∈ kw, c ≠ '[' ∧ c ≠ ']' := by decide

theorem matchAddress_sound (prev : Option Char) (t v : Str)
    (h : matchAddress prev t = some v) : v ≠ [] ∧ Clean v := by
  simp only [matchAddress] at h
  split at h
  · exact absurd h (by simp)
  · split at h
    · exact absurd h (by simp)
    · rename_i hds
      split at h
      · exact absurd h (by simp)
      · rename_i hseps
        obtain ⟨j, hj, hf⟩ := List.exists_of_findSome?_eq_some h
        obtain ⟨k, hk, hf2⟩ := List.exists_of_findSome?_eq_some hf
        obtain ⟨kw, hkw, hf3⟩ := List.exists_of_findSome?_eq_some hf2
        split at hf3
        · have hv := Option.some.inj hf3
          subst hv
          have hjle : j ≤ ((t.dropWhile isDigitRe).takeWhile isSepClass).length := by
            rcases List.mem_map.mp hj with ⟨k2, hk2, hki⟩
            have hkr := List.mem_range.mp hk2
            omega
          have hkle : k ≤ (((t.dropWhile isDigitRe).drop j).takeWhile
              isAddrBody).length := by
            rcases List.mem_map.mp hk with ⟨k2, hk2, hki⟩
            have hkr := List.mem_range.mp hk2
            omega
          obtain ⟨hkwne, hkwcl⟩ := addrKeywords_facts kw hkw
          constructor
          · intro hx
            rw [List.append_eq_nil, List.append_eq_nil, List.append_eq_nil] at hx
            exact hkwne hx.2
          · refine clean_of_forall (fun d hd => ?_)
            rcases List.mem_append.mp hd with h1 | h1
            · rcases List.mem_append.mp h1 with h2 | h2
              · rcases List.mem_append.mp h2 with h3 | h3
                · exact char_ne_of_pred (List.mem_takeWhile_imp h3)
                    (by decide) (by decide)
                · exact char_ne_of_pred
                    (take_pred_of_le_takeWhile isSepClass _ j hjle d h3)
                    (by decide) (by decide)
              · exact char_ne_of_pred
                  (take_pred_of_le_takeWhile isAddrBody _ k hkle d h2)
                  (by decide) (by decide)
            · exact hkwcl d h1
        · exact absurd hf3 (by simp)

theorem CATEGORIES_matcher_sound : ∀ cat ∈ CATEGORIES, ∀ prev t v,
    cat.matcher prev t = some v → v ≠ [] ∧ Clean v := by
  intro cat hcat
  simp only [CATEGORIES, List.mem_cons, List.not_mem_nil, or_false] at hcat
  rcases hcat with h | h | h | h | h | h <;> subst h
  · exact fun prev t v => matchAadhaar_sound prev t v
  · exact fun prev t v => matchPan_sound prev t v
  · exact fun prev t v => matchMobile_sound prev t v
  · exact fun prev t v => matchEmail_sound prev t v
  · exact fun prev t v => matchName_sound prev t v
  · exact fun prev t v => matchAddress_sound prev t v

theorem finditer_val_sound (cat : Category) (hcat : cat ∈ CATEGORIES) (s v : Str)
    (hv : v ∈ finditer cat.matcher s) : v ≠ [] ∧ Clean v := by
  obtain ⟨prev, t2, h⟩ := finditer_sound cat.matcher s v hv
  exact CATEGORIES_matcher_sound cat hcat prev t2 v h

theorem redact_map_entry (s : Str) :
    ∀ e ∈ (redact s).2, ∃ i, ((redact s).2)[i]? = some e ∧
      ∃ cat, cat ∈ CATEGORIES ∧ ∃ v, v ∈ finditer cat.matcher s ∧
        e = (mkPh cat.name (i + 1), v) := by
  intro e he
  have hmem : e ∈ catOps CATEGORIES s 0 := by
    rw [show (redact s).2 = catOps CATEGORIES s 0 by rw [redact_eq_chain]] at he
    exact he
  obtain ⟨i, hi⟩ := List.mem_iff_getElem?.mp hmem
  have hlen : i < (catOps CATEGORIES s 0).length := by
    by_contra hx
    push_neg at hx
    rw [List.getElem?_eq_none hx] at hi
    exact absurd hi (by simp)
  obtain ⟨cat, hcat, v, hv, he2⟩ := catOps_getElem CATEGORIES s 0 i hlen
  refine ⟨i, ?_, cat, hcat, v, hv, ?_⟩
  · rw [show (redact s).2 = catOps CATEGORIES s 0 by rw [redact_eq_chain]]
    exact hi
  · rw [hi] at he2
    have h3 := Option.some.inj he2
    rw [show 0 + i + 1 = i + 1 from by omega] at h3
    exact h3

theorem redact_map_facts (s : Str) :
    ∀ e ∈ (redact s).2, IsPh e.1 ∧ Clean e.2 ∧ e.2 ≠ [] := by
  intro e he
  obtain ⟨i, -, cat, hcat, v, hv, he2⟩ := redact_map_entry s e he
  obtain ⟨hvne, hvcl⟩ := finditer_val_sound cat hcat s v hv
  rw [he2]
  exact ⟨IsPh_mkPh _ _ (CATEGORIES_names cat hcat).2.1, hvcl, hvne⟩

theorem redact_map_keysfn (s : Str) :
    ∀ e ∈ (redact s).2, ∀ e2 ∈ (redact s).2, e.1 = e2.1 → e.2 = e2.2 := by
  intro e he e2 he2 hkey
  obtain ⟨i, hi, cat, hcat, v, hv, heq⟩ := redact_map_entry s e he
  obtain ⟨i2, hi2, cat2, hcat2, v2, hv2, heq2⟩ := redact_map_entry s e2 he2
  have h1 : e.1 = mkPh cat.name (i + 1) := by rw [heq]
  have h2 : e2.1 = mkPh cat2.name (i2 + 1) := by rw [heq2]
  rw [h1, h2] at hkey
  have hnum := mkPh_num_inj (CATEGORIES_names cat hcat).2.2
    (CATEGORIES_names cat2 hcat2).2.2 hkey
  have hieq : i = i2 := by omega
  rw [hieq] at hi
  rw [hi] at hi2
  rw [Option.some.inj hi2]

/-- Counterexample for C1: the input `"[AADHAAR_1] 1234 5678 9123"` satisfies
the specification's proviso — its only matched span is the aadhaar number, so
no two matched spans are substrings of one another, and no placeholder text
of the produced map matches any category's pattern — yet the round trip
fails: the input already contains the literal placeholder text `[AADHAAR_1]`,
and `restore` rewrites that occurrence as well. -/
theorem claim1_counterexample :
    (∀ a ∈ matchedSpans (toL "[AADHAAR_1] 1234 5678 9123"),
      ∀ b ∈ matchedSpans (toL "[AADHAAR_1] 1234 5678 9123"), a ≠ b → ¬ a <:+: b) ∧
    (∀ e ∈ (redact (toL "[AADHAAR_1] 1234 5678 9123")).2,
      ∀ cat ∈ CATEGORIES, finditer cat.matcher e.1 = []) ∧
    restore (redact (toL "[AADHAAR_1] 1234 5678 9123")).1
        (redact (toL "[AADHAAR_1] 1234 5678 9123")).2
      ≠ toL "[AADHAAR_1] 1234 5678 9123" := by
  refine ⟨by decide, by decide, by decide⟩

/-- C1 (amended): the round trip `restore (redact s).1 (redact s).2 = s` holds
whenever (H1) no placeholder key assigned by the map occurs as a substring of
the input — this is the condition the counterexample violates, and it holds
for every input that does not already contain a bracketed placeholder of the
produced map — and (H2) no mapped value occurs inside the bracket-free
interior of any assigned placeholder (interiors are `NAME_n`; a matched span
can only collide with one after at least 10^9 matches).  The specification's
substring proviso is neither necessary nor sufficient. -/
theorem claim1_amended (s : Str)
    (H1 : ∀ e ∈ (redact s).2, ¬ e.1 <:+: s)
    (H2 : ∀ e ∈ (redact s).2, ∀ e2 ∈ (redact s).2, ¬ e.2 <:+: phMid e2.1) :
    restore (redact s).1 (redact s).2 = s := by
  have hch := redact_eq_chain s
  have hmap : (redact s).2 = catOps CATEGORIES s 0 := by rw [hch]
  have hred : (redact s).1
      = redactChain ((catOps CATEGORIES s 0).map Prod.swap) s := by rw [hch]
  set ops := catOps CATEGORIES s 0 with hops
  have hall : ∀ op ∈ ops.map Prod.swap, op.1 ≠ [] ∧ Clean op.1 ∧ IsPh op.2 := by
    intro op hop
    rcases List.mem_map.mp hop with ⟨e, he, heq⟩
    have hf := redact_map_facts s e (by rw [hmap]; exact he)
    rw [← heq]
    exact ⟨hf.2.2, hf.2.1, hf.1⟩
  have hcrossOps : ∀ op ∈ ops.map Prod.swap, ∀ op2 ∈ ops.map Prod.swap,
      ¬ op.1 <:+: phMid op2.2 := by
    intro op hop op2 hop2
    rcases List.mem_map.mp hop with ⟨e, he, heq⟩
    rcases List.mem_map.mp hop2 with ⟨e2, he2, heq2⟩
    rw [← heq, ← heq2]
    exact H2 e (by rw [hmap]; exact he) e2 (by rw [hmap]; exact he2)
  obtain ⟨hrend, horig, hpairs, hheadlin, hlitslin⟩ :=
    applyChain_spec (ops.map Prod.swap) hall hcrossOps (ops.map Prod.swap)
      ⟨s, []⟩ (fun o ho => ho) (by intro pr l hm; simp at hm)
  have hrendx : render (⟨s, []⟩ : RTx) = s := by simp [render, renderPairs]
  have horigx : origRender (⟨s, []⟩ : RTx) = s := by simp [origRender, origPairs]
  rw [hrendx] at hrend
  set X := applyChain (ops.map Prod.swap) ⟨s, []⟩ with hX
  have hhead : X.head <:+: s := by
    rcases hheadlin with h | ⟨qr, l0, hm0, -⟩
    · exact h
    · simp at hm0
  have hopsfacts : ∀ op ∈ ops, IsPh op.1 ∧ Clean op.2 ∧ op.2 ≠ [] :=
    fun op hop => redact_map_facts s op (by rw [hmap]; exact hop)
  have hcross2 : ∀ op ∈ ops, ∀ op2 ∈ ops, ¬ op.2 <:+: phMid op2.1 :=
    fun o ho o2 ho2 =>
      H2 o (by rw [hmap]; exact ho) o2 (by rw [hmap]; exact ho2)
  have hkfn2 : ∀ op ∈ ops, ∀ op2 ∈ ops, op.1 = op2.1 → op.2 = op2.2 :=
    fun o ho o2 ho2 =>
      redact_map_keysfn s o (by rw [hmap]; exact ho) o2 (by rw [hmap]; exact ho2)
  have hpr2 : ∀ pr l, (pr, l) ∈ X.rest → (pr.2, pr.1) ∈ ops := by
    intro pr l hm
    rcases List.mem_map.mp (hpairs pr l hm) with ⟨e, he, heq⟩
    rw [← heq]
    exact he
  have hlits2 : ∀ op ∈ ops, ¬ op.1 <:+: X.head ∧
      ∀ pr l, (pr, l) ∈ X.rest → ¬ op.1 <:+: l := by
    intro op hop
    have hH1 := H1 op (by rw [hmap]; exact hop)
    constructor
    · exact fun hx => hH1 (hx.trans hhead)
    · intro pr l hm
      have hl : l <:+: s := by
        rcases hlitslin pr l hm with h | ⟨qr, l0, hm0, -⟩
        · exact h
        · simp at hm0
      exact fun hx => hH1 (hx.trans hl)
  rw [hmap, hred, ← hrend]
  exact (restore_render ops X hopsfacts hcross2 hkfn2 hpr2 hlits2).trans
    (horig.trans horigx)

/-- Witness for the amended C1 at a concrete multi-category input. -/
theorem claim1_witness :
    restore (redact (toL "Contact Mr. John Doe at 9876543210 or john@example.com")).1
        (redact (toL "Contact Mr. John Doe at 9876543210 or john@example.com")).2
      = toL "Contact Mr. John Doe at 9876543210 or john@example.com" :=
  claim1_amended (toL "Contact Mr. John Doe at 9876543210 or john@example.com")
    (by decide) (by decide)

/-- Counterexample for C3: the text `"1234 5678 9123 9876543210"` contains one
aadhaar-like and one mobile-like span, but the mobile span is numbered with
the shared map counter — its placeholder is `[MOBILE_2]`, not `[MOBILE_1]` as
a per-category counter starting at 1 would give. -/
theorem claim3_counterexample :
    ((redact (toL "1234 5678 9123 9876543210")).2).map Prod.fst
      = [mkPh (toL "AADHAAR") 1, mkPh (toL "MOBILE") 2] ∧
    mkPh (toL "MOBILE") 2 ≠ mkPh (toL "MOBILE") 1 :=
  ⟨by decide, by decide⟩

/-- C3 (amended): placeholders are numbered by ONE shared counter across all
categories — the map entry at 0-based position `i` is always
`[CATEGORY_(i+1)]` where `i + 1` counts all entries of the map so far (the
code uses `len(self.redaction_map) + 1`), not a per-category counter. -/
theorem claim3_amended (s : Str) (i : Nat) (h : i < (redact s).2.length) :
    ∃ cat, cat ∈ CATEGORIES ∧ ∃ v, v ∈ finditer cat.matcher s ∧
      ((redact s).2)[i]? = some (mkPh cat.name (i + 1), v) := by
  have hmap : (redact s).2 = catOps CATEGORIES s 0 := by rw [redact_eq_chain]
  rw [hmap] at h ⊢
  obtain ⟨cat, hcat, v, hv, he⟩ := catOps_getElem CATEGORIES s 0 i h
  refine ⟨cat, hcat, v, hv, ?_⟩
  rw [he, show 0 + i + 1 = i + 1 from by omega]

/-- Witness for the amended C3: in the counterexample text the second map
entry (position 1) carries the number 2. -/
theorem claim3_witness :
    ∃ cat, cat ∈ CATEGORIES ∧
      ∃ v, v ∈ finditer cat.matcher (toL "1234 5678 9123 9876543210") ∧
        ((redact (toL "1234 5678 9123 9876543210")).2)[1]?
          = some (mkPh cat.name 2, v) :=
  claim3_amended (toL "1234 5678 9123 9876543210") 1 (by decide)

theorem redactCat_of_no_match (cat : Category) (s : Str) (st : Str × List (Str × Str))
    (h : finditer cat.matcher s = []) : redactCat cat s st = st := by
  simp [redactCat, h]

/-- C9: on a string with no recognizable span of any category — in particular
the empty string and whitespace-only strings — `redact` returns the text
unchanged together with an empty map. -/
theorem claim9_noop (s : Str)
    (h : ∀ cat ∈ CATEGORIES, finditer cat.matcher s = []) : redact s = (s, []) := by
  have hgen : ∀ (cats : List Category), (∀ cat ∈ cats, finditer cat.matcher s = []) →
      ∀ st, cats.foldl (fun st cat => redactCat cat s st) st = st := by
    intro cats
    induction cats with
    | nil => intro _ st; rfl
    | cons cat cats' ih =>
      intro hc st
      simp only [List.foldl_cons]
      rw [redactCat_of_no_match cat s st (hc cat (List.mem_cons_self _ _))]
      exact ih (fun c hcm => hc c (List.mem_cons_of_mem _ hcm)) st
  exact hgen CATEGORIES h (s, [])

/-- Witness for C9 at the empty string and a whitespace-only string. -/
theorem claim9_witness :
    (∀ cat ∈ CATEGORIES, finditer cat.matcher (toL "") = []) ∧
    (∀ cat ∈ CATEGORIES, finditer cat.matcher (toL "   ") = []) ∧
    redact (toL "") = (toL "", []) ∧ redact (toL "   ") = (toL "   ", []) :=
  ⟨by decide, by decide, claim9_noop _ (by decide), claim9_noop _ (by decide)⟩

theorem redact_map_keys_nodup (s : Str) :
    List.Pairwise (fun a b : Str × Str => a.1 ≠ b.1) (redact s).2 := by
  rw [List.pairwise_iff_getElem]
  intro i j hi hj hij
  have hmap : (redact s).2 = catOps CATEGORIES s 0 := by rw [redact_eq_chain]
  have hi2 : i < (catOps CATEGORIES s 0).length := by rw [← hmap]; exact hi
  have hj2 : j < (catOps CATEGORIES s 0).length := by rw [← hmap]; exact hj
  obtain ⟨cat, hcat, v, hv, he⟩ := catOps_getElem CATEGORIES s 0 i hi2
  obtain ⟨cat2, hcat2, v2, hv2, he2⟩ := catOps_getElem CATEGORIES s 0 j hj2
  have hgi : ((redact s).2)[i]? = some (mkPh cat.name (0 + i + 1), v) := by
    rw [hmap]; exact he
  have hgj : ((redact s).2)[j]? = some (mkPh cat2.name (0 + j + 1), v2) := by
    rw [hmap]; exact he2
  rw [List.getElem?_eq_getElem hi] at hgi
  rw [List.getElem?_eq_getElem hj] at hgj
  have hki := congrArg Prod.fst (Option.some.inj hgi)
  have hkj := congrArg Prod.fst (Option.some.inj hgj)
  intro hx
  rw [hki, hkj] at hx
  have hnum := mkPh_num_inj (CATEGORIES_names cat hcat).2.2
    (CATEGORIES_names cat2 hcat2).2.2 hx
  omega

theorem restore_filter :
    ∀ (ops : List (Str × Str)),
      (∀ op ∈ ops, IsPh op.1 ∧ Clean op.2 ∧ op.2 ≠ []) →
      (∀ op ∈ ops, ∀ op2 ∈ ops, ¬ op.2 <:+: phMid op2.1) →
      List.Pairwise (fun a b : Str × Str => a.1 ≠ b.1) ops →
      ∀ t, restore t ops = restore t (ops.filter (fun e => containsSub e.1 t)) := by
  intro ops
  induction ops with
  | nil => intro _ _ _ t; rfl
  | cons op ops' ih =>
    intro hops hcross hnd t
    obtain ⟨hph, hcv, hvne⟩ := hops op (List.mem_cons_self _ _)
    have hpnd := List.pairwise_cons.mp hnd
    have hstep2 : restore t (op :: ops') = restore (replAll op.1 op.2 t) ops' := rfl
    by_cases hin : containsSub op.1 t = true
    · have hstep : restore t (op :: (ops'.filter (fun e => containsSub e.1 t)))
          = restore (replAll op.1 op.2 t)
              (ops'.filter (fun e => containsSub e.1 t)) := rfl
      rw [@List.filter_cons_of_pos _ (fun e : Str × Str => containsSub e.1 t)
        op ops' hin, hstep, hstep2]
      have hfeq : ops'.filter (fun e => containsSub e.1 t)
          = ops'.filter (fun e => containsSub e.1 (replAll op.1 op.2 t)) := by
        apply List.filter_congr
        intro e hme
        have hf := hops e (List.mem_cons_of_mem _ hme)
        have hne : e.1 ≠ op.1 := fun hx => (hpnd.1 e hme) hx.symm
        have hiff : e.1 <:+: t ↔ e.1 <:+: replAll op.1 op.2 t := by
          constructor
          · exact fun hx => replAll_infix_of hf.1 hph hne hx
          · intro hx
            by_contra hnx
            exact replAll_not_infix_of hf.1 hph hcv hvne
              (hcross op (List.mem_cons_self _ _) e (List.mem_cons_of_mem _ hme))
              hnx hx
        by_cases hb : e.1 <:+: t
        · rw [(containsSub_iff e.1 t).mpr hb,
            (containsSub_iff e.1 (replAll op.1 op.2 t)).mpr (hiff.mp hb)]
        · have e1 : containsSub e.1 t = false := by
            rw [Bool.eq_false_iff]
            exact fun hx => hb ((containsSub_iff e.1 t).mp hx)
          have e2 : containsSub e.1 (replAll op.1 op.2 t) = false := by
            rw [Bool.eq_false_iff]
            exact fun hx =>
              hb (hiff.mpr ((containsSub_iff e.1 (replAll op.1 op.2 t)).mp hx))
          rw [e1, e2]
      rw [hfeq]
      exact ih (fun o ho => hops o (List.mem_cons_of_mem _ ho))
        (fun o ho o2 ho2 =>
          hcross o (List.mem_cons_of_mem _ ho) o2 (List.mem_cons_of_mem _ ho2))
        hpnd.2 (replAll op.1 op.2 t)
    · rw [@List.filter_cons_of_neg _ (fun e : Str × Str => containsSub e.1 t)
        op ops' hin]
      have habs : ¬ op.1 <:+: t :=
        fun hx => hin ((containsSub_iff op.1 t).mpr hx)
      rw [hstep2, replAll_of_not_infix op.1 op.2 t habs]
      exact ih (fun o ho => hops o (List.mem_cons_of_mem _ ho))
        (fun o ho o2 ho2 =>
          hcross o (List.mem_cons_of_mem _ ho) o2 (List.mem_cons_of_mem _ ho2))
        hpnd.2 t

/-- C10: the map returned by `redact` can contain placeholder keys that never
occur in the redacted text (matching is done against the original text while
replacement happens on the evolving text); `restore` applied to the redacted
text is unchanged if all such absent keys are removed from the map, because
replacing an absent key is a no-op and replacing a present key can neither
create nor destroy occurrences of the other (distinct, bracket-delimited)
keys.  Hypothesis H2 rules out a mapped value occurring inside a placeholder
interior, as in C1. -/
theorem claim10_absent_keys (s : Str)
    (H2 : ∀ e ∈ (redact s).2, ∀ e2 ∈ (redact s).2, ¬ e.2 <:+: phMid e2.1) :
    restore (redact s).1 (redact s).2
      = restore (redact s).1 (((redact s).2).filter
          (fun e => containsSub e.1 (redact s).1)) :=
  restore_filter (redact s).2 (redact_map_facts s) H2 (redact_map_keys_nodup s)
    (redact s).1

/-- Witness for C10 at a text whose email match contains the mobile match:
the map gets two entries but the `[EMAIL_2]` key never occurs in the redacted
text, and dropping the absent keys does not change the decode result. -/
theorem claim10_witness :
    (∀ e ∈ (redact (toL "e: a.9876543210@b.co")).2,
      ∀ e2 ∈ (redact (toL "e: a.9876543210@b.co")).2, ¬ e.2 <:+: phMid e2.1) ∧
    restore (redact (toL "e: a.9876543210@b.co")).1
        (redact (toL "e: a.9876543210@b.co")).2
      = restore (redact (toL "e: a.9876543210@b.co")).1
          (((redact (toL "e: a.9876543210@b.co")).2).filter
            (fun e => containsSub e.1 (redact (toL "e: a.9876543210@b.co")).1)) :=
  ⟨by decide, claim10_absent_keys _ (by decide)⟩

end Nyaya
